import Mathlib

/-! # giovanibageston/pbkdf : a shallow embedding

The Go package derives keys from passwords (PBKDF1, PBKDF2), stores them as
`base64(salt):iterationCount:base64(key)` records and verifies passwords against
such records.  The definitions below follow the Go sources function by function:

* `pbkdf1.go`, `pbkdf2.go`  : `PBKDF1`, `PBKDF2`
* `util.go`                 : `GenerateRandomSequence`, `GenerateRandomByte`,
  `GenerateRandomInt64`, `ConvertUnsignedIntegerToByteSlice`,
  `ConvertSliceToUnsignedInteger`
* `passwordformat.go`       : `GeneratePasswordString`, `GetPasswordParametersFromString`
* `encode.go`, `verify.go`  : `EncodePassword`, `VerifyPassword`

The two engines are embedded twice: as functions of their five arguments, and
(`Stateful.PBKDF1`, `Stateful.PBKDF2`) in explicit state passing over the heap of hash
contexts, which is where a call could leave something behind for the next one.

Go values are embedded as follows.  A `byte` is a `Fin 256` (its arithmetic wraps
modulo 256 as in Go), a `[]byte` and a `string` are lists of bytes, `int64` and `int`
are `Int` (with an explicit wrap where a product could leave the 64-bit range), a Go
function returning `(T, error)` returns an `Outcome T`, which also records a run-time
panic.  Loops of the form `for i := a; i < b; i++` are recursions on the number of
their iterations.
-/

namespace Pbkdf

/-! ## Data model -/

/-- Go `byte`. -/
abbrev Byte := Fin 256

/-- Go `[]byte`; a Go `string` is the same sequence of bytes. -/
abbrev Bytes := List Byte

/-- The error values of the package, one constructor for each `errors.New` or
`fmt.Errorf` in the sources; the wrapping errors of `encode.go` and `verify.go`
carry the error they wrap. -/
inductive Err where
  | pbkdf1KeyTooLong
  | pbkdf1NegativeKeyLength
  | pbkdf1IterationCount
  | pbkdf1Write
  | pbkdf1IncompleteWrite
  | pbkdf2KeyTooLong
  | pbkdf2NegativeKeyLength
  | pbkdf2IterationCount
  | pbkdf2Write
  | pbkdf2IncompleteWrite
  | randomRead
  | randomShortRead
  | randomByteSeed (inner : Err)
  | randomInt64Seed (inner : Err)
  | formatFieldCount
  | formatSalt
  | formatIterationCount
  | formatKey
  | encodeSalt (inner : Err)
  | encodeKdf (inner : Err)
  | verifyParameters (inner : Err)
  | verifyKdf (inner : Err)
  deriving DecidableEq, Repr

/-- What a call of a Go function `f(...) (T, error)` does: it returns a value with a
nil error, returns a non-nil error, or panics at run time (index out of range,
division by zero, negative `make` length). -/
inductive Outcome (α : Type) where
  | ok (value : α)
  | error (e : Err)
  | panic
  deriving DecidableEq, Repr

namespace Outcome

/-- The call returned with a non-nil error. -/
def isError {α : Type} : Outcome α → Bool
  | error _ => true
  | _ => false

/-- The call returned with a nil error. -/
def isOk {α : Type} : Outcome α → Bool
  | ok _ => true
  | _ => false

end Outcome

/-- Conversion of an integer to `int64`: two's complement wrap-around. -/
def wrapInt64 (x : Int) : Int := (x + 2 ^ 63) % 2 ^ 64 - 2 ^ 63

/-- Conversion `uint64(i)` of an `int64`. -/
def toUint64 (i : Int) : Nat := (i % 2 ^ 64).toNat

/-- Conversion `byte(x)` of an unsigned integer: the low eight bits. -/
def toByte (x : Nat) : Byte := Fin.ofNat x

/-- Result of `make([]byte, n)`: `n` zero bytes. -/
def makeBytes (n : Nat) : Bytes := List.replicate n 0

/-- Go `s[:hi]` on a slice whose capacity is its length: panics when `hi` is out of
range. -/
def sliceTo (s : Bytes) (hi : Int) : Outcome Bytes :=
  if 0 ≤ hi ∧ hi ≤ s.length then .ok (s.take hi.toNat) else .panic

/-- Go `copy(dst[at:], src)`: panics when `at` is out of range, otherwise overwrites
`min(len(dst) - at, len(src))` bytes of `dst` starting at `at`. -/
def copyAt (dst : Bytes) (at_ : Int) (src : Bytes) : Outcome Bytes :=
  if 0 ≤ at_ ∧ at_ ≤ dst.length then
    let n := min (dst.length - at_.toNat) src.length
    .ok (dst.take at_.toNat ++ src.take n ++ dst.drop (at_.toNat + n))
  else .panic

/-- Go `b[i] = v`: panics when `i` is out of range. -/
def setIndex (b : Bytes) (i : Int) (v : Byte) : Outcome Bytes :=
  if 0 ≤ i ∧ i < b.length then .ok (b.set i.toNat v) else .panic

/-- The 64-bit signed range, the type `int64` of the iteration count. -/
def isInt64 (i : Int) : Prop := -2 ^ 63 ≤ i ∧ i < 2 ^ 63

instance isInt64.decidable (i : Int) : Decidable (isInt64 i) :=
  inferInstanceAs (Decidable (-2 ^ 63 ≤ i ∧ i < 2 ^ 63))

/-! ## The hash collaborator (`crypto.Hash`, `hash.Hash`) -/

/-- A `crypto.Hash` that is linked into the binary.  `Size` is `hash.Size()`; `sum m`
is the digest of the message `m`.  `crypto.Hash.Size` reads a table of `uint8` digest
sizes, hence `Size_lt`; a digest has `Size` bytes, hence `sum_length`. -/
structure Hash where
  Size : Nat
  sum : Bytes → Bytes
  sum_length : ∀ m, (sum m).length = Size
  Size_lt : Size < 256

/-- State of a `hash.Hash` context: the bytes written since the last reset. -/
abbrev HashCtx := Bytes

/-- Go `hash.New()`: a fresh context. -/
def Hash.New (_hash : Hash) : HashCtx := []

/-- Go `PRF.Write(p)`: appends `p` to the running hash; returns the new state, the
number of bytes written and whether the error is non-nil (`hash.Hash` documents that
`Write` never returns an error). -/
def HashCtx.Write (ctx : HashCtx) (p : Bytes) : HashCtx × Int × Bool :=
  (ctx ++ p, p.length, false)

/-- Go `PRF.Sum(b)`: appends the current digest to `b`; the state is unchanged. -/
def Hash.Sum (hash : Hash) (ctx : HashCtx) (b : Bytes) : Bytes := b ++ hash.sum ctx

/-- Go `PRF.Reset()`. -/
def HashCtx.Reset (_ctx : HashCtx) : HashCtx := []

/-! ## `pbkdf1.go` -/

/-- The loop `for i := int64(0); i < c; i++` of `PBKDF1`, with `n` iterations left. -/
def pbkdf1Loop (hash : Hash) : Nat → Bytes → HashCtx → Outcome (Bytes × HashCtx)
  | 0, T, PRF => .ok (T, PRF)
  | n + 1, T, PRF =>
    match HashCtx.Write PRF T with
    | (PRF1, written, err) =>
      if err then .error .pbkdf1Write
      else if written ≠ T.length then .error .pbkdf1IncompleteWrite
      else pbkdf1Loop hash n (hash.Sum PRF1 []) (HashCtx.Reset PRF1)

/-- Go `PBKDF1(hash, P, S, c, dkLen)`. -/
def PBKDF1 (hash : Hash) (P S : Bytes) (c dkLen : Int) : Outcome Bytes :=
  if (hash.Size : Int) < dkLen then .error .pbkdf1KeyTooLong
  else if dkLen < 0 then .error .pbkdf1NegativeKeyLength
  else if c ≤ 0 then .error .pbkdf1IterationCount
  else
    match copyAt (makeBytes (P.length + S.length)) 0 P with
    | .ok T0 =>
      match copyAt T0 P.length S with
      | .ok T1 =>
        match pbkdf1Loop hash c.toNat T1 hash.New with
        | .ok (T, _) => sliceTo T dkLen
        | .error e => .error e
        | .panic => .panic
      | .error e => .error e
      | .panic => .panic
    | .error e => .error e
    | .panic => .panic

/-! ## `util.go` : the integer/byte codec -/

/-- The loop of the `!bigEndian` branch of `ConvertUnsignedIntegerToByteSlice`
(`for i := 0; i < byteLength; i++`), with `n` iterations left: the shift count is
reduced by eight, then `b[i] = byte(integer >> shiftCount)`.  A shift by a negative
count panics in Go. -/
def convertLoopFalse (integer : Nat) : Nat → Int → Int → Bytes → Outcome Bytes
  | 0, _, _, b => .ok b
  | n + 1, i, shiftCount, b =>
    if shiftCount - 8 < 0 then .panic
    else
      match setIndex b i (toByte (integer >>> (shiftCount - 8).toNat)) with
      | .ok b1 => convertLoopFalse integer n (i + 1) (shiftCount - 8) b1
      | .error e => .error e
      | .panic => .panic

/-- The loop of the `bigEndian` branch of `ConvertUnsignedIntegerToByteSlice`, which
the source writes `for i := 0; i < byteLength; i--`: the index goes down.  `fuel`
bounds the number of iterations; `none` means the fuel ran out. -/
def convertLoopTrue (integer : Nat) (byteLength : Int) :
    Nat → Int → Int → Bytes → Option (Outcome Bytes)
  | 0, _, _, _ => none
  | fuel + 1, i, shiftCount, b =>
    if i < byteLength then
      if shiftCount < 0 then some .panic
      else
        match setIndex b i (toByte (integer >>> shiftCount.toNat)) with
        | .ok b1 => convertLoopTrue integer byteLength fuel (i - 1) (shiftCount + 8) b1
        | .error e => some (.error e)
        | .panic => some .panic
    else some (.ok b)

/-- Go `ConvertUnsignedIntegerToByteSlice(integer, byteLength, bigEndian)`, for a
`uint64` value `integer`.  `make` panics on a negative length.  In the `bigEndian`
branch the second iteration, if there is one, indexes `b[-1]`, so two units of fuel
always suffice. -/
def ConvertUnsignedIntegerToByteSlice (integer : Nat) (byteLength : Int) (bigEndian : Bool) :
    Outcome Bytes :=
  if byteLength < 0 then .panic
  else
    let b := makeBytes byteLength.toNat
    if !bigEndian then
      convertLoopFalse integer byteLength.toNat 0 (byteLength * 8) b
    else
      match convertLoopTrue integer byteLength 2 0 0 b with
      | some o => o
      | none => .panic

/-- The loop of the `!bigEndian` branch of `ConvertSliceToUnsignedInteger`
(`for i := 0; i < byteLength; i++`), read along the slice: the shift count is reduced
by eight, then `integer += uint64(slice[i]) << shiftCount`, in 64-bit unsigned
arithmetic. -/
def sliceLoopFalse : Bytes → Int → Nat → Outcome Nat
  | [], _, integer => .ok integer
  | b :: rest, shiftCount, integer =>
    if shiftCount - 8 < 0 then .panic
    else
      sliceLoopFalse rest (shiftCount - 8)
        ((integer + (b.val <<< (shiftCount - 8).toNat) % 2 ^ 64) % 2 ^ 64)

/-- The loop of the `bigEndian` branch of `ConvertSliceToUnsignedInteger`:
`integer += uint64(slice[i]) << shiftCount`, then the shift count grows by eight. -/
def sliceLoopTrue : Bytes → Int → Nat → Outcome Nat
  | [], _, integer => .ok integer
  | b :: rest, shiftCount, integer =>
    if shiftCount < 0 then .panic
    else
      sliceLoopTrue rest (shiftCount + 8)
        ((integer + (b.val <<< shiftCount.toNat) % 2 ^ 64) % 2 ^ 64)

/-- Go `ConvertSliceToUnsignedInteger(slice, bigEndian)`; the result is a `uint64`. -/
def ConvertSliceToUnsignedInteger (slice : Bytes) (bigEndian : Bool) : Outcome Nat :=
  if !bigEndian then sliceLoopFalse slice (8 * (slice.length : Int)) 0
  else sliceLoopTrue slice 0 0

/-! ## `pbkdf2.go` -/

/-- The loop `for k := 0; k < len(result); k++ { result[k] ^= lastU[k] }` of `PBKDF2`:
panics when `lastU` is shorter than `result`. -/
def xorInto : Bytes → Bytes → Outcome Bytes
  | [], _ => .ok []
  | _ :: _, [] => .panic
  | r :: rs, u :: us =>
    match xorInto rs us with
    | .ok t => .ok ((r ^^^ u) :: t)
    | .error e => .error e
    | .panic => .panic

/-- The loop `for j := int64(0); j < c; j++` of the closure `F` of `PBKDF2`, with `n`
iterations left; the state is `lastU`, `result` and the shared context `PRF`. -/
def pbkdf2Rounds (hash : Hash) (P : Bytes) :
    Nat → Bytes → Bytes → HashCtx → Outcome (Bytes × HashCtx)
  | 0, _, result, PRF => .ok (result, PRF)
  | n + 1, lastU, result, PRF =>
    match HashCtx.Write PRF P with
    | (PRF1, written, err) =>
      if err then .error .pbkdf2Write
      else if written ≠ P.length then .error .pbkdf2IncompleteWrite
      else
        match HashCtx.Write PRF1 lastU with
        | (PRF2, written2, err2) =>
          if err2 then .error .pbkdf2Write
          else if written2 ≠ lastU.length then .error .pbkdf2IncompleteWrite
          else
            match xorInto result (hash.Sum PRF2 []) with
            | .ok result1 =>
              pbkdf2Rounds hash P n (hash.Sum PRF2 []) result1 (HashCtx.Reset PRF2)
            | .error e => .error e
            | .panic => .panic

/-- The closure `F` of `PBKDF2`; `P`, `S`, `c`, `hLen` are captured, the context `PRF`
is the one shared by all calls and is passed through. -/
def PBKDF2.F (hash : Hash) (P S : Bytes) (c hLen : Int) (PRF : HashCtx) (i : Int) :
    Outcome (Bytes × HashCtx) :=
  match copyAt (makeBytes (S.length + 4)) 0 S with
  | .ok lastU0 =>
    match ConvertUnsignedIntegerToByteSlice (toUint64 i) 4 false with
    | .ok enc =>
      match copyAt lastU0 S.length enc with
      | .ok lastU => pbkdf2Rounds hash P c.toNat lastU (makeBytes hLen.toNat) PRF
      | .error e => .error e
      | .panic => .panic
    | .error e => .error e
    | .panic => .panic
  | .error e => .error e
  | .panic => .panic

/-- The loop `for i := int64(1); i < l; i++` of `PBKDF2`, with `n` iterations left;
the state is the block index `i`, `DK`, `currIndex` and the shared context. -/
def pbkdf2Blocks (hash : Hash) (P S : Bytes) (c hLen : Int) :
    Nat → Int → Bytes → Int → HashCtx → Outcome (Bytes × Int × HashCtx)
  | 0, _, DK, currIndex, PRF => .ok (DK, currIndex, PRF)
  | n + 1, i, DK, currIndex, PRF =>
    match PBKDF2.F hash P S c hLen PRF i with
    | .ok (f, PRF1) =>
      match copyAt DK currIndex f with
      | .ok DK1 => pbkdf2Blocks hash P S c hLen n (i + 1) DK1 (currIndex + hLen) PRF1
      | .error e => .error e
      | .panic => .panic
    | .error e => .error e
    | .panic => .panic

/-- Go `PBKDF2(hash, P, S, c, dkLen)`.  `dkLen / hLen` and `dkLen % hLen` are Go's
truncated division, which panics when `hLen` is zero. -/
def PBKDF2 (hash : Hash) (P S : Bytes) (c dkLen : Int) : Outcome Bytes :=
  let hLen : Int := hash.Size
  let maxKeyLen : Int := wrapInt64 ((2 ^ 32 - 1) * hLen)
  if dkLen > maxKeyLen then .error .pbkdf2KeyTooLong
  else if dkLen < 0 then .error .pbkdf2NegativeKeyLength
  else if c ≤ 0 then .error .pbkdf2IterationCount
  else if hLen = 0 then .panic
  else
    let r : Int := Int.tmod dkLen hLen
    let l : Int := if r ≠ 0 then Int.tdiv dkLen hLen + 1 else Int.tdiv dkLen hLen
    match pbkdf2Blocks hash P S c hLen (l - 1).toNat 1 (makeBytes dkLen.toNat) 0 hash.New with
    | .ok (DK, currIndex, PRF) =>
      match PBKDF2.F hash P S c hLen PRF l with
      | .ok (f, _) =>
        if r = 0 then copyAt DK currIndex f
        else
          match sliceTo f r with
          | .ok fr => copyAt DK currIndex fr
          | .error e => .error e
          | .panic => .panic
      | .error e => .error e
      | .panic => .panic
    | .error e => .error e
    | .panic => .panic

/-! ## Standard-library collaborators of `passwordformat.go`

`encoding/base64`, `strconv`, `strings` and `fmt` are not part of the repository; the
definitions of this section follow their documented behaviour (RFC 4648 for
`base64.StdEncoding`, the package documentation of `strconv.ParseInt`,
`strings.Split` and the verb `%d`). -/

/-- The padding character `=` of `base64.StdEncoding`. -/
def padChar : Byte := 61

/-- The separator `:` of the record format. -/
def colon : Byte := 58

/-- The alphabet of `base64.StdEncoding`: `A`-`Z`, `a`-`z`, `0`-`9`, `+`, `/`. -/
def encodeStd (v : Nat) : Byte :=
  if v < 26 then toByte (65 + v)
  else if v < 52 then toByte (97 + (v - 26))
  else if v < 62 then toByte (48 + (v - 52))
  else if v = 62 then 43
  else 47

/-- The decode map of `base64.StdEncoding`: the six-bit value of an alphabet
character, `none` for every other byte. -/
def decodeMap (ch : Byte) : Option Nat :=
  if 65 ≤ ch.val ∧ ch.val ≤ 90 then some (ch.val - 65)
  else if 97 ≤ ch.val ∧ ch.val ≤ 122 then some (ch.val - 97 + 26)
  else if 48 ≤ ch.val ∧ ch.val ≤ 57 then some (ch.val - 48 + 52)
  else if ch.val = 43 then some 62
  else if ch.val = 47 then some 63
  else none

/-- Go `base64.StdEncoding.EncodeToString`: three bytes give four characters; a final
group of one or two bytes is padded with `=`. -/
def base64Encode : Bytes → Bytes
  | [] => []
  | [a] =>
    [encodeStd (a.val / 4), encodeStd (a.val % 4 * 16), padChar, padChar]
  | [a, b] =>
    [encodeStd (a.val / 4), encodeStd (a.val % 4 * 16 + b.val / 16),
      encodeStd (b.val % 16 * 4), padChar]
  | a :: b :: c :: rest =>
    encodeStd (a.val / 4) :: encodeStd (a.val % 4 * 16 + b.val / 16) ::
      encodeStd (b.val % 16 * 4 + c.val / 64) :: encodeStd (c.val % 64) :: base64Encode rest

/-- The decoder skips `\r` and `\n`. -/
def isNewline (ch : Byte) : Bool := ch.val = 10 || ch.val = 13

/-- The decoder's `for si < len(src) && (src[si] == '\n' || src[si] == '\r')`. -/
def skipNewlines : Bytes → Bytes
  | [] => []
  | ch :: rest => if isNewline ch then skipNewlines rest else ch :: rest

/-- The decoding loop of `base64.StdEncoding` as a machine over the input: `dbuf` holds
the six-bit values read in the current group of four, `out` the bytes decoded so far.
The input must end on a group boundary; `=` is accepted only as the third and fourth
or as the fourth character of the last group, followed by nothing but newlines; the
encoding is not strict, so the unused low bits of a padded group are not checked.
`none` is a `CorruptInputError`. -/
def base64DecodeLoop : Bytes → List Nat → Bytes → Option Bytes
  | [], dbuf, out => if dbuf = [] then some out else none
  | ch :: rest, dbuf, out =>
    match decodeMap ch with
    | some v =>
      match dbuf with
      | [d0, d1, d2] =>
        base64DecodeLoop rest []
          (out ++ [toByte (d0 * 4 + d1 / 16), toByte (d1 % 16 * 16 + d2 / 4),
            toByte (d2 % 4 * 64 + v)])
      | _ => base64DecodeLoop rest (dbuf ++ [v]) out
    | none =>
      if isNewline ch then base64DecodeLoop rest dbuf out
      else if ch ≠ padChar then none
      else
        match dbuf with
        | [d0, d1] =>
          match skipNewlines rest with
          | [] => none
          | p :: rest1 =>
            if p ≠ padChar then none
            else if skipNewlines rest1 = [] then some (out ++ [toByte (d0 * 4 + d1 / 16)])
            else none
        | [d0, d1, d2] =>
          if skipNewlines rest = [] then
            some (out ++ [toByte (d0 * 4 + d1 / 16), toByte (d1 % 16 * 16 + d2 / 4)])
          else none
        | _ => none

/-- Go `base64.StdEncoding.DecodeString`; `none` when it returns an error. -/
def base64Decode (s : Bytes) : Option Bytes := base64DecodeLoop s [] []

/-- Decimal digits of a natural number, most significant first, no leading zero;
`fuel` bounds the number of digits. -/
def natDigits : Nat → Nat → Bytes
  | 0, _ => []
  | fuel + 1, n =>
    if n < 10 then [toByte (48 + n)] else natDigits fuel (n / 10) ++ [toByte (48 + n % 10)]

/-- The verb `%d` of `fmt` on an integer: a minus sign for a negative value, then the
decimal digits of the magnitude. -/
def formatInt (i : Int) : Bytes :=
  if i < 0 then 45 :: natDigits (i.natAbs + 1) i.natAbs else natDigits (i.natAbs + 1) i.natAbs

/-- An ASCII decimal digit. -/
def isDigit (ch : Byte) : Bool := decide (48 ≤ ch.val) && decide (ch.val ≤ 57)

/-- The digit loop of `strconv.ParseUint` in base 10: `none` (a syntax error) on a byte
that is not a decimal digit.  The value is accumulated without a bound; `ParseInt`
checks the range afterwards. -/
def parseDigits : Bytes → Nat → Option Nat
  | [], n => some n
  | ch :: rest, n => if isDigit ch then parseDigits rest (n * 10 + (ch.val - 48)) else none

/-- Go `strconv.ParseInt(s, 10, 64)`; `none` when it returns an error.  An optional
sign, then at least one decimal digit; the value must lie in `[-2^63, 2^63 - 1]`. -/
def ParseInt (s : Bytes) : Option Int :=
  match s with
  | [] => none
  | ch :: rest =>
    let neg : Bool := ch.val = 45
    let body : Bytes := if ch.val = 43 ∨ ch.val = 45 then rest else s
    if body = [] then none
    else
      match parseDigits body 0 with
      | none => none
      | some un =>
        if !neg && decide (2 ^ 63 ≤ un) then none
        else if neg && decide (2 ^ 63 < un) then none
        else some (if neg then -(un : Int) else (un : Int))

/-- Go `strings.Split(s, sep)` for a separator of one byte: the fields between the
occurrences of `sep`; a string without `sep` is a single field. -/
def Split (s : Bytes) (sep : Byte) : List Bytes :=
  match s with
  | [] => [[]]
  | ch :: rest =>
    if ch = sep then [] :: Split rest sep
    else
      match Split rest sep with
      | [] => [[ch]]
      | field :: fields => (ch :: field) :: fields

/-- The bytes of an ASCII string literal. -/
def ascii (s : String) : Bytes := s.toList.map (fun ch => toByte ch.toNat)

/-! ## `passwordformat.go` -/

/-- Go `GeneratePasswordString(salt, iterationCount, encodedPassword)`:
`fmt.Sprintf("%s:%d:%s", base64(salt), iterationCount, base64(encodedPassword))`. -/
def GeneratePasswordString (salt : Bytes) (iterationCount : Int) (encodedPassword : Bytes) :
    Bytes :=
  base64Encode salt ++ colon :: formatInt iterationCount
    ++ colon :: base64Encode encodedPassword

/-- Go `GetPasswordParametersFromString(encodedPassword)`. -/
def GetPasswordParametersFromString (encodedPassword : Bytes) :
    Outcome (Bytes × Int × Bytes) :=
  match Split encodedPassword colon with
  | [f0, f1, f2] =>
    match base64Decode f0 with
    | none => .error .formatSalt
    | some saltAsbytes =>
      match ParseInt f1 with
      | none => .error .formatIterationCount
      | some iterationCount =>
        match base64Decode f2 with
        | none => .error .formatKey
        | some passwordHash => .ok (saltAsbytes, iterationCount, passwordHash)
  | _ => .error .formatFieldCount

/-! ## `util.go` : the random source -/

/-- What `crypto/rand.Read(seq)` does on a buffer of a given length: the bytes it
delivers (it writes as many of them as fit into `seq` and reports that number) and
whether it returns a non-nil error. -/
structure RandRead where
  data : Bytes
  err : Bool

/-- The external random source: its answer to a read into a buffer of `n` bytes. -/
abbrev RandomSource := Nat → RandRead

/-- Go `GenerateRandomSequence(length)`; `make` panics on a negative length. -/
def GenerateRandomSequence (rand : RandomSource) (length : Int) : Outcome Bytes :=
  if length < 0 then .panic
  else
    match copyAt (makeBytes length.toNat) 0 (rand length.toNat).data with
    | .ok seq =>
      if (rand length.toNat).err then .error .randomRead
      else if (min length.toNat (rand length.toNat).data.length : Int) ≠ length then
        .error .randomShortRead
      else .ok seq
    | .error e => .error e
    | .panic => .panic

/-- Go `GenerateRandomByte(min, max)`: `randomSeed[0]%(max-min+1) + min` in `byte`
arithmetic; the remainder of a division by zero panics. -/
def GenerateRandomByte (rand : RandomSource) (min max : Byte) : Outcome Byte :=
  match GenerateRandomSequence rand 1 with
  | .error e => .error (.randomByteSeed e)
  | .panic => .panic
  | .ok randomSeed =>
    match randomSeed with
    | [] => .panic
    | seed :: _ => if max - min + 1 = 0 then .panic else .ok (seed % (max - min + 1) + min)

/-- Go `GenerateRandomInt64(min, max)`:
`int64(randomSeedAsInt64 % uint64(max-min+1)) + min`, where `max-min+1` and the final
sum are `int64` arithmetic and the remainder is `uint64` arithmetic; the remainder of
a division by zero panics. -/
def GenerateRandomInt64 (rand : RandomSource) (min max : Int) : Outcome Int :=
  match GenerateRandomSequence rand 8 with
  | .error e => .error (.randomInt64Seed e)
  | .panic => .panic
  | .ok randomSeed =>
    match ConvertSliceToUnsignedInteger randomSeed false with
    | .ok randomSeedAsInt64 =>
      if toUint64 (wrapInt64 (wrapInt64 (max - min) + 1)) = 0 then .panic
      else
        .ok (wrapInt64 (wrapInt64
          ((randomSeedAsInt64 % toUint64 (wrapInt64 (wrapInt64 (max - min) + 1)) : Nat) : Int)
            + min))
    | .error e => .error e
    | .panic => .panic

/-! ## `pbkdf.go`, `encode.go`, `verify.go` -/

/-- Go `type PBKDF func(hash, P, S, c, dkLen) ([]byte, error)`. -/
abbrev PBKDF := Hash → Bytes → Bytes → Int → Int → Outcome Bytes

/-- Go `EncodePassword(hash, password, saltLength, iterationCount, keyLength, kdf)`,
with the random source made explicit. -/
def EncodePassword (rand : RandomSource) (hash : Hash) (password : Bytes)
    (saltLength iterationCount keyLength : Int) (kdf : PBKDF) : Outcome Bytes :=
  match GenerateRandomSequence rand saltLength with
  | .error e => .error (.encodeSalt e)
  | .panic => .panic
  | .ok saltAsBytes =>
    match kdf hash password saltAsBytes iterationCount keyLength with
    | .error e => .error (.encodeKdf e)
    | .panic => .panic
    | .ok encodedPassword =>
      .ok (GeneratePasswordString saltAsBytes iterationCount encodedPassword)

/-- The loop `for i, v := range passwordHash { if v != passwordHash2[i] ... }` of
`VerifyPassword`: indexing `passwordHash2` panics when it is the shorter one. -/
def compareLoop : Bytes → Bytes → Outcome Bool
  | [], _ => .ok true
  | _ :: _, [] => .panic
  | v :: vs, w :: ws => if v ≠ w then .ok false else compareLoop vs ws

/-- Go `VerifyPassword(hash, password, encodedPassword, kdf)`. -/
def VerifyPassword (hash : Hash) (password encodedPassword : Bytes) (kdf : PBKDF) :
    Outcome Bool :=
  match GetPasswordParametersFromString encodedPassword with
  | .error e => .error (.verifyParameters e)
  | .panic => .panic
  | .ok (saltAsBytes, iterationCount, passwordHash) =>
    match kdf hash password saltAsBytes iterationCount passwordHash.length with
    | .error e => .error (.verifyKdf e)
    | .panic => .panic
    | .ok passwordHash2 =>
      if passwordHash.length ≠ passwordHash2.length then .ok false
      else compareLoop passwordHash passwordHash2

/-- Go `EncodePasswordPBKDF1`. -/
def EncodePasswordPBKDF1 (rand : RandomSource) (hash : Hash) (password : Bytes)
    (saltLength iterationCount keyLength : Int) : Outcome Bytes :=
  EncodePassword rand hash password saltLength iterationCount keyLength PBKDF1

/-- Go `EncodePasswordPBKDF2`. -/
def EncodePasswordPBKDF2 (rand : RandomSource) (hash : Hash) (password : Bytes)
    (saltLength iterationCount keyLength : Int) : Outcome Bytes :=
  EncodePassword rand hash password saltLength iterationCount keyLength PBKDF2

/-- Go `VerifyPasswordPBKDF1`. -/
def VerifyPasswordPBKDF1 (hash : Hash) (password encodedPassword : Bytes) : Outcome Bool :=
  VerifyPassword hash password encodedPassword PBKDF1

/-- Go `VerifyPasswordPBKDF2`. -/
def VerifyPasswordPBKDF2 (hash : Hash) (password encodedPassword : Bytes) : Outcome Bool :=
  VerifyPassword hash password encodedPassword PBKDF2

/-! ## The engines in explicit state passing

The only objects that an engine changes and that are not local buffers are `hash.Hash`
contexts, reached through the pointer that `hash.New()` returns.  Here the contexts
live in a heap that is passed through every call, so that what one call leaves behind
is there when the next call starts. -/

/-- The `hash.Hash` contexts allocated so far, by address, each in the state of
`HashCtx`; contexts of earlier calls stay in the heap in whatever state they were
left. -/
abbrev Heap := List HashCtx

/-- Go `hash.New()` against a heap: a context is allocated behind the existing ones
and its address is returned. -/
def Heap.New (heap : Heap) (hash : Hash) : Nat × Heap := (heap.length, heap ++ [hash.New])

/-- Go `PRF.Write(p)` through the pointer `PRF`.  (Addresses come from `Heap.New` only,
so the default of `getD` is never read.) -/
def Heap.Write (heap : Heap) (PRF : Nat) (p : Bytes) : Heap × Int × Bool :=
  match HashCtx.Write (heap.getD PRF []) p with
  | (ctx, written, err) => (heap.set PRF ctx, written, err)

/-- Go `PRF.Sum(b)` through the pointer `PRF`; the heap is unchanged. -/
def Heap.Sum (heap : Heap) (hash : Hash) (PRF : Nat) (b : Bytes) : Bytes :=
  hash.Sum (heap.getD PRF []) b

/-- Go `PRF.Reset()` through the pointer `PRF`. -/
def Heap.Reset (heap : Heap) (PRF : Nat) : Heap :=
  heap.set PRF (HashCtx.Reset (heap.getD PRF []))

/-- The loop of `PBKDF1` over the heap, with `n` iterations left; `PRF` is the address
of the context. -/
def Stateful.pbkdf1Loop (hash : Hash) (PRF : Nat) : Nat → Bytes → Heap → Outcome Bytes × Heap
  | 0, T, heap => (.ok T, heap)
  | n + 1, T, heap =>
    match Heap.Write heap PRF T with
    | (heap1, written, err) =>
      if err then (.error .pbkdf1Write, heap1)
      else if written ≠ T.length then (.error .pbkdf1IncompleteWrite, heap1)
      else Stateful.pbkdf1Loop hash PRF n (Heap.Sum heap1 hash PRF []) (Heap.Reset heap1 PRF)

/-- Go `PBKDF1(hash, P, S, c, dkLen)` started in the heap `heap`: the result and the
heap that the call leaves. -/
def Stateful.PBKDF1 (hash : Hash) (P S : Bytes) (c dkLen : Int) (heap : Heap) :
    Outcome Bytes × Heap :=
  if (hash.Size : Int) < dkLen then (.error .pbkdf1KeyTooLong, heap)
  else if dkLen < 0 then (.error .pbkdf1NegativeKeyLength, heap)
  else if c ≤ 0 then (.error .pbkdf1IterationCount, heap)
  else
    match copyAt (makeBytes (P.length + S.length)) 0 P with
    | .ok T0 =>
      match copyAt T0 P.length S with
      | .ok T1 =>
        match Heap.New heap hash with
        | (PRF, heap1) =>
          match Stateful.pbkdf1Loop hash PRF c.toNat T1 heap1 with
          | (.ok T, heap2) => (sliceTo T dkLen, heap2)
          | (.error e, heap2) => (.error e, heap2)
          | (.panic, heap2) => (.panic, heap2)
      | .error e => (.error e, heap)
      | .panic => (.panic, heap)
    | .error e => (.error e, heap)
    | .panic => (.panic, heap)

/-- The loop of the closure `F` of `PBKDF2` over the heap, with `n` iterations left. -/
def Stateful.pbkdf2Rounds (hash : Hash) (P : Bytes) (PRF : Nat) :
    Nat → Bytes → Bytes → Heap → Outcome Bytes × Heap
  | 0, _, result, heap => (.ok result, heap)
  | n + 1, lastU, result, heap =>
    match Heap.Write heap PRF P with
    | (heap1, written, err) =>
      if err then (.error .pbkdf2Write, heap1)
      else if written ≠ P.length then (.error .pbkdf2IncompleteWrite, heap1)
      else
        match Heap.Write heap1 PRF lastU with
        | (heap2, written2, err2) =>
          if err2 then (.error .pbkdf2Write, heap2)
          else if written2 ≠ lastU.length then (.error .pbkdf2IncompleteWrite, heap2)
          else
            match xorInto result (Heap.Sum heap2 hash PRF []) with
            | .ok result1 =>
              Stateful.pbkdf2Rounds hash P PRF n (Heap.Sum heap2 hash PRF []) result1
                (Heap.Reset heap2 PRF)
            | .error e => (.error e, heap2)
            | .panic => (.panic, heap2)

/-- The closure `F` of `PBKDF2` over the heap; it captures the pointer `PRF`. -/
def Stateful.F (hash : Hash) (P S : Bytes) (c hLen : Int) (PRF : Nat) (i : Int)
    (heap : Heap) : Outcome Bytes × Heap :=
  match copyAt (makeBytes (S.length + 4)) 0 S with
  | .ok lastU0 =>
    match ConvertUnsignedIntegerToByteSlice (toUint64 i) 4 false with
    | .ok enc =>
      match copyAt lastU0 S.length enc with
      | .ok lastU => Stateful.pbkdf2Rounds hash P PRF c.toNat lastU (makeBytes hLen.toNat) heap
      | .error e => (.error e, heap)
      | .panic => (.panic, heap)
    | .error e => (.error e, heap)
    | .panic => (.panic, heap)
  | .error e => (.error e, heap)
  | .panic => (.panic, heap)

/-- The loop `for i := int64(1); i < l; i++` of `PBKDF2` over the heap, with `n`
iterations left. -/
def Stateful.pbkdf2Blocks (hash : Hash) (P S : Bytes) (c hLen : Int) (PRF : Nat) :
    Nat → Int → Bytes → Int → Heap → Outcome (Bytes × Int) × Heap
  | 0, _, DK, currIndex, heap => (.ok (DK, currIndex), heap)
  | n + 1, i, DK, currIndex, heap =>
    match Stateful.F hash P S c hLen PRF i heap with
    | (.ok f, heap1) =>
      match copyAt DK currIndex f with
      | .ok DK1 =>
        Stateful.pbkdf2Blocks hash P S c hLen PRF n (i + 1) DK1 (currIndex + hLen) heap1
      | .error e => (.error e, heap1)
      | .panic => (.panic, heap1)
    | (.error e, heap1) => (.error e, heap1)
    | (.panic, heap1) => (.panic, heap1)

/-- Go `PBKDF2(hash, P, S, c, dkLen)` started in the heap `heap`: the result and the
heap that the call leaves. -/
def Stateful.PBKDF2 (hash : Hash) (P S : Bytes) (c dkLen : Int) (heap : Heap) :
    Outcome Bytes × Heap :=
  let hLen : Int := hash.Size
  let maxKeyLen : Int := wrapInt64 ((2 ^ 32 - 1) * hLen)
  if dkLen > maxKeyLen then (.error .pbkdf2KeyTooLong, heap)
  else if dkLen < 0 then (.error .pbkdf2NegativeKeyLength, heap)
  else if c ≤ 0 then (.error .pbkdf2IterationCount, heap)
  else if hLen = 0 then (.panic, heap)
  else
    let r : Int := Int.tmod dkLen hLen
    let l : Int := if r ≠ 0 then Int.tdiv dkLen hLen + 1 else Int.tdiv dkLen hLen
    match Heap.New heap hash with
    | (PRF, heap1) =>
      match Stateful.pbkdf2Blocks hash P S c hLen PRF (l - 1).toNat 1 (makeBytes dkLen.toNat) 0
          heap1 with
      | (.ok (DK, currIndex), heap2) =>
        match Stateful.F hash P S c hLen PRF l heap2 with
        | (.ok f, heap3) =>
          if r = 0 then (copyAt DK currIndex f, heap3)
          else
            match sliceTo f r with
            | .ok fr => (copyAt DK currIndex fr, heap3)
            | .error e => (.error e, heap3)
            | .panic => (.panic, heap3)
        | (.error e, heap3) => (.error e, heap3)
        | (.panic, heap3) => (.panic, heap3)
      | (.error e, heap2) => (.error e, heap2)
      | (.panic, heap2) => (.panic, heap2)

/-- An engine in explicit state passing. -/
abbrev Stateful.PBKDF := Hash → Bytes → Bytes → Int → Int → Heap → Outcome Bytes × Heap

/-! ## Concrete collaborators for evaluation -/

/-- Example hash for concrete evaluations: a two-byte digest made of the length of the
message and a rolling checksum of its bytes. -/
def toyHash : Hash where
  Size := 2
  sum m := [toByte m.length, toByte (m.foldl (fun a b => (a * 31 + b.val + 7) % 256) 0)]
  sum_length _ := rfl
  Size_lt := by decide

/-- Example random source for concrete evaluations: delivers the bytes `1, 2, ..., n`. -/
def toyRand : RandomSource := fun n =>
  { data := (List.range n).map (fun k => toByte (k + 1)), err := false }

/-- Example hash with a digest of twenty bytes, the size of SHA-1: byte `k` of the
digest is the checksum of `toyHash` shifted by `7 * k` plus the message length. -/
def toyHash20 : Hash where
  Size := 20
  sum m := (List.range 20).map (fun k =>
    toByte (m.foldl (fun a b => (a * 31 + b.val + 7) % 256) 0 + 7 * k + m.length))
  sum_length _ := by simp
  Size_lt := by decide

/-! ## Reference definitions taken from the specification -/

/-- The chain of section 4.1 of the specification: `T_0 = Hash(P ‖ S)` and
`T_i = Hash(T_(i-1))`. -/
def specT (hash : Hash) (P S : Bytes) : Nat → Bytes
  | 0 => hash.sum (P ++ S)
  | i + 1 => hash.sum (specT hash P S i)

/-- The encoding `enc4(i)` of a block index: the four bytes that
`ConvertUnsignedIntegerToByteSlice(i, 4, false)` returns. -/
def enc4 (i : Nat) : Bytes :=
  match ConvertUnsignedIntegerToByteSlice i 4 false with
  | .ok b => b
  | _ => []

/-- Byte-wise XOR of two blocks. -/
def xorBytes (a b : Bytes) : Bytes := List.zipWith (fun x y => x ^^^ y) a b

/-- The values `U_j` of section 4.2 for block `i`, counted from zero: `specU i 0` is
`U_1 = Hash(P ‖ S ‖ enc4(i))` and `specU i (j + 1)` is `U_(j+2) = Hash(P ‖ U_(j+1))`. -/
def specU (hash : Hash) (P S : Bytes) (i : Nat) : Nat → Bytes
  | 0 => hash.sum (P ++ S ++ enc4 i)
  | j + 1 => hash.sum (P ++ specU hash P S i j)

/-- The XOR `U_1 xor ... xor U_(k+1)` for block `i`. -/
def specXor (hash : Hash) (P S : Bytes) (i : Nat) : Nat → Bytes
  | 0 => specU hash P S i 0
  | k + 1 => xorBytes (specXor hash P S i k) (specU hash P S i (k + 1))

/-- The block function `F(i) = U_1 xor ... xor U_c` of section 4.2, for `c ≥ 1`. -/
def specF (hash : Hash) (P S : Bytes) (c i : Nat) : Bytes := specXor hash P S i (c - 1)

/-- The concatenation `F(i) ‖ F(i+1) ‖ ...` of `n` consecutive blocks. -/
def specBlocks (hash : Hash) (P S : Bytes) (c : Nat) : Nat → Nat → Bytes
  | 0, _ => []
  | n + 1, i => specF hash P S c i ++ specBlocks hash P S c n (i + 1)

/-- The block count `l = ceil(dkLen / hLen)` of section 4.2. -/
def blockCount (hLen dkLen : Nat) : Nat := (dkLen + hLen - 1) / hLen

/-- The key of section 4.2: with `l = ceil(dkLen / hLen)` and `r = dkLen mod hLen`, the
blocks `F(1) .. F(l-1)` followed by the first `r` bytes of `F(l)`, or by all of `F(l)`
when `r = 0`. -/
def specPBKDF2 (hash : Hash) (P S : Bytes) (c dkLen : Nat) : Bytes :=
  let l := blockCount hash.Size dkLen
  let r := dkLen % hash.Size
  specBlocks hash P S c (l - 1) 1
    ++ (if r = 0 then specF hash P S c l else (specF hash P S c l).take r)

/-- The big-endian value of a byte sequence: the sum of `s[i] * 256^(n-1-i)`, the
first byte the most significant. -/
def bigEndianValue : Bytes → Nat
  | [] => 0
  | b :: rest => b.val * 256 ^ rest.length + bigEndianValue rest

/-- The little-endian value of a byte sequence: the sum of `s[i] * 256^i`, the first
byte the least significant. -/
def littleEndianValue : Bytes → Nat
  | [] => 0
  | b :: rest => b.val + 256 * littleEndianValue rest

/-- A character of the standard base64 alphabet: `A`-`Z`, `a`-`z`, `0`-`9`, `+`,
`/`. -/
def isAlphabet (ch : Byte) : Bool :=
  (decide (65 ≤ ch.val) && decide (ch.val ≤ 90)) || (decide (97 ≤ ch.val) && decide (ch.val ≤ 122))
    || (decide (48 ≤ ch.val) && decide (ch.val ≤ 57)) || ch.val = 43 || ch.val = 47

/-- Valid padded standard base64 text: groups of four alphabet characters, the last
group possibly ending in `=` or `==`. -/
def validBase64 : Bytes → Bool
  | [] => true
  | a :: b :: c :: d :: rest =>
    if rest = [] then
      isAlphabet a && isAlphabet b &&
        ((isAlphabet c && (isAlphabet d || d = padChar)) || (c = padChar && d = padChar))
    else isAlphabet a && isAlphabet b && isAlphabet c && isAlphabet d && validBase64 rest
  | _ => false

/-- The text without its `\r` and `\n` bytes. -/
def stripNewlines (s : Bytes) : Bytes := s.filter (fun ch => !isNewline ch)

/-- The digits of a decimal text: the text after an optional sign `+` or `-`. -/
def decimalBody : Bytes → Bytes
  | [] => []
  | ch :: rest => if ch.val = 43 ∨ ch.val = 45 then rest else ch :: rest

/-- The number written by a sequence of decimal digits. -/
def digitsValue (body : Bytes) : Nat := body.foldl (fun n ch => n * 10 + (ch.val - 48)) 0

/-- The integer written by a decimal text with an optional sign. -/
def decimalValue : Bytes → Int
  | [] => 0
  | ch :: rest =>
    if ch.val = 45 then -(digitsValue rest : Int) else (digitsValue (decimalBody (ch :: rest)) : Int)

/-- A base-10 integer text: an optional sign followed by one or more decimal digits. -/
def isDecimalText (s : Bytes) : Bool :=
  !(decimalBody s).isEmpty && (decimalBody s).all isDigit

/-! ## Auxiliary definitions for the proofs -/

/-- The rounds of `F` as a pure function of `lastU` and `result`. -/
def roundsValue (hash : Hash) (P : Bytes) : Nat → Bytes → Bytes → Bytes
  | 0, _, result => result
  | n + 1, lastU, result =>
    roundsValue hash P n (hash.sum (P ++ lastU)) (xorBytes result (hash.sum (P ++ lastU)))

/-- The bytes the `!bigEndian` branch of `ConvertUnsignedIntegerToByteSlice` writes for
a length of `k`: byte `i` is `byte(integer >> (8 * (k - 1 - i)))`. -/
def shiftedBytes (integer : Nat) : Nat → Bytes
  | 0 => []
  | k + 1 => toByte (integer >>> (8 * k)) :: shiftedBytes integer k

/-- The UTF-8 encoding of the character `U+0080 + k`, one of the 1920 characters that
UTF-8 encodes in two bytes. -/
def twoByteChar (k : Fin 1920) : Bytes := [toByte (194 + k.val / 64), toByte (128 + k.val % 64)]

/-- The result `r` of a loop over the heap `heap ++ [ctx]`, where the context of the
call is the last one, agrees with the result `p` of the same loop passing the context
along: same outcome, the earlier contexts untouched, and the context of the call in
the state in which `p` ends. -/
def simulates {α : Type} (heap : Heap) (r : Outcome α × Heap) (p : Outcome (α × HashCtx)) :
    Prop :=
  match p with
  | .ok (a, ctx) => r = (.ok a, heap ++ [ctx])
  | .error e => ∃ ctx, r = (.error e, heap ++ [ctx])
  | .panic => ∃ ctx, r = (.panic, heap ++ [ctx])

/-! # Properties -/

theorem makeBytes_length (n : Nat) : (makeBytes n).length = n := by
  simp [makeBytes]

/-- Copying into the zero-filled tail of a buffer. -/
theorem copyAt_tail (pre src : Bytes) (m : Nat) (idx : Int) (h : idx = pre.length) :
    copyAt (pre ++ makeBytes m) idx src
      = .ok (pre ++ src.take m ++ makeBytes (m - src.length)) := by
  subst h
  unfold copyAt
  have h1 : (0 : Int) ≤ (pre.length : Int) ∧
      ((pre.length : Nat) : Int) ≤ ((pre ++ makeBytes m).length : Nat) := by
    constructor
    · exact Int.ofNat_nonneg _
    · simp [makeBytes]
  rw [if_pos h1]
  simp only [Int.toNat_ofNat, List.length_append, makeBytes_length]
  congr 1
  have h2 : pre.length + m - pre.length = m := by omega
  rw [h2]
  simp only [makeBytes]
  rw [List.take_left' rfl, List.drop_append, List.drop_replicate]
  congr 1
  · congr 1
    rcases Nat.le_total m src.length with h3 | h3
    · rw [Nat.min_eq_left h3]
    · rw [Nat.min_eq_right h3, List.take_of_length_le (le_refl _), List.take_of_length_le h3]
  · congr 1
    omega

theorem xor_zero_byte (u : Byte) : (0 : Byte) ^^^ u = u := by
  apply Fin.ext
  show (Nat.xor 0 u.val) % 256 = u.val
  have : Nat.xor 0 u.val = u.val := Nat.zero_xor u.val
  rw [this]
  exact Nat.mod_eq_of_lt u.isLt

theorem pbkdf1Loop_eq (hash : Hash) (n : Nat) (T : Bytes) :
    pbkdf1Loop hash n T [] = .ok (hash.sum^[n] T, []) := by
  induction n generalizing T with
  | zero => rfl
  | succ n ih =>
    simp only [pbkdf1Loop, HashCtx.Write, HashCtx.Reset, Hash.Sum, List.nil_append,
      Function.iterate_succ, Function.comp_apply]
    simp [ih]

theorem specT_eq_iterate (hash : Hash) (P S : Bytes) (n : Nat) :
    specT hash P S n = hash.sum^[n + 1] (P ++ S) := by
  induction n with
  | zero => rfl
  | succ n ih => rw [specT, ih, ← Function.iterate_succ_apply' hash.sum]

theorem iterate_sum_length (hash : Hash) (n : Nat) (T : Bytes) (hn : 0 < n) :
    (hash.sum^[n] T).length = hash.Size := by
  obtain ⟨k, rfl⟩ : ∃ k, n = k + 1 := ⟨n - 1, by omega⟩
  rw [Function.iterate_succ_apply']
  exact hash.sum_length _

theorem pbkdf1_initial (P S : Bytes) :
    ∃ T0, copyAt (makeBytes (P.length + S.length)) 0 P = .ok T0 ∧
      copyAt T0 P.length S = .ok (P ++ S) := by
  refine ⟨P ++ makeBytes S.length, ?_, ?_⟩
  · have h := copyAt_tail [] P (P.length + S.length) 0 (by simp)
    simp only [List.nil_append] at h
    rw [h, List.take_of_length_le (by omega)]
    congr 3
    omega
  · have h := copyAt_tail P S S.length P.length rfl
    rw [h, List.take_of_length_le (le_refl _)]
    simp [makeBytes]

/-- The value of `PBKDF1` once its three parameter checks have passed. -/
theorem PBKDF1_eq (hash : Hash) (P S : Bytes) (c dkLen : Int)
    (hc : 0 < c) (h0 : 0 ≤ dkLen) (h1 : dkLen ≤ hash.Size) :
    PBKDF1 hash P S c dkLen = .ok ((hash.sum^[c.toNat] (P ++ S)).take dkLen.toNat) := by
  obtain ⟨T0, hT0, hT1⟩ := pbkdf1_initial P S
  unfold PBKDF1
  rw [if_neg (by omega), if_neg (by omega), if_neg (by omega)]
  simp only [hT0, hT1, Hash.New, pbkdf1Loop_eq]
  unfold sliceTo
  rw [if_pos]
  refine ⟨h0, ?_⟩
  rw [iterate_sum_length hash c.toNat _ (by omega)]
  exact h1

theorem convert4_eq (x : Nat) :
    ConvertUnsignedIntegerToByteSlice x 4 false
      = .ok [toByte (x >>> 24), toByte (x >>> 16), toByte (x >>> 8), toByte (x >>> 0)] := by
  simp [ConvertUnsignedIntegerToByteSlice, convertLoopFalse, setIndex, makeBytes]

theorem enc4_length (i : Nat) : (enc4 i).length = 4 := by
  simp [enc4, convert4_eq]

theorem xorInto_eq (result u : Bytes) (h : result.length ≤ u.length) :
    xorInto result u = .ok (xorBytes result u) := by
  induction result generalizing u with
  | nil => simp [xorInto, xorBytes]
  | cons r rs ih =>
    cases u with
    | nil => simp at h
    | cons v vs =>
      have h1 : rs.length ≤ vs.length := by simpa using h
      simp [xorInto, ih vs h1, xorBytes]

theorem xorBytes_length (a b : Bytes) (h : a.length = b.length) :
    (xorBytes a b).length = a.length := by
  simp [xorBytes, h]

theorem xorBytes_zero (n : Nat) (u : Bytes) (h : u.length = n) :
    xorBytes (makeBytes n) u = u := by
  induction n generalizing u with
  | zero =>
    have : u = [] := List.length_eq_zero.mp h
    subst this
    simp [xorBytes, makeBytes]
  | succ n ih =>
    cases u with
    | nil => simp at h
    | cons v vs =>
      have h1 : vs.length = n := by simpa using h
      have := ih vs h1
      simp only [xorBytes, makeBytes] at this ⊢
      simp [List.replicate_succ, this, xor_zero_byte]

theorem pbkdf2Rounds_eq (hash : Hash) (P : Bytes) (n : Nat) (lastU result : Bytes)
    (h : result.length = hash.Size) :
    pbkdf2Rounds hash P n lastU result [] = .ok (roundsValue hash P n lastU result, []) := by
  induction n generalizing lastU result with
  | zero => rfl
  | succ n ih =>
    have hx : xorInto result (hash.sum (P ++ lastU))
        = .ok (xorBytes result (hash.sum (P ++ lastU))) :=
      xorInto_eq _ _ (by rw [hash.sum_length, h])
    have hl : (xorBytes result (hash.sum (P ++ lastU))).length = hash.Size := by
      rw [xorBytes_length _ _ (by rw [hash.sum_length, h]), h]
    simp only [pbkdf2Rounds, HashCtx.Write, HashCtx.Reset, Hash.Sum, List.nil_append]
    simp [hx, ih _ _ hl, roundsValue]

theorem roundsValue_succ (hash : Hash) (P : Bytes) (n : Nat) (lastU result : Bytes) :
    roundsValue hash P (n + 1) lastU result
      = xorBytes (roundsValue hash P n lastU result)
          ((fun x => hash.sum (P ++ x))^[n + 1] lastU) := by
  induction n generalizing lastU result with
  | zero => rfl
  | succ n ih =>
    rw [roundsValue, ih, Function.iterate_succ_apply (fun x => hash.sum (P ++ x)) (n + 1)]
    rfl

theorem specU_eq_iterate (hash : Hash) (P S : Bytes) (i j : Nat) :
    specU hash P S i j = (fun x => hash.sum (P ++ x))^[j + 1] (S ++ enc4 i) := by
  induction j with
  | zero => simp [specU]
  | succ j ih => rw [specU, ih, ← Function.iterate_succ_apply' (fun x => hash.sum (P ++ x))]

theorem specU_length (hash : Hash) (P S : Bytes) (i j : Nat) :
    (specU hash P S i j).length = hash.Size := by
  cases j <;> simp [specU, hash.sum_length]

theorem specXor_length (hash : Hash) (P S : Bytes) (i k : Nat) :
    (specXor hash P S i k).length = hash.Size := by
  induction k with
  | zero => exact specU_length hash P S i 0
  | succ k ih =>
    rw [specXor, xorBytes_length _ _ (by rw [ih, specU_length]), ih]

theorem specF_length (hash : Hash) (P S : Bytes) (c i : Nat) :
    (specF hash P S c i).length = hash.Size := specXor_length hash P S i (c - 1)

theorem roundsValue_eq_specXor (hash : Hash) (P S : Bytes) (i k : Nat) :
    roundsValue hash P (k + 1) (S ++ enc4 i) (makeBytes hash.Size) = specXor hash P S i k := by
  induction k with
  | zero =>
    simp only [roundsValue, specXor, specU]
    rw [xorBytes_zero _ _ (hash.sum_length _), List.append_assoc]
  | succ k ih =>
    rw [roundsValue_succ, ih, specXor, specU_eq_iterate]

/-- The value of the closure `F` on a fresh context: the block `F(i)` of the
specification, and the context is fresh again afterwards. -/
theorem F_eq (hash : Hash) (P S : Bytes) (c : Int) (i : Int) (hc : 0 < c) :
    PBKDF2.F hash P S c hash.Size [] i
      = .ok (specF hash P S c.toNat (toUint64 i), []) := by
  have h0 := copyAt_tail [] S (S.length + 4) 0 (by simp)
  simp only [List.nil_append] at h0
  rw [List.take_of_length_le (by omega)] at h0
  have h00 : S.length + 4 - S.length = 4 := by omega
  rw [h00] at h0
  have h1 := copyAt_tail S (enc4 (toUint64 i)) 4 S.length rfl
  rw [List.take_of_length_le (by rw [enc4_length])] at h1
  have h2 : makeBytes (4 - (enc4 (toUint64 i)).length) = [] := by
    rw [enc4_length]; rfl
  rw [h2, List.append_nil] at h1
  have he : ConvertUnsignedIntegerToByteSlice (toUint64 i) 4 false
      = .ok (enc4 (toUint64 i)) := by
    simp [enc4, convert4_eq]
  obtain ⟨k, hk⟩ : ∃ k, c.toNat = k + 1 := ⟨c.toNat - 1, by omega⟩
  unfold PBKDF2.F
  simp only [h0, he, h1, Int.toNat_ofNat]
  rw [pbkdf2Rounds_eq _ _ _ _ _ (makeBytes_length _), hk, roundsValue_eq_specXor]
  simp [specF, hk]

theorem specBlocks_length (hash : Hash) (P S : Bytes) (c n i : Nat) :
    (specBlocks hash P S c n i).length = n * hash.Size := by
  induction n generalizing i with
  | zero => simp [specBlocks]
  | succ n ih =>
    simp only [specBlocks, List.length_append, specF_length, ih]
    rw [Nat.succ_mul]; omega

theorem toUint64_of_nonneg (i : Int) (h0 : 0 ≤ i) (h1 : i < 2 ^ 64) :
    toUint64 i = i.toNat := by
  unfold toUint64
  rw [Int.emod_eq_of_lt h0 h1]

/-- The block loop of `PBKDF2` started on a buffer whose tail of `m` bytes is still
zero: it appends `n` blocks and leaves the context fresh. -/
theorem pbkdf2Blocks_eq (hash : Hash) (P S : Bytes) (c : Int) (hc : 0 < c) (n : Nat) :
    ∀ (i : Int) (pre : Bytes) (m : Nat) (idx : Int), 0 ≤ i → i + n < 2 ^ 64 →
      idx = pre.length → n * hash.Size ≤ m →
      pbkdf2Blocks hash P S c hash.Size n i (pre ++ makeBytes m) idx []
        = .ok (pre ++ specBlocks hash P S c.toNat n i.toNat ++ makeBytes (m - n * hash.Size),
            idx + n * hash.Size, []) := by
  induction n with
  | zero =>
    intro i pre m idx _ _ _ _
    simp [pbkdf2Blocks, specBlocks]
  | succ n ih =>
    intro i pre m idx hi0 hi1 hidx hm
    have hm1 : hash.Size + n * hash.Size ≤ m := by
      rw [Nat.succ_mul] at hm; omega
    have hcopy := copyAt_tail pre (specF hash P S c.toNat (toUint64 i)) m idx hidx
    rw [List.take_of_length_le (by rw [specF_length]; omega), specF_length] at hcopy
    have hidx1 : idx + (hash.Size : Int)
        = ((pre ++ specF hash P S c.toNat (toUint64 i)).length : Nat) := by
      simp [hidx, specF_length]
    have hrec := ih (i + 1) (pre ++ specF hash P S c.toNat (toUint64 i)) (m - hash.Size)
      (idx + hash.Size) (by omega) (by push_cast at hi1 ⊢; omega) hidx1 (by omega)
    simp only [pbkdf2Blocks, F_eq hash P S c i hc, hcopy, hrec]
    rw [toUint64_of_nonneg i hi0 (by push_cast at hi1; omega)]
    have h3 : (i + 1).toNat = i.toNat + 1 := by omega
    have h4 : m - hash.Size - n * hash.Size = m - (n + 1) * hash.Size := by
      rw [Nat.succ_mul]; omega
    simp only [specBlocks, h3, h4, List.append_assoc]
    congr 3
    push_cast
    rw [Int.add_mul]
    omega

theorem blockCount_of_mod_eq_zero (h d : Nat) (hh : 0 < h) (hr : d % h = 0) :
    blockCount h d = d / h := by
  unfold blockCount
  have hd := Nat.div_add_mod d h
  have hc : d / h * h = h * (d / h) := Nat.mul_comm _ _
  apply Nat.div_eq_of_lt_le
  · omega
  · rw [Nat.succ_mul]; omega

theorem blockCount_of_mod_ne_zero (h d : Nat) (hh : 0 < h) (hr : d % h ≠ 0) :
    blockCount h d = d / h + 1 := by
  unfold blockCount
  have hd := Nat.div_add_mod d h
  have hlt := Nat.mod_lt d hh
  have hc : d / h * h = h * (d / h) := Nat.mul_comm _ _
  apply Nat.div_eq_of_lt_le
  · rw [Nat.succ_mul]; omega
  · rw [Nat.succ_mul, Nat.succ_mul]; omega

/-- The bytes left for the last block: all of `hLen` when `dkLen` is a positive
multiple of `hLen`, the remainder otherwise. -/
theorem lastBlock_room (h d : Nat) (hh : 0 < h) :
    (blockCount h d - 1) * h ≤ d ∧
      d - (blockCount h d - 1) * h
        = if d % h = 0 then (if d = 0 then 0 else h) else d % h := by
  have hd := Nat.div_add_mod d h
  have hlt := Nat.mod_lt d hh
  have hc : d / h * h = h * (d / h) := Nat.mul_comm _ _
  by_cases hr : d % h = 0
  · rw [blockCount_of_mod_eq_zero h d hh hr, if_pos hr]
    rcases Nat.eq_zero_or_pos (d / h) with hq | hq
    · have hd0 : d = 0 := by rw [hq] at hd; simp at hd; omega
      simp [hd0]
    · obtain ⟨q, hq1⟩ : ∃ q, d / h = q + 1 := ⟨d / h - 1, by omega⟩
      have hne : d ≠ 0 := by
        intro h0; rw [h0] at hq; simp at hq
      rw [if_neg hne, hq1, Nat.add_sub_cancel]
      rw [hq1] at hd
      have hm : h * (q + 1) = q * h + h := by rw [Nat.mul_comm, Nat.succ_mul]
      constructor <;> omega
  · rw [blockCount_of_mod_ne_zero h d hh hr, if_neg hr]
    simp only [Nat.add_sub_cancel]
    constructor <;> omega

theorem blockCount_le (h d k : Nat) (hh : 0 < h) (hd : d ≤ k * h) : blockCount h d ≤ k := by
  unfold blockCount
  have h1 : d + h - 1 < (k + 1) * h := by rw [Nat.succ_mul]; omega
  have := (Nat.div_lt_iff_lt_mul hh).mpr h1
  omega

theorem wrapInt64_of_range (x : Int) (h0 : -2 ^ 63 ≤ x) (h1 : x < 2 ^ 63) :
    wrapInt64 x = x := by
  unfold wrapInt64
  rw [Int.emod_eq_of_lt (by omega) (by omega)]
  omega

/-- The bound `maxKeyLen` of `PBKDF2` does not overflow. -/
theorem maxKeyLen_eq (hash : Hash) :
    wrapInt64 ((2 ^ 32 - 1) * (hash.Size : Int)) = (2 ^ 32 - 1) * (hash.Size : Int) := by
  have := hash.Size_lt
  apply wrapInt64_of_range <;> omega

/-- The value of `PBKDF2` once its parameter checks have passed: the full blocks
`F(1) .. F(l-1)` followed by as much of `F(l)` as fits into the key. -/
theorem PBKDF2_value (hash : Hash) (P S : Bytes) (c dkLen : Int)
    (hh : 0 < hash.Size) (hc : 0 < c) (h0 : 0 ≤ dkLen)
    (h1 : dkLen ≤ (2 ^ 32 - 1) * (hash.Size : Int)) :
    PBKDF2 hash P S c dkLen
      = .ok (specBlocks hash P S c.toNat (blockCount hash.Size dkLen.toNat - 1) 1
          ++ (specF hash P S c.toNat (blockCount hash.Size dkLen.toNat)).take
              (dkLen.toNat - (blockCount hash.Size dkLen.toNat - 1) * hash.Size)) := by
  lift dkLen to Nat using h0 with d
  obtain ⟨hroom1, hroom2⟩ := lastBlock_room hash.Size d hh
  have hdle : d ≤ 4294967295 * hash.Size := by
    have : (d : Int) ≤ 4294967295 * (hash.Size : Int) := by
      have e : ((2 : Int) ^ 32 - 1) = 4294967295 := by norm_num
      rw [e] at h1; exact h1
    exact_mod_cast this
  have hL := blockCount_le hash.Size d 4294967295 hh hdle
  have hsz := hash.Size_lt
  have hr : Int.tmod (d : Int) (hash.Size : Int) = ((d % hash.Size : Nat) : Int) :=
    (Int.ofNat_tmod d hash.Size).symm
  have hq : Int.tdiv (d : Int) (hash.Size : Int) = ((d / hash.Size : Nat) : Int) :=
    (Int.ofNat_tdiv d hash.Size).symm
  have hl : (if Int.tmod (d : Int) (hash.Size : Int) ≠ 0
      then Int.tdiv (d : Int) (hash.Size : Int) + 1 else Int.tdiv (d : Int) (hash.Size : Int))
      = ((blockCount hash.Size d : Nat) : Int) := by
    rw [hr, hq]
    by_cases hz : d % hash.Size = 0
    · rw [if_neg (by simp [hz]), blockCount_of_mod_eq_zero _ _ hh hz]
    · rw [if_pos (by exact_mod_cast hz), blockCount_of_mod_ne_zero _ _ hh hz]
      push_cast; rfl
  have hb := pbkdf2Blocks_eq hash P S c hc (blockCount hash.Size d - 1) 1 [] d 0
    (by omega) (by omega) (by simp) hroom1
  simp only [List.nil_append] at hb
  have hn : ((blockCount hash.Size d : Nat) : Int) - 1 = ((blockCount hash.Size d - 1 : Nat) : Int)
      ∨ blockCount hash.Size d = 0 := by omega
  have hn1 : (((blockCount hash.Size d : Nat) : Int) - 1).toNat = blockCount hash.Size d - 1 := by
    omega
  have hu : toUint64 ((blockCount hash.Size d : Nat) : Int) = blockCount hash.Size d := by
    rw [toUint64_of_nonneg _ (by omega) (by omega)]; simp
  have hidx : (0 : Int) + ((blockCount hash.Size d - 1 : Nat) : Int) * (hash.Size : Int)
      = ((specBlocks hash P S c.toNat (blockCount hash.Size d - 1) 1).length : Nat) := by
    rw [specBlocks_length]; push_cast; omega
  unfold PBKDF2
  simp only [maxKeyLen_eq, hl, hn1, Int.toNat_ofNat, Hash.New]
  rw [if_neg (by omega), if_neg (by omega), if_neg (by omega), if_neg (by omega)]
  simp only [hb, Int.toNat_one, F_eq hash P S c _ hc, hu, hr, hidx]
  by_cases hz : d % hash.Size = 0
  · rw [if_pos (by exact_mod_cast hz)]
    rw [copyAt_tail _ _ _ _ rfl, specF_length, hroom2, if_pos hz]
    by_cases hd0 : d = 0
    · simp [hd0, makeBytes]
    · simp [hd0, makeBytes]
  · rw [if_neg (by exact_mod_cast hz)]
    have hlt := Nat.mod_lt d hh
    have hs : sliceTo (specF hash P S c.toNat (blockCount hash.Size d)) ((d % hash.Size : Nat) : Int)
        = .ok ((specF hash P S c.toNat (blockCount hash.Size d)).take (d % hash.Size)) := by
      unfold sliceTo
      rw [if_pos ⟨by omega, by rw [specF_length]; exact_mod_cast hlt.le⟩, Int.toNat_ofNat]
    simp only [hs]
    rw [copyAt_tail _ _ _ _ rfl, hroom2, if_neg hz, List.length_take, specF_length,
      List.take_take]
    simp [makeBytes, Nat.min_eq_left hlt.le]

theorem toByte_val (b : Byte) : toByte b.val = b := by
  apply Fin.ext
  show b.val % 256 = b.val
  exact Nat.mod_eq_of_lt b.isLt

theorem decodeMap_encodeStd_fin : ∀ v : Fin 64, decodeMap (encodeStd v.val) = some v.val := by
  decide

theorem decodeMap_encodeStd (v : Nat) (h : v < 64) : decodeMap (encodeStd v) = some v :=
  decodeMap_encodeStd_fin ⟨v, h⟩

theorem decodeMap_padChar : decodeMap padChar = none := by decide

theorem isNewline_padChar : isNewline padChar = false := by decide

theorem decode_group3 (a b c : Byte) (rest out : Bytes) :
    base64DecodeLoop
      (encodeStd (a.val / 4) :: encodeStd (a.val % 4 * 16 + b.val / 16) ::
        encodeStd (b.val % 16 * 4 + c.val / 64) :: encodeStd (c.val % 64) :: rest) [] out
      = base64DecodeLoop rest [] (out ++ [a, b, c]) := by
  have ha := a.isLt
  have hb := b.isLt
  have hc := c.isLt
  have e0 := decodeMap_encodeStd (a.val / 4) (by omega)
  have e1 := decodeMap_encodeStd (a.val % 4 * 16 + b.val / 16) (by omega)
  have e2 := decodeMap_encodeStd (b.val % 16 * 4 + c.val / 64) (by omega)
  have e3 := decodeMap_encodeStd (c.val % 64) (by omega)
  have ra : a.val / 4 * 4 + (a.val % 4 * 16 + b.val / 16) / 16 = a.val := by omega
  have rb : (a.val % 4 * 16 + b.val / 16) % 16 * 16 + (b.val % 16 * 4 + c.val / 64) / 4
      = b.val := by omega
  have rc : (b.val % 16 * 4 + c.val / 64) % 4 * 64 + c.val % 64 = c.val := by omega
  simp only [base64DecodeLoop, e0, e1, e2, e3, List.nil_append, List.singleton_append,
    List.cons_append, ra, rb, rc, toByte_val]

theorem decode_group2 (a b : Byte) (out : Bytes) :
    base64DecodeLoop
      [encodeStd (a.val / 4), encodeStd (a.val % 4 * 16 + b.val / 16),
        encodeStd (b.val % 16 * 4), padChar] [] out
      = some (out ++ [a, b]) := by
  have ha := a.isLt
  have hb := b.isLt
  have e0 := decodeMap_encodeStd (a.val / 4) (by omega)
  have e1 := decodeMap_encodeStd (a.val % 4 * 16 + b.val / 16) (by omega)
  have e2 := decodeMap_encodeStd (b.val % 16 * 4) (by omega)
  have ra : a.val / 4 * 4 + (a.val % 4 * 16 + b.val / 16) / 16 = a.val := by omega
  have rb : (a.val % 4 * 16 + b.val / 16) % 16 * 16 + b.val % 16 = b.val := by omega
  simp [base64DecodeLoop, e0, e1, e2, decodeMap_padChar, isNewline_padChar, skipNewlines,
    ra, rb, toByte_val]

theorem decode_group1 (a : Byte) (out : Bytes) :
    base64DecodeLoop
      [encodeStd (a.val / 4), encodeStd (a.val % 4 * 16), padChar, padChar] [] out
      = some (out ++ [a]) := by
  have ha := a.isLt
  have e0 := decodeMap_encodeStd (a.val / 4) (by omega)
  have e1 := decodeMap_encodeStd (a.val % 4 * 16) (by omega)
  have ra : a.val / 4 * 4 + a.val % 4 = a.val := by omega
  simp [base64DecodeLoop, e0, e1, decodeMap_padChar, isNewline_padChar, skipNewlines,
    ra, toByte_val]

theorem base64DecodeLoop_encode (bs : Bytes) :
    ∀ out : Bytes, base64DecodeLoop (base64Encode bs) [] out = some (out ++ bs) := by
  induction bs using base64Encode.induct with
  | case1 => intro out; simp [base64Encode, base64DecodeLoop]
  | case2 a => intro out; rw [base64Encode]; exact decode_group1 a out
  | case3 a b => intro out; rw [base64Encode]; exact decode_group2 a b out
  | case4 a b c rest ih =>
    intro out
    rw [base64Encode, decode_group3, ih]
    simp

/-- Decoding an encoded byte sequence gives the sequence back. -/
theorem base64Decode_encode (bs : Bytes) : base64Decode (base64Encode bs) = some bs := by
  unfold base64Decode
  rw [base64DecodeLoop_encode]
  rfl

theorem toByte_val_of_lt (x : Nat) (h : x < 256) : (toByte x).val = x := by
  show x % 256 = x
  exact Nat.mod_eq_of_lt h

theorem natDigits_isDigit (fuel n : Nat) : ∀ ch ∈ natDigits fuel n, isDigit ch = true := by
  induction fuel generalizing n with
  | zero => intro ch h; simp [natDigits] at h
  | succ fuel ih =>
    intro ch h
    unfold natDigits at h
    split at h
    · rename_i hn
      simp only [List.mem_singleton] at h
      subst h
      simp [isDigit, toByte_val_of_lt (48 + n) (by omega)]
      omega
    · rcases List.mem_append.mp h with h1 | h1
      · exact ih _ ch h1
      · simp only [List.mem_singleton] at h1
        subst h1
        have : n % 10 < 10 := Nat.mod_lt _ (by decide)
        simp [isDigit, toByte_val_of_lt (48 + n % 10) (by omega)]
        omega

theorem natDigits_ne_nil (fuel n : Nat) : natDigits (fuel + 1) n ≠ [] := by
  unfold natDigits
  split <;> simp

theorem parseDigits_append (a b : Bytes) (n : Nat) :
    parseDigits (a ++ b) n = (parseDigits a n).bind (fun m => parseDigits b m) := by
  induction a generalizing n with
  | nil => simp [parseDigits]
  | cons ch rest ih =>
    simp only [List.cons_append, parseDigits]
    split
    · exact ih _
    · rfl

theorem parseDigits_natDigits (fuel n : Nat) (h : n < fuel) :
    parseDigits (natDigits fuel n) 0 = some n := by
  induction fuel generalizing n with
  | zero => omega
  | succ fuel ih =>
    unfold natDigits
    split
    · rename_i hn
      simp [parseDigits, isDigit, toByte_val_of_lt (48 + n) (by omega)]
      omega
    · rename_i hn
      have hm : n % 10 < 10 := Nat.mod_lt _ (by decide)
      rw [parseDigits_append, ih (n / 10) (by omega)]
      simp [parseDigits, isDigit, toByte_val_of_lt (48 + n % 10) (by omega)]
      omega

theorem isDigit_val (ch : Byte) (h : isDigit ch = true) : 48 ≤ ch.val ∧ ch.val ≤ 57 := by
  simpa [isDigit] using h

/-- Parsing the decimal text of a 64-bit integer gives the integer back. -/
theorem ParseInt_formatInt (i : Int) (h : isInt64 i) : ParseInt (formatInt i) = some i := by
  obtain ⟨hlo, hhi⟩ := h
  have hp := parseDigits_natDigits (i.natAbs + 1) i.natAbs (by omega)
  have hne := natDigits_ne_nil i.natAbs i.natAbs
  by_cases hneg : i < 0
  · unfold formatInt
    rw [if_pos hneg]
    have hb : (2 : Nat) ^ 63 < i.natAbs ↔ False := by
      constructor
      · intro hx; omega
      · intro hx; exact hx.elim
    have e45 : ((45 : Byte) : Nat) = 45 := rfl
    simp [ParseInt, e45, hne, hp, hb]
    rw [abs_of_neg hneg]
    omega
  · unfold formatInt
    rw [if_neg hneg]
    obtain ⟨ch, rest, hs⟩ : ∃ ch rest, natDigits (i.natAbs + 1) i.natAbs = ch :: rest := by
      cases hx : natDigits (i.natAbs + 1) i.natAbs with
      | nil => exact (hne hx).elim
      | cons ch rest => exact ⟨ch, rest, rfl⟩
    have hd := isDigit_val ch
      (natDigits_isDigit (i.natAbs + 1) i.natAbs ch (by rw [hs]; simp))
    rw [hs] at hp ⊢
    have h43 : ¬ (ch.val = 43) := by omega
    have h45 : ¬ (ch.val = 45) := by omega
    have hb : (2 : Nat) ^ 63 ≤ i.natAbs ↔ False := by
      constructor
      · intro hx; omega
      · intro hx; exact hx.elim
    simp [ParseInt, h43, h45, hp, hb]
    omega

theorem encodeStd_ne_colon (v : Nat) : encodeStd v ≠ colon := by
  intro h
  have hv := congrArg Fin.val h
  unfold encodeStd at hv
  split at hv
  · rw [toByte_val_of_lt _ (by omega)] at hv
    have : colon.val = 58 := rfl
    omega
  · split at hv
    · rw [toByte_val_of_lt _ (by omega)] at hv
      have : colon.val = 58 := rfl
      omega
    · split at hv
      · rw [toByte_val_of_lt _ (by omega)] at hv
        have : colon.val = 58 := rfl
        omega
      · split at hv
        · exact absurd hv (by decide)
        · exact absurd hv (by decide)

theorem padChar_ne_colon : padChar ≠ colon := by decide

theorem base64Encode_no_colon (bs : Bytes) : ∀ ch ∈ base64Encode bs, ch ≠ colon := by
  induction bs using base64Encode.induct with
  | case1 => intro ch h; simp [base64Encode] at h
  | case2 a =>
    intro ch h
    simp only [base64Encode, List.mem_cons, List.mem_singleton, List.not_mem_nil,
      or_false] at h
    rcases h with h | h | h | h <;> subst h <;>
      first | exact encodeStd_ne_colon _ | exact padChar_ne_colon
  | case3 a b =>
    intro ch h
    simp only [base64Encode, List.mem_cons, List.mem_singleton, List.not_mem_nil,
      or_false] at h
    rcases h with h | h | h | h <;> subst h <;>
      first | exact encodeStd_ne_colon _ | exact padChar_ne_colon
  | case4 a b c rest ih =>
    intro ch h
    simp only [base64Encode, List.mem_cons] at h
    rcases h with h | h | h | h | h
    · subst h; exact encodeStd_ne_colon _
    · subst h; exact encodeStd_ne_colon _
    · subst h; exact encodeStd_ne_colon _
    · subst h; exact encodeStd_ne_colon _
    · exact ih ch h

theorem formatInt_no_colon (i : Int) : ∀ ch ∈ formatInt i, ch ≠ colon := by
  intro ch h
  have hd : ∀ x ∈ natDigits (i.natAbs + 1) i.natAbs, x ≠ colon := by
    intro x hx hc
    have := isDigit_val x (natDigits_isDigit _ _ x hx)
    rw [hc] at this
    have e : colon.val = 58 := rfl
    omega
  unfold formatInt at h
  split at h
  · rcases List.mem_cons.mp h with h1 | h1
    · subst h1; decide
    · exact hd ch h1
  · exact hd ch h

theorem Split_of_no_sep (a : Bytes) (sep : Byte) (h : ∀ ch ∈ a, ch ≠ sep) :
    Split a sep = [a] := by
  induction a with
  | nil => rfl
  | cons ch rest ih =>
    have h1 : ch ≠ sep := h ch (by simp)
    have h2 := ih (fun x hx => h x (by simp [hx]))
    simp [Split, h1, h2]

theorem Split_append_sep (a rest : Bytes) (sep : Byte) (h : ∀ ch ∈ a, ch ≠ sep) :
    Split (a ++ sep :: rest) sep = a :: Split rest sep := by
  induction a with
  | nil => simp [Split]
  | cons ch tl ih =>
    have h1 : ch ≠ sep := h ch (by simp)
    have h2 := ih (fun x hx => h x (by simp [hx]))
    simp [Split, h1, h2]

/-- The fields of a generated record. -/
theorem Split_GeneratePasswordString (salt : Bytes) (c : Int) (key : Bytes) :
    Split (GeneratePasswordString salt c key) colon
      = [base64Encode salt, formatInt c, base64Encode key] := by
  unfold GeneratePasswordString
  rw [List.append_assoc, List.cons_append,
    Split_append_sep _ _ _ (base64Encode_no_colon salt)]
  rw [Split_append_sep _ _ _ (formatInt_no_colon c)]
  rw [Split_of_no_sep _ _ (base64Encode_no_colon key)]

/-- Parsing a generated record gives back the triple it was generated from. -/
theorem parse_generate (salt : Bytes) (c : Int) (key : Bytes) (hc : isInt64 c) :
    GetPasswordParametersFromString (GeneratePasswordString salt c key)
      = .ok (salt, c, key) := by
  unfold GetPasswordParametersFromString
  rw [Split_GeneratePasswordString]
  simp only [base64Decode_encode, ParseInt_formatInt c hc]

/-- The four ways a call of `PBKDF1` can end. -/
theorem PBKDF1_cases (hash : Hash) (P S : Bytes) (c dkLen : Int) :
    ((hash.Size : Int) < dkLen ∧ PBKDF1 hash P S c dkLen = .error .pbkdf1KeyTooLong) ∨
    (dkLen < 0 ∧ PBKDF1 hash P S c dkLen = .error .pbkdf1NegativeKeyLength) ∨
    (dkLen ≤ hash.Size ∧ 0 ≤ dkLen ∧ c ≤ 0 ∧
      PBKDF1 hash P S c dkLen = .error .pbkdf1IterationCount) ∨
    (dkLen ≤ hash.Size ∧ 0 ≤ dkLen ∧ 0 < c ∧
      PBKDF1 hash P S c dkLen = .ok ((hash.sum^[c.toNat] (P ++ S)).take dkLen.toNat)) := by
  by_cases h1 : (hash.Size : Int) < dkLen
  · left
    exact ⟨h1, by unfold PBKDF1; rw [if_pos h1]⟩
  · by_cases h2 : dkLen < 0
    · right; left
      exact ⟨h2, by unfold PBKDF1; rw [if_neg h1, if_pos h2]⟩
    · by_cases h3 : c ≤ 0
      · right; right; left
        exact ⟨by omega, by omega, h3, by unfold PBKDF1; rw [if_neg h1, if_neg h2, if_pos h3]⟩
      · right; right; right
        exact ⟨by omega, by omega, by omega,
          PBKDF1_eq hash P S c dkLen (by omega) (by omega) (by omega)⟩

/-- The five ways a call of `PBKDF2` can end; the panic is the division by a zero
`hLen`. -/
theorem PBKDF2_cases (hash : Hash) (P S : Bytes) (c dkLen : Int) :
    ((2 ^ 32 - 1) * (hash.Size : Int) < dkLen ∧
      PBKDF2 hash P S c dkLen = .error .pbkdf2KeyTooLong) ∨
    (dkLen < 0 ∧ PBKDF2 hash P S c dkLen = .error .pbkdf2NegativeKeyLength) ∨
    (dkLen ≤ (2 ^ 32 - 1) * (hash.Size : Int) ∧ 0 ≤ dkLen ∧ c ≤ 0 ∧
      PBKDF2 hash P S c dkLen = .error .pbkdf2IterationCount) ∨
    (hash.Size = 0 ∧ dkLen = 0 ∧ 0 < c ∧ PBKDF2 hash P S c dkLen = .panic) ∨
    (0 < hash.Size ∧ dkLen ≤ (2 ^ 32 - 1) * (hash.Size : Int) ∧ 0 ≤ dkLen ∧ 0 < c ∧
      PBKDF2 hash P S c dkLen
        = .ok (specBlocks hash P S c.toNat (blockCount hash.Size dkLen.toNat - 1) 1
            ++ (specF hash P S c.toNat (blockCount hash.Size dkLen.toNat)).take
                (dkLen.toNat - (blockCount hash.Size dkLen.toNat - 1) * hash.Size))) := by
  have hmax := maxKeyLen_eq hash
  by_cases h1 : (2 ^ 32 - 1) * (hash.Size : Int) < dkLen
  · left
    refine ⟨h1, ?_⟩
    unfold PBKDF2
    simp only [hmax]
    rw [if_pos (by omega)]
  · by_cases h2 : dkLen < 0
    · right; left
      refine ⟨h2, ?_⟩
      unfold PBKDF2
      simp only [hmax]
      rw [if_neg (by omega), if_pos h2]
    · by_cases h3 : c ≤ 0
      · right; right; left
        refine ⟨by omega, by omega, h3, ?_⟩
        unfold PBKDF2
        simp only [hmax]
        rw [if_neg (by omega), if_neg h2, if_pos h3]
      · by_cases h4 : hash.Size = 0
        · right; right; right; left
          refine ⟨h4, ?_, by omega, ?_⟩
          · rw [h4] at h1; simp at h1; omega
          · unfold PBKDF2
            simp only [hmax]
            rw [if_neg (by omega), if_neg h2, if_neg h3, if_pos (by simp [h4])]
        · right; right; right; right
          exact ⟨by omega, by omega, by omega, by omega,
            PBKDF2_value hash P S c dkLen (by omega) (by omega) (by omega) (by omega)⟩

/-- A key returned by `PBKDF1` has the requested length. -/
theorem PBKDF1_length (hash : Hash) (P S : Bytes) (c dkLen : Int) (key : Bytes)
    (h : PBKDF1 hash P S c dkLen = .ok key) : (key.length : Int) = dkLen := by
  rcases PBKDF1_cases hash P S c dkLen with ⟨_, h1⟩ | ⟨_, h1⟩ | ⟨_, _, _, h1⟩ | ⟨h1, h2, h3, h4⟩
  · rw [h1] at h; cases h
  · rw [h1] at h; cases h
  · rw [h1] at h; cases h
  · rw [h4] at h
    cases h
    rw [List.length_take, iterate_sum_length hash c.toNat _ (by omega)]
    omega

/-- A key returned by `PBKDF2` has the requested length. -/
theorem PBKDF2_length (hash : Hash) (P S : Bytes) (c dkLen : Int) (key : Bytes)
    (h : PBKDF2 hash P S c dkLen = .ok key) : (key.length : Int) = dkLen := by
  rcases PBKDF2_cases hash P S c dkLen with
    ⟨_, h1⟩ | ⟨_, h1⟩ | ⟨_, _, _, h1⟩ | ⟨_, _, _, h1⟩ | ⟨h0, h1, h2, h3, h4⟩
  · rw [h1] at h; cases h
  · rw [h1] at h; cases h
  · rw [h1] at h; cases h
  · rw [h1] at h; cases h
  · rw [h4] at h
    cases h
    obtain ⟨hr1, hr2⟩ := lastBlock_room hash.Size dkLen.toNat h0
    have hlt := Nat.mod_lt dkLen.toNat h0
    have hle : dkLen.toNat - (blockCount hash.Size dkLen.toNat - 1) * hash.Size
        ≤ hash.Size := by
      rw [hr2]; split_ifs <;> omega
    rw [List.length_append, specBlocks_length, List.length_take, specF_length,
      Nat.min_eq_left hle]
    omega

theorem compareLoop_eq (a b : Bytes) (h : a.length = b.length) :
    compareLoop a b = .ok (decide (a = b)) := by
  induction a generalizing b with
  | nil =>
    have : b = [] := List.length_eq_zero.mp h.symm
    subst this
    rfl
  | cons v vs ih =>
    cases b with
    | nil => simp at h
    | cons w ws =>
      have h1 : vs.length = ws.length := by simpa using h
      by_cases hvw : v = w
      · subst hvw
        simp [compareLoop, ih ws h1]
      · simp [compareLoop, hvw]

/-- The verdict of `VerifyPassword` on a record that parses and whose parameters the
key derivation function accepts. -/
theorem verify_verdict (kdf : PBKDF) (hash : Hash) (password record salt key derived : Bytes)
    (c : Int) (hp : GetPasswordParametersFromString record = .ok (salt, c, key))
    (hk : kdf hash password salt c key.length = .ok derived) :
    VerifyPassword hash password record kdf = .ok (decide (derived = key)) := by
  unfold VerifyPassword
  simp only [hp, hk]
  by_cases hl : key.length = derived.length
  · rw [if_neg (by simpa using hl), compareLoop_eq key derived hl]
    congr 1
    by_cases hkd : key = derived
    · subst hkd; simp
    · have : ¬ derived = key := fun e => hkd e.symm
      simp [hkd, this]
  · rw [if_pos hl]
    have : ¬ derived = key := fun e => hl (by rw [e])
    simp [this]

/-- `VerifyPassword` returns an error exactly when the record does not parse or the
key derivation function returns an error on the stored parameters. -/
theorem verify_isError_iff (kdf : PBKDF) (hash : Hash) (password record : Bytes) :
    (VerifyPassword hash password record kdf).isError = true ↔
      (GetPasswordParametersFromString record).isError = true ∨
      ∃ salt c key, GetPasswordParametersFromString record = .ok (salt, c, key) ∧
        (kdf hash password salt c key.length).isError = true := by
  unfold VerifyPassword
  cases hp : GetPasswordParametersFromString record with
  | error e => simp [Outcome.isError]
  | panic => simp [Outcome.isError]
  | ok t =>
    obtain ⟨salt, c, key⟩ := t
    cases hk : kdf hash password salt c key.length with
    | error e =>
      simp only [hk]
      constructor
      · intro _
        exact Or.inr ⟨salt, c, key, rfl, by rw [hk]; rfl⟩
      · intro _
        rfl
    | panic =>
      simp only [hk]
      constructor
      · intro h
        simp [Outcome.isError] at h
      · rintro (h | ⟨s1, c1, k1, h1, h2⟩)
        · simp [Outcome.isError] at h
        · cases h1
          rw [hk] at h2
          simp [Outcome.isError] at h2
    | ok derived =>
      have hv : ∃ b, (if key.length ≠ derived.length then Outcome.ok false
          else compareLoop key derived) = .ok b := by
        by_cases hl : key.length = derived.length
        · exact ⟨_, by rw [if_neg (not_not.mpr hl), compareLoop_eq key derived hl]⟩
        · exact ⟨false, by rw [if_pos hl]⟩
      obtain ⟨b, hb⟩ := hv
      simp only [hk, hb]
      constructor
      · intro h
        simp [Outcome.isError] at h
      · rintro (h | ⟨s1, c1, k1, h1, h2⟩)
        · simp [Outcome.isError] at h
        · cases h1
          rw [hk] at h2
          simp [Outcome.isError] at h2

/-- `PBKDF1` returns an error exactly on a key length above the hash size, a negative
key length or a non-positive iteration count. -/
theorem PBKDF1_isError_iff (hash : Hash) (P S : Bytes) (c dkLen : Int) :
    (PBKDF1 hash P S c dkLen).isError = true ↔
      ((hash.Size : Int) < dkLen ∨ dkLen < 0 ∨ c ≤ 0) := by
  rcases PBKDF1_cases hash P S c dkLen with
    ⟨h, h1⟩ | ⟨h, h1⟩ | ⟨_, _, h, h1⟩ | ⟨ha, hb, hc, h1⟩
  · rw [h1]; simp [Outcome.isError, h]
  · rw [h1]; simp [Outcome.isError, h]
  · rw [h1]; simp [Outcome.isError, h]
  · rw [h1]
    simp only [Outcome.isError, Bool.false_eq_true, false_iff]
    omega

/-- `PBKDF2` returns an error exactly on a key length above `(2^32 - 1) * hLen`, a
negative key length or a non-positive iteration count. -/
theorem PBKDF2_isError_iff (hash : Hash) (P S : Bytes) (c dkLen : Int) :
    (PBKDF2 hash P S c dkLen).isError = true ↔
      ((2 ^ 32 - 1) * (hash.Size : Int) < dkLen ∨ dkLen < 0 ∨ c ≤ 0) := by
  rcases PBKDF2_cases hash P S c dkLen with
    ⟨h, h1⟩ | ⟨h, h1⟩ | ⟨_, _, h, h1⟩ | ⟨hz, hd, hc, h1⟩ | ⟨_, ha, hb, hc, h1⟩
  · rw [h1]; exact ⟨fun _ => Or.inl h, fun _ => rfl⟩
  · rw [h1]; exact ⟨fun _ => Or.inr (Or.inl h), fun _ => rfl⟩
  · rw [h1]; exact ⟨fun _ => Or.inr (Or.inr h), fun _ => rfl⟩
  · rw [h1]
    simp only [Outcome.isError, Bool.false_eq_true, false_iff]
    rw [hz, hd]
    simp
    omega
  · rw [h1]
    simp only [Outcome.isError, Bool.false_eq_true, false_iff]
    omega

/-- What a successful `EncodePassword` consists of: a salt from the random source, a
key from the key derivation function, and the record generated from both. -/
theorem encode_ok_inv (rand : RandomSource) (hash : Hash) (password : Bytes)
    (saltLength c keyLength : Int) (kdf : PBKDF) (r : Bytes)
    (h : EncodePassword rand hash password saltLength c keyLength kdf = .ok r) :
    ∃ salt key, GenerateRandomSequence rand saltLength = .ok salt ∧
      kdf hash password salt c keyLength = .ok key ∧
      r = GeneratePasswordString salt c key := by
  unfold EncodePassword at h
  cases hs : GenerateRandomSequence rand saltLength with
  | error e => rw [hs] at h; cases h
  | panic => rw [hs] at h; cases h
  | ok salt =>
    rw [hs] at h
    cases hk : kdf hash password salt c keyLength with
    | error e => simp only [hk] at h; cases h
    | panic => simp only [hk] at h; cases h
    | ok key =>
      simp only [hk] at h
      cases h
      exact ⟨salt, key, rfl, hk, rfl⟩

theorem isAlphabet_encodeStd_fin : ∀ v : Fin 64, isAlphabet (encodeStd v.val) = true := by
  decide

theorem isAlphabet_encodeStd (v : Nat) (h : v < 64) : isAlphabet (encodeStd v) = true :=
  isAlphabet_encodeStd_fin ⟨v, h⟩

theorem isAlphabet_padChar : isAlphabet padChar = false := by decide

/-- The output of the encoder is valid padded standard base64. -/
theorem validBase64_encode (bs : Bytes) : validBase64 (base64Encode bs) = true := by
  induction bs using base64Encode.induct with
  | case1 => rfl
  | case2 a =>
    have ha := a.isLt
    simp [base64Encode, validBase64, isAlphabet_encodeStd (a.val / 4) (by omega),
      isAlphabet_encodeStd (a.val % 4 * 16) (by omega)]
  | case3 a b =>
    have ha := a.isLt
    have hb := b.isLt
    simp [base64Encode, validBase64, isAlphabet_encodeStd (a.val / 4) (by omega),
      isAlphabet_encodeStd (a.val % 4 * 16 + b.val / 16) (by omega),
      isAlphabet_encodeStd (b.val % 16 * 4) (by omega)]
  | case4 a b c rest ih =>
    have ha := a.isLt
    have hb := b.isLt
    have hc := c.isLt
    simp [base64Encode, validBase64, isAlphabet_encodeStd (a.val / 4) (by omega),
      isAlphabet_encodeStd (a.val % 4 * 16 + b.val / 16) (by omega),
      isAlphabet_encodeStd (b.val % 16 * 4 + c.val / 64) (by omega),
      isAlphabet_encodeStd (c.val % 64) (by omega), ih]

theorem base64Encode_length (bs : Bytes) :
    (base64Encode bs).length = 4 * ((bs.length + 2) / 3) := by
  induction bs using base64Encode.induct with
  | case1 => rfl
  | case2 a => simp [base64Encode]
  | case3 a b => simp [base64Encode]
  | case4 a b c rest ih =>
    simp only [base64Encode, List.length_cons, ih]
    omega

theorem isNewline_of_isAlphabet (ch : Byte) (h : isAlphabet ch = true) :
    isNewline ch = false := by
  simp only [isAlphabet, Bool.or_eq_true, Bool.and_eq_true, decide_eq_true_eq] at h
  simp only [isNewline, Bool.or_eq_false_iff, decide_eq_false_iff_not]
  omega

theorem ne_colon_of_isAlphabet (ch : Byte) (h : isAlphabet ch = true) : ch ≠ colon := by
  intro hc
  subst hc
  exact absurd h (by decide)

/-- Every character of valid base64 text is an alphabet character or `=`. -/
theorem validBase64_chars (s : Bytes) (h : validBase64 s = true) :
    ∀ ch ∈ s, isAlphabet ch = true ∨ ch = padChar := by
  induction s using validBase64.induct with
  | case1 => intro ch hch; simp at hch
  | case2 a b c d =>
    simp only [validBase64, if_true, Bool.and_eq_true, Bool.or_eq_true,
      decide_eq_true_eq] at h
    intro ch hch
    simp only [List.mem_cons, List.mem_singleton, List.not_mem_nil, or_false] at hch
    obtain ⟨⟨ha, hb⟩, hcd⟩ := h
    rcases hch with rfl | rfl | rfl | rfl
    · exact Or.inl ha
    · exact Or.inl hb
    · rcases hcd with ⟨hc, _⟩ | ⟨hc, _⟩
      · exact Or.inl hc
      · exact Or.inr hc
    · rcases hcd with ⟨_, hd | hd⟩ | ⟨_, hd⟩
      · exact Or.inl hd
      · exact Or.inr hd
      · exact Or.inr hd
  | case3 a b c d rest hrest ih =>
    simp only [validBase64, if_neg hrest, Bool.and_eq_true] at h
    obtain ⟨⟨⟨⟨ha, hb⟩, hc⟩, hd⟩, hr⟩ := h
    intro ch hch
    simp only [List.mem_cons] at hch
    rcases hch with rfl | rfl | rfl | rfl | hch
    · exact Or.inl ha
    · exact Or.inl hb
    · exact Or.inl hc
    · exact Or.inl hd
    · exact ih hr ch hch
  | case4 s h1 h2 =>
    exfalso
    unfold validBase64 at h
    split at h
    · exact h1 rfl
    · exact h2 _ _ _ _ _ rfl
    · cases h

theorem base64Encode_no_newline (bs : Bytes) :
    ∀ ch ∈ base64Encode bs, isNewline ch = false := by
  intro ch hch
  rcases validBase64_chars _ (validBase64_encode bs) ch hch with h | h
  · exact isNewline_of_isAlphabet ch h
  · rw [h]; rfl

theorem formatInt_chars (i : Int) :
    ∀ ch ∈ formatInt i, isDigit ch = true ∨ ch.val = 45 := by
  intro ch h
  unfold formatInt at h
  split at h
  · rcases List.mem_cons.mp h with h1 | h1
    · subst h1; exact Or.inr rfl
    · exact Or.inl (natDigits_isDigit _ _ ch h1)
  · exact Or.inl (natDigits_isDigit _ _ ch h)

theorem formatInt_no_newline (i : Int) : ∀ ch ∈ formatInt i, isNewline ch = false := by
  intro ch h
  simp only [isNewline, Bool.or_eq_false_iff, decide_eq_false_iff_not]
  rcases formatInt_chars i ch h with hd | hd
  · have := isDigit_val ch hd
    omega
  · omega

theorem count_eq_zero_of_no_sep (a : Bytes) (sep : Byte) (h : ∀ ch ∈ a, ch ≠ sep) :
    a.count sep = 0 :=
  List.count_eq_zero.mpr (fun hm => h sep hm rfl)

theorem count_colon_GeneratePasswordString (salt : Bytes) (c : Int) (key : Bytes) :
    (GeneratePasswordString salt c key).count colon = 2 := by
  unfold GeneratePasswordString
  simp only [List.count_append, List.count_cons_self,
    count_eq_zero_of_no_sep _ _ (base64Encode_no_colon salt),
    count_eq_zero_of_no_sep _ _ (base64Encode_no_colon key),
    count_eq_zero_of_no_sep _ _ (formatInt_no_colon c)]

/-- A text whose number of colon-separated fields is not three is refused. -/
theorem parse_field_count (s : Bytes) (h : (Split s colon).length ≠ 3) :
    GetPasswordParametersFromString s = .error .formatFieldCount := by
  unfold GetPasswordParametersFromString
  split
  · rename_i f0 f1 f2 heq
    rw [heq] at h
    exact absurd rfl h
  · rfl

theorem verify_of_parse_error (kdf : PBKDF) (hash : Hash) (password s : Bytes) (e : Err)
    (h : GetPasswordParametersFromString s = .error e) :
    VerifyPassword hash password s kdf = .error (.verifyParameters e) := by
  unfold VerifyPassword
  rw [h]

theorem exists_error_of_isError {α : Type} (o : Outcome α) (h : o.isError = true) :
    ∃ e, o = .error e := by
  cases o with
  | ok a => cases h
  | error e => exact ⟨e, rfl⟩
  | panic => cases h

theorem verify_of_kdf_error (kdf : PBKDF) (hash : Hash) (password s salt key : Bytes)
    (c : Int) (e : Err) (hp : GetPasswordParametersFromString s = .ok (salt, c, key))
    (hk : kdf hash password salt c key.length = .error e) :
    VerifyPassword hash password s kdf = .error (.verifyKdf e) := by
  unfold VerifyPassword
  simp only [hp, hk]

/-- Whether `PBKDF1` returns a key does not depend on the password. -/
theorem PBKDF1_ok_of_ok (hash : Hash) (P P2 S : Bytes) (c dkLen : Int) (key : Bytes)
    (h : PBKDF1 hash P S c dkLen = .ok key) : ∃ key2, PBKDF1 hash P2 S c dkLen = .ok key2 := by
  rcases PBKDF1_cases hash P S c dkLen with
    ⟨_, h1⟩ | ⟨_, h1⟩ | ⟨_, _, _, h1⟩ | ⟨ha, hb, hc, _⟩
  · rw [h1] at h; cases h
  · rw [h1] at h; cases h
  · rw [h1] at h; cases h
  · exact ⟨_, PBKDF1_eq hash P2 S c dkLen hc hb ha⟩

/-- Whether `PBKDF2` returns a key does not depend on the password. -/
theorem PBKDF2_ok_of_ok (hash : Hash) (P P2 S : Bytes) (c dkLen : Int) (key : Bytes)
    (h : PBKDF2 hash P S c dkLen = .ok key) : ∃ key2, PBKDF2 hash P2 S c dkLen = .ok key2 := by
  rcases PBKDF2_cases hash P S c dkLen with
    ⟨_, h1⟩ | ⟨_, h1⟩ | ⟨_, _, _, h1⟩ | ⟨_, _, _, h1⟩ | ⟨hh, ha, hb, hc, _⟩
  · rw [h1] at h; cases h
  · rw [h1] at h; cases h
  · rw [h1] at h; cases h
  · rw [h1] at h; cases h
  · exact ⟨_, PBKDF2_value hash P2 S c dkLen hh hc hb ha⟩

theorem shiftedBytes_length (x k : Nat) : (shiftedBytes x k).length = k := by
  induction k with
  | zero => rfl
  | succ k ih => simp [shiftedBytes, ih]

theorem setIndex_tail (pre : Bytes) (k : Nat) (i : Int) (v : Byte) (h : i = pre.length) :
    setIndex (pre ++ makeBytes (k + 1)) i v = .ok ((pre ++ [v]) ++ makeBytes k) := by
  subst h
  unfold setIndex
  rw [if_pos ⟨Int.ofNat_nonneg _, by simp [makeBytes]⟩, Int.toNat_ofNat]
  congr 1
  simp [makeBytes, List.replicate_succ, List.set_append]

/-- The `!bigEndian` loop fills the zero tail of the buffer with the shifted bytes. -/
theorem convertLoopFalse_eq (x k : Nat) :
    ∀ (pre : Bytes) (i : Int), i = pre.length →
      convertLoopFalse x k i (8 * (k : Int)) (pre ++ makeBytes k)
        = .ok (pre ++ shiftedBytes x k) := by
  induction k with
  | zero =>
    intro pre i _
    simp [convertLoopFalse, makeBytes, shiftedBytes]
  | succ k ih =>
    intro pre i hi
    have h8 : (8 : Int) * ((k + 1 : Nat) : Int) - 8 = 8 * (k : Int) := by push_cast; omega
    unfold convertLoopFalse
    rw [h8, if_neg (by omega), setIndex_tail pre k i _ hi]
    simp only
    rw [ih (pre ++ [toByte (x >>> (8 * (k : Int)).toNat)]) (i + 1) (by simp [hi])]
    have h9 : (8 * (k : Int)).toNat = 8 * k := by omega
    simp [shiftedBytes, h9]

/-- The value of `ConvertUnsignedIntegerToByteSlice(integer, byteLength, false)`. -/
theorem convert_false_eq (x : Nat) (n : Int) (hn : 0 ≤ n) :
    ConvertUnsignedIntegerToByteSlice x n false = .ok (shiftedBytes x n.toNat) := by
  unfold ConvertUnsignedIntegerToByteSlice
  rw [if_neg (by omega)]
  have h := convertLoopFalse_eq x n.toNat [] 0 (by simp)
  have hn2 : ((n.toNat : Nat) : Int) = n := Int.toNat_of_nonneg hn
  rw [hn2] at h
  simp only [List.nil_append] at h
  simp only [Bool.not_false, if_true]
  rw [Int.mul_comm]
  exact h

/-- The `bigEndian` branch of `ConvertUnsignedIntegerToByteSlice` panics on every
positive length: after `b[0]` the loop goes on to `b[-1]`. -/
theorem convert_true_panic (x : Nat) (n : Int) (hn : 0 < n) :
    ConvertUnsignedIntegerToByteSlice x n true = .panic := by
  obtain ⟨k, hk⟩ : ∃ k : Nat, n.toNat = k + 1 := ⟨n.toNat - 1, by omega⟩
  unfold ConvertUnsignedIntegerToByteSlice
  rw [if_neg (by omega), hk]
  have hm1 : (-1 : Int) < n := by omega
  simp [convertLoopTrue, hn, hm1, setIndex, makeBytes_length]

/-- The `bigEndian` loop never runs out of fuel: with any fuel of two or more it
ends as it does with two. -/
theorem convertLoopTrue_fuel (x : Nat) (n : Int) (hn : 0 ≤ n) (fuel : Nat) :
    convertLoopTrue x n (fuel + 2) 0 0 (makeBytes n.toNat)
      = some (if n = 0 then .ok [] else .panic) := by
  by_cases h0 : n = 0
  · subst h0
    simp [convertLoopTrue, makeBytes]
  · obtain ⟨k, hk⟩ : ∃ k : Nat, n.toNat = k + 1 := ⟨n.toNat - 1, by omega⟩
    have hpos : 0 < n := by omega
    have hm1 : (-1 : Int) < n := by omega
    rw [hk, if_neg h0]
    cases fuel with
    | zero => simp [convertLoopTrue, hpos, hm1, setIndex, makeBytes_length]
    | succ f => simp [convertLoopTrue, hpos, hm1, setIndex, makeBytes_length]

theorem toByte_shift_val (x k : Nat) : (toByte (x >>> (8 * k))).val = x / 256 ^ k % 256 := by
  show (x >>> (8 * k)) % 256 = x / 256 ^ k % 256
  rw [Nat.shiftRight_eq_div_pow, Nat.pow_mul]

/-- The shifted bytes are the big-endian digits of the integer. -/
theorem bigEndianValue_shiftedBytes (x k : Nat) :
    bigEndianValue (shiftedBytes x k) = x % 256 ^ k := by
  induction k with
  | zero => simp [shiftedBytes, bigEndianValue, Nat.mod_one]
  | succ k ih =>
    simp only [shiftedBytes, bigEndianValue, shiftedBytes_length, ih, toByte_shift_val]
    rw [Nat.pow_succ, Nat.mod_mul, Nat.mul_comm (256 ^ k)]
    omega

theorem bigEndianValue_lt (s : Bytes) : bigEndianValue s < 256 ^ s.length := by
  induction s with
  | nil => simp [bigEndianValue]
  | cons b rest ih =>
    simp only [bigEndianValue, List.length_cons, Nat.pow_succ]
    have hb := b.isLt
    have : b.val * 256 ^ rest.length ≤ 255 * 256 ^ rest.length :=
      Nat.mul_le_mul_right _ (by omega)
    omega

theorem littleEndianValue_lt (s : Bytes) : littleEndianValue s < 256 ^ s.length := by
  induction s with
  | nil => simp [littleEndianValue]
  | cons b rest ih =>
    simp only [littleEndianValue, List.length_cons, Nat.pow_succ]
    have hb := b.isLt
    omega

theorem add_mod_mod_two64 (acc t rest : Nat) :
    ((acc + t % 2 ^ 64) % 2 ^ 64 + rest) % 2 ^ 64 = (acc + (t + rest)) % 2 ^ 64 := by
  omega

/-- The `!bigEndian` loop of `ConvertSliceToUnsignedInteger` adds the big-endian value
of the slice, modulo `2^64`. -/
theorem sliceLoopFalse_eq (s : Bytes) :
    ∀ acc : Nat, acc < 2 ^ 64 → sliceLoopFalse s (8 * (s.length : Int)) acc
      = .ok ((acc + bigEndianValue s) % 2 ^ 64) := by
  induction s with
  | nil =>
    intro acc hacc
    simp only [sliceLoopFalse, bigEndianValue, Nat.add_zero]
    rw [Nat.mod_eq_of_lt hacc]
  | cons b rest ih =>
    intro acc _
    have h8 : (8 : Int) * (((b :: rest).length : Nat) : Int) - 8 = 8 * (rest.length : Int) := by
      simp only [List.length_cons]; push_cast; omega
    unfold sliceLoopFalse
    rw [h8, if_neg (by omega), ih _ (Nat.mod_lt _ (by norm_num))]
    have h9 : (8 * (rest.length : Int)).toNat = 8 * rest.length := by omega
    rw [h9, Nat.shiftLeft_eq, Nat.pow_mul, add_mod_mod_two64]
    rfl

/-- The `bigEndian` loop of `ConvertSliceToUnsignedInteger` adds the little-endian
value of the slice, shifted by the current shift count, modulo `2^64`. -/
theorem sliceLoopTrue_eq (s : Bytes) :
    ∀ (j acc : Nat), acc < 2 ^ 64 → sliceLoopTrue s (8 * (j : Int)) acc
      = .ok ((acc + 256 ^ j * littleEndianValue s) % 2 ^ 64) := by
  induction s with
  | nil =>
    intro j acc hacc
    simp only [sliceLoopTrue, littleEndianValue, Nat.mul_zero, Nat.add_zero]
    rw [Nat.mod_eq_of_lt hacc]
  | cons b rest ih =>
    intro j acc _
    have h8 : (8 : Int) * (j : Int) + 8 = 8 * ((j + 1 : Nat) : Int) := by push_cast; omega
    unfold sliceLoopTrue
    rw [if_neg (by omega), h8, ih _ _ (Nat.mod_lt _ (by norm_num))]
    have h9 : (8 * (j : Int)).toNat = 8 * j := by omega
    rw [h9, Nat.shiftLeft_eq, Nat.pow_mul, add_mod_mod_two64]
    congr 2
    simp only [littleEndianValue, Nat.pow_succ]
    ring

/-- What `ConvertSliceToUnsignedInteger` returns: with the flag `false` the big-endian
value of the slice, with the flag `true` its little-endian value, modulo `2^64`. -/
theorem convertSlice_eq (s : Bytes) :
    ConvertSliceToUnsignedInteger s false = .ok (bigEndianValue s % 2 ^ 64) ∧
      ConvertSliceToUnsignedInteger s true = .ok (littleEndianValue s % 2 ^ 64) := by
  constructor
  · unfold ConvertSliceToUnsignedInteger
    simp only [Bool.not_false, if_true]
    rw [sliceLoopFalse_eq s 0 (by norm_num), Nat.zero_add]
  · unfold ConvertSliceToUnsignedInteger
    simp only [Bool.not_true, Bool.false_eq_true, if_false]
    have h := sliceLoopTrue_eq s 0 0 (by norm_num)
    simp only [Nat.cast_zero, Int.mul_zero, Nat.pow_zero, Nat.one_mul, Nat.zero_add] at h
    exact h

theorem pow_256_le_two64 (n : Nat) (h : n ≤ 8) : 256 ^ n ≤ 2 ^ 64 := by
  have : (256 : Nat) ^ n ≤ 256 ^ 8 := Nat.pow_le_pow_right (by decide) h
  have e : (256 : Nat) ^ 8 = 2 ^ 64 := by norm_num
  omega

/-- The value of `GenerateRandomByte` when the random source delivers the byte
`seed`. -/
theorem GenerateRandomByte_eq (rand : RandomSource) (min max seed : Byte) (rest : Bytes)
    (h : GenerateRandomSequence rand 1 = .ok (seed :: rest)) :
    GenerateRandomByte rand min max
      = if max - min + 1 = 0 then .panic else .ok (seed % (max - min + 1) + min) := by
  unfold GenerateRandomByte
  rw [h]

/-- Unless the range is the whole of `0..255`, the returned byte lies in the range. -/
theorem randomByte_in_range (min max seed : Byte) (h : min ≤ max)
    (hne : ¬ (min = 0 ∧ max = 255)) :
    max - min + 1 ≠ 0 ∧ min ≤ seed % (max - min + 1) + min ∧
      seed % (max - min + 1) + min ≤ max := by
  have h1 := min.isLt
  have h2 := max.isLt
  have h3 := seed.isLt
  have hle : min.val ≤ max.val := h
  have hd : max.val - min.val < 255 := by
    by_contra hcon
    apply hne
    constructor
    · apply Fin.ext; show min.val = 0; omega
    · apply Fin.ext; show max.val = 255; omega
  have hk : (max - min + 1).val = max.val - min.val + 1 := by
    rw [Fin.val_add, Fin.sub_def]
    show ((256 - min.val + max.val) % 256 + 1 % 256) % 256 = max.val - min.val + 1
    omega
  have hmod : (seed % (max - min + 1)).val = seed.val % (max.val - min.val + 1) := by
    rw [Fin.mod_def]
    show seed.val % (max - min + 1).val = _
    rw [hk]
  have hlt : seed.val % (max.val - min.val + 1) < max.val - min.val + 1 :=
    Nat.mod_lt _ (by omega)
  have hv : (seed % (max - min + 1) + min).val
      = seed.val % (max.val - min.val + 1) + min.val := by
    rw [Fin.val_add, hmod]
    omega
  refine ⟨?_, ?_, ?_⟩
  · intro h0
    rw [h0] at hk
    have : ((0 : Byte) : Nat) = 0 := rfl
    omega
  · show min.val ≤ (seed % (max - min + 1) + min).val
    omega
  · show (seed % (max - min + 1) + min).val ≤ max.val
    omega

theorem isAlphabet_eq (ch : Byte) : isAlphabet ch = (decodeMap ch).isSome := by
  unfold isAlphabet decodeMap
  by_cases h1 : 65 ≤ ch.val ∧ ch.val ≤ 90
  · simp [h1]
  · by_cases h2 : 97 ≤ ch.val ∧ ch.val ≤ 122
    · simp [h1, h2]
    · by_cases h3 : 48 ≤ ch.val ∧ ch.val ≤ 57
      · simp [h1, h2, h3]
      · by_cases h4 : ch.val = 43
        · simp [h1, h2, h3, h4]
        · by_cases h5 : ch.val = 47
          · simp [h1, h2, h3, h4, h5]
          · have e1 : (decide (65 ≤ ch.val) && decide (ch.val ≤ 90)) = false := by
              simpa using h1
            have e2 : (decide (97 ≤ ch.val) && decide (ch.val ≤ 122)) = false := by
              simpa using h2
            have e3 : (decide (48 ≤ ch.val) && decide (ch.val ≤ 57)) = false := by
              simpa using h3
            rw [if_neg h1, if_neg h2, if_neg h3, if_neg h4, if_neg h5, e1, e2, e3]
            simp [h4, h5]

theorem decodeMap_none_of_newline (ch : Byte) (h : isNewline ch = true) :
    decodeMap ch = none := by
  have h1 : isAlphabet ch = false := by
    cases hx : isAlphabet ch with
    | false => rfl
    | true => rw [isNewline_of_isAlphabet ch hx] at h; cases h
  rw [isAlphabet_eq] at h1
  cases hd : decodeMap ch with
  | none => rfl
  | some v => rw [hd] at h1; cases h1

theorem skipNewlines_of_free (s : Bytes) (h : ∀ ch ∈ s, isNewline ch = false) :
    skipNewlines s = s := by
  cases s with
  | nil => rfl
  | cons ch rest => simp [skipNewlines, h ch (by simp)]

theorem stripNewlines_free (s : Bytes) : ∀ ch ∈ stripNewlines s, isNewline ch = false := by
  intro ch h
  simpa using (List.mem_filter.mp h).2

theorem stripNewlines_cons_newline (ch : Byte) (rest : Bytes) (h : isNewline ch = true) :
    stripNewlines (ch :: rest) = stripNewlines rest := by
  simp [stripNewlines, List.filter_cons, h]

theorem stripNewlines_cons_other (ch : Byte) (rest : Bytes) (h : isNewline ch = false) :
    stripNewlines (ch :: rest) = ch :: stripNewlines rest := by
  simp [stripNewlines, List.filter_cons, h]

theorem skipNewlines_eq_nil_iff (s : Bytes) : skipNewlines s = [] ↔ stripNewlines s = [] := by
  induction s with
  | nil => simp [skipNewlines, stripNewlines]
  | cons ch rest ih =>
    by_cases h : isNewline ch = true
    · rw [stripNewlines_cons_newline ch rest h]
      simp only [skipNewlines, h, if_true]
      exact ih
    · have h2 : isNewline ch = false := by simpa using h
      rw [stripNewlines_cons_other ch rest h2]
      simp [skipNewlines, h2]

theorem skipNewlines_eq_cons (s : Bytes) (p : Byte) (rest1 : Bytes)
    (h : skipNewlines s = p :: rest1) :
    isNewline p = false ∧ stripNewlines s = p :: stripNewlines rest1 := by
  induction s with
  | nil => simp [skipNewlines] at h
  | cons ch rest ih =>
    by_cases hn : isNewline ch = true
    · rw [stripNewlines_cons_newline ch rest hn]
      simp only [skipNewlines, hn, if_true] at h
      exact ih h
    · have h2 : isNewline ch = false := by simpa using hn
      simp only [skipNewlines, h2, Bool.false_eq_true, if_false, List.cons.injEq] at h
      obtain ⟨rfl, rfl⟩ := h
      exact ⟨h2, stripNewlines_cons_other ch rest h2⟩

/-- The decoder ignores `\r` and `\n`: it treats a text as it treats the text without
them. -/
theorem base64DecodeLoop_strip (s : Bytes) :
    ∀ (dbuf : List Nat) (out : Bytes),
      base64DecodeLoop s dbuf out = base64DecodeLoop (stripNewlines s) dbuf out := by
  induction s with
  | nil => intro dbuf out; rfl
  | cons ch rest ih =>
    intro dbuf out
    by_cases hn : isNewline ch = true
    · rw [stripNewlines_cons_newline ch rest hn]
      rw [← ih]
      simp [base64DecodeLoop, decodeMap_none_of_newline ch hn, hn]
    · have h2 : isNewline ch = false := by simpa using hn
      rw [stripNewlines_cons_other ch rest h2]
      cases hd : decodeMap ch with
      | some v =>
        simp only [base64DecodeLoop, hd]
        split
        · exact ih _ _
        · exact ih _ _
      | none =>
        simp only [base64DecodeLoop, hd, h2, Bool.false_eq_true, if_false]
        by_cases hp : ch = padChar
        · simp only [hp, ne_eq, not_true_eq_false, if_false]
          have hfree := stripNewlines_free rest
          rw [skipNewlines_of_free _ hfree]
          split
          · rename_i d0 d1
            cases hs : skipNewlines rest with
            | nil =>
              rw [(skipNewlines_eq_nil_iff rest).mp hs]
            | cons p rest1 =>
              obtain ⟨hpn, hstrip⟩ := skipNewlines_eq_cons rest p rest1 hs
              rw [hstrip]
              simp only
              by_cases hpp : p = padChar
              · simp only [hpp, ne_eq, not_true_eq_false, if_false]
                rw [skipNewlines_of_free _ (stripNewlines_free rest1)]
                by_cases hr : skipNewlines rest1 = []
                · rw [if_pos hr, if_pos ((skipNewlines_eq_nil_iff rest1).mp hr)]
                · rw [if_neg hr, if_neg (fun h => hr ((skipNewlines_eq_nil_iff rest1).mpr h))]
              · simp only [ne_eq, hpp, not_false_eq_true, if_true]
          · by_cases hr : skipNewlines rest = []
            · rw [if_pos hr, if_pos ((skipNewlines_eq_nil_iff rest).mp hr)]
            · rw [if_neg hr, if_neg (fun h => hr ((skipNewlines_eq_nil_iff rest).mpr h))]
          · rfl
        · simp only [ne_eq, hp, not_false_eq_true, if_true]

theorem decodeMap_of_not_alphabet (ch : Byte) (h : isAlphabet ch = false) :
    decodeMap ch = none := by
  rw [isAlphabet_eq] at h
  cases hd : decodeMap ch with
  | none => rfl
  | some v => rw [hd] at h; cases h

theorem skipNewlines_free_eq_nil (s : Bytes) (h : ∀ ch ∈ s, isNewline ch = false) :
    skipNewlines s = [] ↔ s = [] := by
  rw [skipNewlines_of_free s h]

/-- On a text without `\r` and `\n` the decoder succeeds exactly on valid padded
standard base64. -/
theorem base64DecodeLoop_isSome (s : Bytes) :
    ∀ out : Bytes, (∀ ch ∈ s, isNewline ch = false) →
      (base64DecodeLoop s [] out).isSome = validBase64 s := by
  induction s using validBase64.induct with
  | case1 => intro out _; rfl
  | case2 a b c d =>
    intro out hfree
    have hna := hfree a (by simp)
    have hnb := hfree b (by simp)
    have hnc := hfree c (by simp)
    have hnd := hfree d (by simp)
    simp only [validBase64, if_true, isAlphabet_eq]
    cases ha : decodeMap a with
    | none =>
      by_cases hp : a = padChar
      · subst hp
        simp [base64DecodeLoop, ha, hna, decodeMap_padChar, isNewline_padChar]
      · simp [base64DecodeLoop, ha, hna, hp]
    | some va =>
      cases hb : decodeMap b with
      | none =>
        by_cases hp : b = padChar
        · subst hp
          simp [base64DecodeLoop, ha, hb, hnb, decodeMap_padChar, isNewline_padChar]
        · simp [base64DecodeLoop, ha, hb, hnb, hp]
      | some vb =>
        cases hc : decodeMap c with
        | none =>
          by_cases hp : c = padChar
          · subst hp
            by_cases hq : d = padChar
            · subst hq
              simp [base64DecodeLoop, ha, hb, decodeMap_padChar, skipNewlines,
                isNewline_padChar]
            · simp [base64DecodeLoop, ha, hb, decodeMap_padChar, hnd, hq, skipNewlines,
                isNewline_padChar]
          · simp [base64DecodeLoop, ha, hb, hc, hnc, hp]
        | some vc =>
          cases hd : decodeMap d with
          | none =>
            by_cases hq : d = padChar
            · subst hq
              simp [base64DecodeLoop, ha, hb, hc, decodeMap_padChar, isNewline_padChar,
                skipNewlines]
            · simp [base64DecodeLoop, ha, hb, hc, hd, hnd, hq]
          | some vd => simp [base64DecodeLoop, ha, hb, hc, hd]
  | case3 a b c d rest hrest ih =>
    intro out hfree
    have hna := hfree a (by simp)
    have hnb := hfree b (by simp)
    have hnc := hfree c (by simp)
    have hnd := hfree d (by simp)
    have hfr : ∀ ch ∈ rest, isNewline ch = false := fun ch h => hfree ch (by simp [h])
    have hsk : skipNewlines rest ≠ [] := fun h => hrest ((skipNewlines_free_eq_nil rest hfr).mp h)
    obtain ⟨r0, rs, hr0⟩ : ∃ r0 rs, rest = r0 :: rs := by
      cases rest with
      | nil => exact absurd rfl hrest
      | cons r0 rs => exact ⟨r0, rs, rfl⟩
    have hnr0 : isNewline r0 = false := hfr r0 (by rw [hr0]; simp)
    simp only [validBase64, if_neg hrest, isAlphabet_eq]
    cases ha : decodeMap a with
    | none =>
      by_cases hp : a = padChar
      · subst hp
        simp [base64DecodeLoop, ha, hna, decodeMap_padChar, isNewline_padChar]
      · simp [base64DecodeLoop, ha, hna, hp]
    | some va =>
      cases hb : decodeMap b with
      | none =>
        by_cases hp : b = padChar
        · subst hp
          simp [base64DecodeLoop, ha, hb, hnb, decodeMap_padChar, isNewline_padChar]
        · simp [base64DecodeLoop, ha, hb, hnb, hp]
      | some vb =>
        cases hc : decodeMap c with
        | none =>
          by_cases hp : c = padChar
          · subst hp
            by_cases hq : d = padChar
            · subst hq
              simp [base64DecodeLoop, ha, hb, decodeMap_padChar, skipNewlines,
                isNewline_padChar, hr0, hnr0]
            · simp [base64DecodeLoop, ha, hb, decodeMap_padChar, hnd, hq, skipNewlines,
                isNewline_padChar]
          · simp [base64DecodeLoop, ha, hb, hc, hnc, hp]
        | some vc =>
          cases hd : decodeMap d with
          | none =>
            by_cases hq : d = padChar
            · subst hq
              simp [base64DecodeLoop, ha, hb, hc, decodeMap_padChar, isNewline_padChar,
                skipNewlines, hr0, hnr0]
            · simp [base64DecodeLoop, ha, hb, hc, hd, hnd, hq]
          | some vd =>
            have hstep : base64DecodeLoop (a :: b :: c :: d :: rest) [] out
                = base64DecodeLoop rest []
                    (out ++ [toByte (va * 4 + vb / 16), toByte (vb % 16 * 16 + vc / 4),
                      toByte (vc % 4 * 64 + vd)]) := by
              simp [base64DecodeLoop, ha, hb, hc, hd]
            rw [hstep, ih _ hfr]
            simp
  | case4 t h1 h2 =>
    intro out hfree
    have hv : validBase64 t = false := by
      unfold validBase64
      split
      · exact absurd rfl h1
      · exact absurd rfl (h2 _ _ _ _ _)
      · rfl
    rw [hv]
    match t, h1, h2, hfree with
    | [], h1, _, _ => exact absurd rfl h1
    | [a], _, _, hfree =>
      have hna := hfree a (by simp)
      cases ha : decodeMap a with
      | none =>
        by_cases hp : a = padChar
        · subst hp
          simp [base64DecodeLoop, ha, hna, decodeMap_padChar, isNewline_padChar]
        · simp [base64DecodeLoop, ha, hna, hp]
      | some va => simp [base64DecodeLoop, ha]
    | [a, b], _, _, hfree =>
      have hna := hfree a (by simp)
      have hnb := hfree b (by simp)
      cases ha : decodeMap a with
      | none =>
        by_cases hp : a = padChar
        · subst hp
          simp [base64DecodeLoop, ha, hna, decodeMap_padChar, isNewline_padChar]
        · simp [base64DecodeLoop, ha, hna, hp]
      | some va =>
        cases hb : decodeMap b with
        | none =>
          by_cases hp : b = padChar
          · subst hp
            simp [base64DecodeLoop, ha, hb, hnb, decodeMap_padChar, isNewline_padChar]
          · simp [base64DecodeLoop, ha, hb, hnb, hp]
        | some vb => simp [base64DecodeLoop, ha, hb]
    | [a, b, c], _, _, hfree =>
      have hna := hfree a (by simp)
      have hnb := hfree b (by simp)
      have hnc := hfree c (by simp)
      cases ha : decodeMap a with
      | none =>
        by_cases hp : a = padChar
        · subst hp
          simp [base64DecodeLoop, ha, hna, decodeMap_padChar, isNewline_padChar]
        · simp [base64DecodeLoop, ha, hna, hp]
      | some va =>
        cases hb : decodeMap b with
        | none =>
          by_cases hp : b = padChar
          · subst hp
            simp [base64DecodeLoop, ha, hb, hnb, decodeMap_padChar, isNewline_padChar]
          · simp [base64DecodeLoop, ha, hb, hnb, hp]
        | some vb =>
          cases hc : decodeMap c with
          | none =>
            by_cases hp : c = padChar
            · subst hp
              simp [base64DecodeLoop, ha, hb, hc, hnc, skipNewlines, decodeMap_padChar,
                isNewline_padChar]
            · simp [base64DecodeLoop, ha, hb, hc, hnc, hp, skipNewlines]
          | some vc => simp [base64DecodeLoop, ha, hb, hc]
    | a :: b :: c :: d :: rest, _, h2, _ => exact absurd rfl (h2 a b c d rest)

/-- `base64.StdEncoding.DecodeString` succeeds exactly on the texts that are valid
padded standard base64 once their `\r` and `\n` bytes are left out. -/
theorem base64Decode_isSome (s : Bytes) :
    (base64Decode s).isSome = validBase64 (stripNewlines s) := by
  unfold base64Decode
  rw [base64DecodeLoop_strip]
  exact base64DecodeLoop_isSome _ [] (stripNewlines_free s)

/-- The digit loop accepts exactly the sequences of decimal digits and returns the
number they write. -/
theorem parseDigits_eq (body : Bytes) :
    ∀ acc : Nat, parseDigits body acc
      = if body.all isDigit = true then
          some (body.foldl (fun n ch => n * 10 + (ch.val - 48)) acc)
        else none := by
  induction body with
  | nil => intro acc; simp [parseDigits]
  | cons ch rest ih =>
    intro acc
    by_cases hd : isDigit ch = true
    · simp [parseDigits, hd, ih]
    · simp [parseDigits, hd]

theorem parseDigits_zero (body : Bytes) :
    parseDigits body 0
      = if body.all isDigit = true then some (digitsValue body) else none :=
  parseDigits_eq body 0

/-- `ParseInt` on a text with a minus sign. -/
theorem ParseInt_minus (ch : Byte) (rest : Bytes) (n : Nat) (h45 : ch.val = 45)
    (hne : rest ≠ []) (hp : parseDigits rest 0 = some n) :
    ParseInt (ch :: rest) = if 2 ^ 63 < n then none else some (-(n : Int)) := by
  by_cases hr : 2 ^ 63 < n
  · simp [ParseInt, h45, hne, hp, hr]
  · simp [ParseInt, h45, hne, hp, hr]

/-- `ParseInt` on a text with a plus sign. -/
theorem ParseInt_plus (ch : Byte) (rest : Bytes) (n : Nat) (h43 : ch.val = 43)
    (hne : rest ≠ []) (hp : parseDigits rest 0 = some n) :
    ParseInt (ch :: rest) = if 2 ^ 63 ≤ n then none else some (n : Int) := by
  have h45 : ¬ ch.val = 45 := by omega
  by_cases hr : 2 ^ 63 ≤ n
  · simp [ParseInt, h43, h45, hne, hp, hr]
  · simp [ParseInt, h43, h45, hne, hp, hr]

/-- `ParseInt` on a text without a sign. -/
theorem ParseInt_unsigned (ch : Byte) (rest : Bytes) (n : Nat) (h43 : ¬ ch.val = 43)
    (h45 : ¬ ch.val = 45) (hp : parseDigits (ch :: rest) 0 = some n) :
    ParseInt (ch :: rest) = if 2 ^ 63 ≤ n then none else some (n : Int) := by
  by_cases hr : 2 ^ 63 ≤ n
  · simp [ParseInt, h43, h45, hp, hr]
  · simp [ParseInt, h43, h45, hp, hr]

/-- `ParseInt` refuses a text whose digits are not all decimal digits. -/
theorem ParseInt_bad_digits (ch : Byte) (rest : Bytes)
    (hp : parseDigits (decimalBody (ch :: rest)) 0 = none) :
    ParseInt (ch :: rest) = none := by
  simp only [decimalBody] at hp
  by_cases hs : ch.val = 43 ∨ ch.val = 45
  · rw [if_pos hs] at hp
    simp [ParseInt, hs, hp]
  · rw [if_neg hs] at hp
    simp [ParseInt, hs, hp]

/-- `strconv.ParseInt(s, 10, 64)` succeeds exactly on an optional sign followed by
one or more decimal digits whose value lies in the 64-bit signed range, and then
returns that value. -/
theorem ParseInt_eq (s : Bytes) :
    ParseInt s
      = if isDecimalText s = true ∧ isInt64 (decimalValue s) then some (decimalValue s)
        else none := by
  cases s with
  | nil => simp [ParseInt, isDecimalText, decimalBody]
  | cons ch rest =>
    by_cases hall : (decimalBody (ch :: rest)).all isDigit = true
    · by_cases hne : decimalBody (ch :: rest) = []
      · have hdt : ¬ isDecimalText (ch :: rest) = true := by
          simp [isDecimalText, hne]
        rw [if_neg (fun h => hdt h.1)]
        simp only [decimalBody] at hne
        by_cases hs : ch.val = 43 ∨ ch.val = 45
        · rw [if_pos hs] at hne
          simp [ParseInt, hs, hne]
        · rw [if_neg hs] at hne
          cases hne
      · have hdt : isDecimalText (ch :: rest) = true := by
          simp only [isDecimalText, Bool.and_eq_true, Bool.not_eq_true', hall, and_true]
          cases hb : decimalBody (ch :: rest) with
          | nil => exact absurd hb hne
          | cons _ _ => rfl
        by_cases h45 : ch.val = 45
        · have hb : decimalBody (ch :: rest) = rest := by simp [decimalBody, h45]
          rw [hb] at hall hne
          have hp := parseDigits_zero rest
          rw [if_pos hall] at hp
          have hv : decimalValue (ch :: rest) = -(digitsValue rest : Int) := by
            simp [decimalValue, h45]
          rw [ParseInt_minus ch rest _ h45 hne hp, hv]
          by_cases hr : 2 ^ 63 < digitsValue rest
          · rw [if_pos hr, if_neg]
            rintro ⟨_, hi⟩
            simp only [isInt64] at hi
            omega
          · rw [if_neg hr, if_pos]
            refine ⟨hdt, ?_⟩
            simp only [isInt64]
            constructor <;> omega
        · by_cases h43 : ch.val = 43
          · have hb : decimalBody (ch :: rest) = rest := by simp [decimalBody, h43]
            rw [hb] at hall hne
            have hp := parseDigits_zero rest
            rw [if_pos hall] at hp
            have hv : decimalValue (ch :: rest) = (digitsValue rest : Int) := by
              simp [decimalValue, h45, hb]
            rw [ParseInt_plus ch rest _ h43 hne hp, hv]
            by_cases hr : 2 ^ 63 ≤ digitsValue rest
            · rw [if_pos hr, if_neg]
              rintro ⟨_, hi⟩
              simp only [isInt64] at hi
              omega
            · rw [if_neg hr, if_pos]
              refine ⟨hdt, ?_⟩
              simp only [isInt64]
              constructor <;> omega
          · have hb : decimalBody (ch :: rest) = ch :: rest := by
              simp [decimalBody, h43, h45]
            rw [hb] at hall
            have hp := parseDigits_zero (ch :: rest)
            rw [if_pos hall] at hp
            have hv : decimalValue (ch :: rest) = (digitsValue (ch :: rest) : Int) := by
              simp [decimalValue, h45, hb]
            rw [ParseInt_unsigned ch rest _ h43 h45 hp, hv]
            by_cases hr : 2 ^ 63 ≤ digitsValue (ch :: rest)
            · rw [if_pos hr, if_neg]
              rintro ⟨_, hi⟩
              simp only [isInt64] at hi
              omega
            · rw [if_neg hr, if_pos]
              refine ⟨hdt, ?_⟩
              simp only [isInt64]
              constructor <;> omega
    · have hdt : ¬ isDecimalText (ch :: rest) = true := by
        simp only [isDecimalText, Bool.and_eq_true]
        exact fun h => hall h.2
      rw [if_neg (fun h => hdt h.1)]
      have hp := parseDigits_zero (decimalBody (ch :: rest))
      rw [if_neg hall] at hp
      exact ParseInt_bad_digits ch rest hp

theorem digitsValue_natDigits (fuel n : Nat) (h : n < fuel) :
    (natDigits fuel n).all isDigit = true ∧ digitsValue (natDigits fuel n) = n := by
  have hp := parseDigits_natDigits fuel n h
  rw [parseDigits_zero] at hp
  by_cases hall : (natDigits fuel n).all isDigit = true
  · rw [if_pos hall] at hp
    exact ⟨hall, Option.some.inj hp⟩
  · rw [if_neg hall] at hp
    cases hp

/-- The text `%d` writes is a decimal text whose value is the integer written. -/
theorem formatInt_decimal (i : Int) :
    isDecimalText (formatInt i) = true ∧ decimalValue (formatInt i) = i := by
  obtain ⟨hall, hval⟩ := digitsValue_natDigits (i.natAbs + 1) i.natAbs (by omega)
  have hne := natDigits_ne_nil i.natAbs i.natAbs
  obtain ⟨ch, rest, hs⟩ : ∃ ch rest, natDigits (i.natAbs + 1) i.natAbs = ch :: rest := by
    cases hx : natDigits (i.natAbs + 1) i.natAbs with
    | nil => exact (hne hx).elim
    | cons ch rest => exact ⟨ch, rest, rfl⟩
  have e45 : ((45 : Byte) : Nat) = 45 := rfl
  by_cases hneg : i < 0
  · unfold formatInt
    rw [if_pos hneg]
    have hb : decimalBody (45 :: natDigits (i.natAbs + 1) i.natAbs)
        = natDigits (i.natAbs + 1) i.natAbs := by
      simp [decimalBody, e45]
    constructor
    · unfold isDecimalText
      rw [hb, hall, hs]
      rfl
    · simp only [decimalValue, e45, if_true, hval]
      omega
  · unfold formatInt
    rw [if_neg hneg]
    have hd := isDigit_val ch (natDigits_isDigit (i.natAbs + 1) i.natAbs ch (by rw [hs]; simp))
    have hb : decimalBody (natDigits (i.natAbs + 1) i.natAbs)
        = natDigits (i.natAbs + 1) i.natAbs := by
      rw [hs]
      have h1 : ¬ (ch.val = 43 ∨ ch.val = 45) := by omega
      simp [decimalBody, h1]
    constructor
    · unfold isDecimalText
      rw [hb, hall, hs]
      rfl
    · have h45 : ¬ ch.val = 45 := by omega
      have hv : decimalValue (natDigits (i.natAbs + 1) i.natAbs)
          = (digitsValue (decimalBody (natDigits (i.natAbs + 1) i.natAbs)) : Int) := by
        rw [hs]
        simp [decimalValue, h45]
      rw [hv, hb, hval]
      omega

/-- The four bytes of a block index are its big-endian digits. -/
theorem enc4_bigEndian (i : Nat) : bigEndianValue (enc4 i) = i % 2 ^ 32 := by
  have h : enc4 i = shiftedBytes i 4 := by
    simp [enc4, convert_false_eq i 4 (by decide)]
  rw [h, bigEndianValue_shiftedBytes]
  norm_num

/-- With the flag `false` the integer/byte codec inverts itself on every length up to
eight. -/
theorem codec_false_round_trip (x : Nat) (n : Int) (h0 : 0 ≤ n) (h8 : n ≤ 8) :
    ∃ bs, ConvertUnsignedIntegerToByteSlice x n false = .ok bs ∧ (bs.length : Int) = n ∧
      ConvertSliceToUnsignedInteger bs false = .ok (x % 2 ^ (8 * n.toNat)) := by
  refine ⟨shiftedBytes x n.toNat, convert_false_eq x n h0, ?_, ?_⟩
  · rw [shiftedBytes_length]; omega
  · rw [(convertSlice_eq _).1, bigEndianValue_shiftedBytes]
    have hle := pow_256_le_two64 n.toNat (by omega)
    have hlt : x % 256 ^ n.toNat < 256 ^ n.toNat := Nat.mod_lt _ (by positivity)
    rw [Nat.mod_eq_of_lt (by omega), Nat.pow_mul]

/-- The value `ConvertSliceToUnsignedInteger` returns on a slice of at most eight
bytes: big-endian with the flag `false`, little-endian with the flag `true`. -/
theorem convertSlice_short (s : Bytes) (h : s.length ≤ 8) :
    ConvertSliceToUnsignedInteger s false = .ok (bigEndianValue s) ∧
      ConvertSliceToUnsignedInteger s true = .ok (littleEndianValue s) := by
  have hle := pow_256_le_two64 s.length h
  have h1 := bigEndianValue_lt s
  have h2 := littleEndianValue_lt s
  obtain ⟨e1, e2⟩ := convertSlice_eq s
  rw [e1, e2, Nat.mod_eq_of_lt (by omega), Nat.mod_eq_of_lt (by omega)]
  exact ⟨rfl, rfl⟩

/-- Two hashes with the same size and the same digests are the same hash. -/
theorem Hash.ext_of_sum (h1 h2 : Hash) (hsize : h1.Size = h2.Size)
    (hsum : ∀ m, h1.sum m = h2.sum m) : h1 = h2 := by
  cases h1 with
  | mk s1 f1 p1 q1 =>
    cases h2 with
    | mk s2 f2 p2 q2 =>
      simp only at hsize hsum
      have hf : f1 = f2 := funext hsum
      subst hsize
      subst hf
      rfl

theorem twoByteChar_injective (a b : Fin 1920) (h : twoByteChar a = twoByteChar b) : a = b := by
  have ha := a.isLt
  have hb := b.isLt
  simp only [twoByteChar, List.cons.injEq, and_true] at h
  obtain ⟨h1, h2⟩ := h
  have e1 := congrArg Fin.val h1
  have e2 := congrArg Fin.val h2
  rw [toByte_val_of_lt _ (by omega), toByte_val_of_lt _ (by omega)] at e1
  rw [toByte_val_of_lt _ (by omega), toByte_val_of_lt _ (by omega)] at e2
  apply Fin.ext
  omega

theorem eq_singleton_of_length_one (l : Bytes) (h : l.length = 1) : l = [l.headD 0] := by
  match l, h with
  | [x], _ => rfl

/-- Keys of one byte cannot separate all passwords: for each engine, every hash with
`hLen > 0`, every salt and every `c > 0` there are two different passwords, each a
single two-byte character, from which the engine derives the same key of one byte. -/
theorem one_byte_key_collision (E : PBKDF) (hash : Hash) (S : Bytes) (c : Int)
    (hE : E = PBKDF1 ∨ E = PBKDF2) (hh : 0 < hash.Size) (hc : 0 < c) :
    ∃ a b : Fin 1920, twoByteChar a ≠ twoByteChar b ∧
      ∃ key, E hash (twoByteChar a) S c 1 = .ok key ∧
        E hash (twoByteChar b) S c 1 = .ok key := by
  have hok : ∀ p : Bytes, ∃ key, E hash p S c 1 = .ok key ∧ key.length = 1 := by
    intro p
    rcases hE with hE | hE
    · have h := PBKDF1_eq hash p S c 1 hc (by decide) (by omega)
      rw [hE]
      refine ⟨_, h, ?_⟩
      have := PBKDF1_length hash p S c 1 _ h
      omega
    · have h := PBKDF2_value hash p S c 1 hh hc (by decide) (by omega)
      rw [hE]
      refine ⟨_, h, ?_⟩
      have := PBKDF2_length hash p S c 1 _ h
      omega
  choose key hkey hlen using hok
  obtain ⟨a, b, hab, hg⟩ := Fintype.exists_ne_map_eq_of_card_lt
    (fun k : Fin 1920 => (key (twoByteChar k)).headD 0)
    (by rw [Fintype.card_fin, Fintype.card_fin]; norm_num)
  refine ⟨a, b, fun h => hab (twoByteChar_injective a b h), key (twoByteChar a),
    hkey (twoByteChar a), ?_⟩
  rw [hkey (twoByteChar b), eq_singleton_of_length_one _ (hlen (twoByteChar a)),
    eq_singleton_of_length_one _ (hlen (twoByteChar b))]
  exact congrArg (fun x => Outcome.ok [x]) hg.symm

/-- The value of `GenerateRandomInt64` when the random source delivers the bytes
`seed`. -/
theorem GenerateRandomInt64_eq (rand : RandomSource) (min max : Int) (seed : Bytes)
    (h : GenerateRandomSequence rand 8 = .ok seed) :
    GenerateRandomInt64 rand min max
      = if toUint64 (wrapInt64 (wrapInt64 (max - min) + 1)) = 0 then .panic
        else
          .ok (wrapInt64 (wrapInt64
            ((bigEndianValue seed % 2 ^ 64
                % toUint64 (wrapInt64 (wrapInt64 (max - min) + 1)) : Nat) : Int) + min)) := by
  unfold GenerateRandomInt64
  rw [h]
  simp only [(convertSlice_eq seed).1]

/-- The modulus `uint64(max-min+1)` of `GenerateRandomInt64` is the number of values
of the range, except for the full 64-bit range, where it is zero. -/
theorem randomInt64_modulus (min max : Int) (hmin : isInt64 min) (hmax : isInt64 max)
    (h : min ≤ max) :
    ((toUint64 (wrapInt64 (wrapInt64 (max - min) + 1)) : Nat) : Int)
      = if min = -2 ^ 63 ∧ max = 2 ^ 63 - 1 then 0 else max - min + 1 := by
  obtain ⟨h1, h2⟩ := hmin
  obtain ⟨h3, h4⟩ := hmax
  unfold toUint64 wrapInt64
  split
  · rename_i hfull
    obtain ⟨e1, e2⟩ := hfull
    subst e1 e2
    decide
  · rename_i hne
    have hd : max - min + 1 < 2 ^ 64 := by
      by_contra hcon
      apply hne
      constructor <;> omega
    omega

/-- Unless the range is the whole 64-bit range, the value computed by
`GenerateRandomInt64` from a remainder `r` below the modulus lies in the range. -/
theorem randomInt64_value (min max : Int) (r : Nat) (hmin : isInt64 min) (hmax : isInt64 max)
    (hr : (r : Int) < max - min + 1) :
    wrapInt64 (wrapInt64 (r : Int) + min) = r + min := by
  obtain ⟨h1, h2⟩ := hmin
  obtain ⟨h3, h4⟩ := hmax
  unfold wrapInt64
  omega

/-- Unless the range is the whole 64-bit range, `GenerateRandomInt64` returns a value
of the range. -/
theorem randomInt64_in_range (rand : RandomSource) (min max : Int) (seed : Bytes)
    (hs : GenerateRandomSequence rand 8 = .ok seed)
    (hmin : isInt64 min) (hmax : isInt64 max) (h : min ≤ max)
    (hne : ¬ (min = -2 ^ 63 ∧ max = 2 ^ 63 - 1)) :
    ∃ v, GenerateRandomInt64 rand min max = .ok v ∧ min ≤ v ∧ v ≤ max := by
  have hk := randomInt64_modulus min max hmin hmax h
  rw [if_neg hne] at hk
  have hk0 : toUint64 (wrapInt64 (wrapInt64 (max - min) + 1)) ≠ 0 := by
    intro h0
    rw [h0] at hk
    simp at hk
    omega
  have hlt : bigEndianValue seed % 2 ^ 64 % toUint64 (wrapInt64 (wrapInt64 (max - min) + 1))
      < toUint64 (wrapInt64 (wrapInt64 (max - min) + 1)) :=
    Nat.mod_lt _ (Nat.pos_of_ne_zero hk0)
  have hlt2 : ((bigEndianValue seed % 2 ^ 64
      % toUint64 (wrapInt64 (wrapInt64 (max - min) + 1)) : Nat) : Int) < max - min + 1 := by
    rw [← hk]
    exact_mod_cast hlt
  have hv := randomInt64_value min max _ hmin hmax hlt2
  refine ⟨_, by rw [GenerateRandomInt64_eq rand min max seed hs, if_neg hk0], ?_, ?_⟩
  · rw [hv]; omega
  · rw [hv]; omega

/-- On the whole 64-bit range `GenerateRandomInt64` panics. -/
theorem randomInt64_full_range (rand : RandomSource) (seed : Bytes)
    (hs : GenerateRandomSequence rand 8 = .ok seed) :
    GenerateRandomInt64 rand (-2 ^ 63) (2 ^ 63 - 1) = .panic := by
  rw [GenerateRandomInt64_eq rand _ _ seed hs, if_pos (by decide)]

theorem specBlocks_add (hash : Hash) (P S : Bytes) (c a b : Nat) :
    ∀ i : Nat, specBlocks hash P S c (a + b) i
      = specBlocks hash P S c a i ++ specBlocks hash P S c b (i + a) := by
  induction a with
  | zero => intro i; simp [specBlocks]
  | succ a ih =>
    intro i
    have e : a + 1 + b = (a + b) + 1 := by omega
    rw [e]
    simp only [specBlocks, ih (i + 1), List.append_assoc]
    have e2 : i + 1 + a = i + (a + 1) := by omega
    rw [e2]

/-- The key of `PBKDF2` is a prefix of the stream of blocks `F(1) ‖ F(2) ‖ ...`: it is
the first `dkLen` bytes of any `N` blocks that hold at least `dkLen` bytes. -/
theorem PBKDF2_key_eq_take (hash : Hash) (P S : Bytes) (c d N : Nat) (hh : 0 < hash.Size)
    (hN : blockCount hash.Size d ≤ N) :
    specBlocks hash P S c (blockCount hash.Size d - 1) 1
        ++ (specF hash P S c (blockCount hash.Size d)).take
            (d - (blockCount hash.Size d - 1) * hash.Size)
      = (specBlocks hash P S c N 1).take d := by
  obtain ⟨hroom1, hroom2⟩ := lastBlock_room hash.Size d hh
  have hlt := Nat.mod_lt d hh
  have hle : d - (blockCount hash.Size d - 1) * hash.Size ≤ hash.Size := by
    rw [hroom2]; split_ifs <;> omega
  by_cases hL : blockCount hash.Size d = 0
  · have hd0 : d = 0 := by
      by_contra hne
      have hpos : 0 < blockCount hash.Size d := by
        unfold blockCount
        exact Nat.div_pos (by omega) hh
      omega
    subst hd0
    simp [hL, specBlocks]
  · obtain ⟨k, hk⟩ : ∃ k, blockCount hash.Size d = k + 1 :=
      ⟨blockCount hash.Size d - 1, by omega⟩
    obtain ⟨j, hj⟩ : ∃ j, N = (k + 1) + j := ⟨N - (k + 1), by omega⟩
    rw [hk] at hroom1 hle ⊢
    simp only [Nat.add_sub_cancel] at hroom1 hle ⊢
    rw [hj, specBlocks_add, specBlocks_add hash P S c k 1]
    have hone : specBlocks hash P S c 1 (1 + k) = specF hash P S c (k + 1) := by
      simp [specBlocks, Nat.add_comm]
    rw [hone]
    have hlen : (specBlocks hash P S c k 1).length = k * hash.Size :=
      specBlocks_length _ _ _ _ _ _
    have hlenF : (specF hash P S c (k + 1)).length = hash.Size := specF_length _ _ _ _ _
    have hA : (specBlocks hash P S c k 1).take d = specBlocks hash P S c k 1 :=
      List.take_of_length_le (by rw [hlen]; exact hroom1)
    have e1 : d - (k * hash.Size + hash.Size) = 0 := by omega
    rw [List.take_append_eq_append_take, List.take_append_eq_append_take,
      List.length_append, hlen, hlenF, hA, e1, List.take_zero, List.append_nil]

/-- The block count grows with the key length. -/
theorem blockCount_mono (h n m : Nat) (hnm : n ≤ m) : blockCount h n ≤ blockCount h m := by
  unfold blockCount
  exact Nat.div_le_div_right (by omega)

/-- A key of `PBKDF1` for a shorter length is a prefix of the key for a longer one. -/
theorem PBKDF1_prefix (hash : Hash) (P S : Bytes) (c n m : Int) (km : Bytes)
    (h0 : 0 ≤ n) (hnm : n ≤ m) (hm : PBKDF1 hash P S c m = .ok km) :
    PBKDF1 hash P S c n = .ok (km.take n.toNat) := by
  rcases PBKDF1_cases hash P S c m with
    ⟨_, h1⟩ | ⟨_, h1⟩ | ⟨_, _, _, h1⟩ | ⟨ha, hb, hc, h1⟩
  · rw [h1] at hm; cases hm
  · rw [h1] at hm; cases hm
  · rw [h1] at hm; cases hm
  · rw [h1] at hm
    cases hm
    rw [PBKDF1_eq hash P S c n hc h0 (by omega), List.take_take,
      Nat.min_eq_left (by omega)]

/-- A key of `PBKDF2` for a shorter length is a prefix of the key for a longer one. -/
theorem PBKDF2_prefix (hash : Hash) (P S : Bytes) (c n m : Int) (km : Bytes)
    (h0 : 0 ≤ n) (hnm : n ≤ m) (hm : PBKDF2 hash P S c m = .ok km) :
    PBKDF2 hash P S c n = .ok (km.take n.toNat) := by
  rcases PBKDF2_cases hash P S c m with
    ⟨_, h1⟩ | ⟨_, h1⟩ | ⟨_, _, _, h1⟩ | ⟨_, _, _, h1⟩ | ⟨hh, ha, hb, hc, h1⟩
  · rw [h1] at hm; cases hm
  · rw [h1] at hm; cases hm
  · rw [h1] at hm; cases hm
  · rw [h1] at hm; cases hm
  · rw [h1] at hm
    cases hm
    have hmono := blockCount_mono hash.Size n.toNat m.toNat (by omega)
    rw [PBKDF2_value hash P S c n hh hc h0 (by omega),
      PBKDF2_key_eq_take hash P S c.toNat n.toNat (blockCount hash.Size m.toNat) hh hmono,
      PBKDF2_key_eq_take hash P S c.toNat m.toNat (blockCount hash.Size m.toNat) hh (le_refl _),
      List.take_take, Nat.min_eq_left (by omega)]

/-- Past its parameter checks `PBKDF2` returns a key. -/
theorem PBKDF2_ok_exists (hash : Hash) (P S : Bytes) (c dkLen : Int)
    (hh : 0 < hash.Size) (hc : 0 < c) (h0 : 0 ≤ dkLen)
    (h1 : dkLen ≤ (2 ^ 32 - 1) * (hash.Size : Int)) :
    ∃ key, PBKDF2 hash P S c dkLen = .ok key :=
  ⟨_, PBKDF2_value hash P S c dkLen hh hc h0 h1⟩

/-- For the key length zero `PBKDF1` returns the empty key. -/
theorem PBKDF1_zero (hash : Hash) (P S : Bytes) (c : Int) (hc : 0 < c) :
    PBKDF1 hash P S c 0 = .ok [] := by
  have hsz : (0 : Int) ≤ (hash.Size : Int) := by omega
  obtain ⟨key, hkey⟩ : ∃ key, PBKDF1 hash P S c 0 = .ok key :=
    ⟨_, PBKDF1_eq hash P S c 0 hc (le_refl _) hsz⟩
  have hl := PBKDF1_length hash P S c 0 key hkey
  have hnil : key = [] := List.length_eq_zero.mp (by exact_mod_cast hl)
  rw [hkey, hnil]

/-- For the key length zero `PBKDF2` with a hash of positive size returns the empty
key. -/
theorem PBKDF2_zero (hash : Hash) (P S : Bytes) (c : Int) (hh : 0 < hash.Size)
    (hc : 0 < c) : PBKDF2 hash P S c 0 = .ok [] := by
  have hmax : (0 : Int) ≤ (2 ^ 32 - 1) * (hash.Size : Int) := by omega
  obtain ⟨key, hkey⟩ := PBKDF2_ok_exists hash P S c 0 hh hc (le_refl _) hmax
  have hl := PBKDF2_length hash P S c 0 key hkey
  have hnil : key = [] := List.length_eq_zero.mp (by exact_mod_cast hl)
  rw [hkey, hnil]

/-- What `EncodePassword` returns when the random source delivers a salt and the key
derivation function returns a key. -/
theorem encode_of_ok (kdf : PBKDF) (rand : RandomSource) (hash : Hash) (password : Bytes)
    (saltLength c keyLength : Int) (salt key : Bytes)
    (hs : GenerateRandomSequence rand saltLength = .ok salt)
    (hk : kdf hash password salt c keyLength = .ok key) :
    EncodePassword rand hash password saltLength c keyLength kdf
      = .ok (GeneratePasswordString salt c key) := by
  unfold EncodePassword
  simp only [hs, hk]

theorem Heap_Write_top (heap : Heap) (ctx p : Bytes) :
    Heap.Write (heap ++ [ctx]) heap.length p = (heap ++ [ctx ++ p], (p.length : Int), false) := by
  simp [Heap.Write, HashCtx.Write]

theorem Heap_Sum_top (heap : Heap) (hash : Hash) (ctx b : Bytes) :
    Heap.Sum (heap ++ [ctx]) hash heap.length b = hash.Sum ctx b := by
  simp [Heap.Sum]

theorem Heap_Reset_top (heap : Heap) (ctx : Bytes) :
    Heap.Reset (heap ++ [ctx]) heap.length = heap ++ [[]] := by
  simp [Heap.Reset, HashCtx.Reset]

/-- The loop of `PBKDF1` over the heap does what the loop passing the context along
does, and touches no context but its own. -/
theorem stateful_pbkdf1Loop_sim (hash : Hash) (heap : Heap) (n : Nat) (T : Bytes)
    (ctx : HashCtx) :
    simulates heap (Stateful.pbkdf1Loop hash heap.length n T (heap ++ [ctx]))
      (pbkdf1Loop hash n T ctx) := by
  induction n generalizing T ctx with
  | zero => simp [Stateful.pbkdf1Loop, pbkdf1Loop, simulates]
  | succ n ih =>
    simp only [Stateful.pbkdf1Loop, pbkdf1Loop, Heap_Write_top, HashCtx.Write,
      Heap_Sum_top, Heap_Reset_top, HashCtx.Reset]
    simpa using ih (hash.Sum (ctx ++ T) []) []

/-- The rounds of `F` over the heap do what the rounds passing the context along do,
and touch no context but their own. -/
theorem stateful_pbkdf2Rounds_sim (hash : Hash) (P : Bytes) (heap : Heap) (n : Nat)
    (lastU result : Bytes) (ctx : HashCtx) :
    simulates heap (Stateful.pbkdf2Rounds hash P heap.length n lastU result (heap ++ [ctx]))
      (pbkdf2Rounds hash P n lastU result ctx) := by
  induction n generalizing lastU result ctx with
  | zero => simp [Stateful.pbkdf2Rounds, pbkdf2Rounds, simulates]
  | succ n ih =>
    simp only [Stateful.pbkdf2Rounds, pbkdf2Rounds, Heap_Write_top, HashCtx.Write,
      Heap_Sum_top, Heap_Reset_top, HashCtx.Reset]
    cases hx : xorInto result (hash.Sum (ctx ++ P ++ lastU) []) with
    | ok result1 => simpa using ih (hash.Sum (ctx ++ P ++ lastU) []) result1 []
    | error e => simp [simulates]
    | panic => simp [simulates]

/-- The closure `F` over the heap does what `F` passing the context along does. -/
theorem stateful_F_sim (hash : Hash) (P S : Bytes) (c hLen : Int) (heap : Heap) (i : Int)
    (ctx : HashCtx) :
    simulates heap (Stateful.F hash P S c hLen heap.length i (heap ++ [ctx]))
      (PBKDF2.F hash P S c hLen ctx i) := by
  unfold Stateful.F PBKDF2.F
  cases copyAt (makeBytes (S.length + 4)) 0 S with
  | ok lastU0 =>
    dsimp only
    cases ConvertUnsignedIntegerToByteSlice (toUint64 i) 4 false with
    | ok enc =>
      dsimp only
      cases copyAt lastU0 S.length enc with
      | ok lastU => exact stateful_pbkdf2Rounds_sim hash P heap c.toNat lastU _ ctx
      | error e => simp [simulates]
      | panic => simp [simulates]
    | error e => simp [simulates]
    | panic => simp [simulates]
  | error e => simp [simulates]
  | panic => simp [simulates]

/-- The block loop of `PBKDF2` over the heap does what the loop passing the context
along does, and touches no context but its own. -/
theorem stateful_pbkdf2Blocks_sim (hash : Hash) (P S : Bytes) (c hLen : Int) (heap : Heap)
    (n : Nat) (i : Int) (DK : Bytes) (currIndex : Int) (ctx : HashCtx) :
    match pbkdf2Blocks hash P S c hLen n i DK currIndex ctx with
    | .ok (DK1, idx, ctx1) =>
      Stateful.pbkdf2Blocks hash P S c hLen heap.length n i DK currIndex (heap ++ [ctx])
        = (.ok (DK1, idx), heap ++ [ctx1])
    | .error e => ∃ ctx1,
      Stateful.pbkdf2Blocks hash P S c hLen heap.length n i DK currIndex (heap ++ [ctx])
        = (.error e, heap ++ [ctx1])
    | .panic => ∃ ctx1,
      Stateful.pbkdf2Blocks hash P S c hLen heap.length n i DK currIndex (heap ++ [ctx])
        = (.panic, heap ++ [ctx1]) := by
  induction n generalizing i DK currIndex ctx with
  | zero => simp [Stateful.pbkdf2Blocks, pbkdf2Blocks]
  | succ n ih =>
    have hF := stateful_F_sim hash P S c hLen heap i ctx
    unfold Stateful.pbkdf2Blocks pbkdf2Blocks
    cases hp : PBKDF2.F hash P S c hLen ctx i with
    | ok v =>
      obtain ⟨f, ctx1⟩ := v
      rw [hp] at hF
      simp only [simulates] at hF
      simp only [hF]
      cases hcp : copyAt DK currIndex f with
      | ok DK1 => exact ih (i + 1) DK1 (currIndex + hLen) ctx1
      | error e => exact ⟨ctx1, rfl⟩
      | panic => exact ⟨ctx1, rfl⟩
    | error e =>
      rw [hp] at hF
      obtain ⟨ctx1, h1⟩ := hF
      simp only [h1]
      exact ⟨ctx1, rfl⟩
    | panic =>
      rw [hp] at hF
      obtain ⟨ctx1, h1⟩ := hF
      simp only [h1]
      exact ⟨ctx1, rfl⟩

/-- `PBKDF1` over the heap returns what `PBKDF1` returns, whatever the heap holds, and
leaves the heap as it was or with one more context behind it. -/
theorem stateful_PBKDF1_eq (hash : Hash) (P S : Bytes) (c dkLen : Int) (heap : Heap) :
    ∃ rest, Stateful.PBKDF1 hash P S c dkLen heap = (PBKDF1 hash P S c dkLen, heap ++ rest) := by
  unfold Stateful.PBKDF1 PBKDF1
  split_ifs
  · exact ⟨[], by simp⟩
  · exact ⟨[], by simp⟩
  · exact ⟨[], by simp⟩
  · cases copyAt (makeBytes (P.length + S.length)) 0 P with
    | ok T0 =>
      dsimp only
      cases copyAt T0 P.length S with
      | ok T1 =>
        have hL := stateful_pbkdf1Loop_sim hash heap c.toNat T1 hash.New
        dsimp only [Heap.New]
        cases hp : pbkdf1Loop hash c.toNat T1 hash.New with
        | ok v =>
          obtain ⟨T, ctx1⟩ := v
          rw [hp] at hL
          simp only [simulates] at hL
          rw [hL]
          exact ⟨[ctx1], rfl⟩
        | error e =>
          rw [hp] at hL
          obtain ⟨ctx1, h1⟩ := hL
          rw [h1]
          exact ⟨[ctx1], rfl⟩
        | panic =>
          rw [hp] at hL
          obtain ⟨ctx1, h1⟩ := hL
          rw [h1]
          exact ⟨[ctx1], rfl⟩
      | error e => exact ⟨[], by simp⟩
      | panic => exact ⟨[], by simp⟩
    | error e => exact ⟨[], by simp⟩
    | panic => exact ⟨[], by simp⟩

/-- `PBKDF2` over the heap returns what `PBKDF2` returns, whatever the heap holds, and
leaves the heap as it was or with one more context behind it. -/
theorem stateful_PBKDF2_eq (hash : Hash) (P S : Bytes) (c dkLen : Int) (heap : Heap) :
    ∃ rest, Stateful.PBKDF2 hash P S c dkLen heap = (PBKDF2 hash P S c dkLen, heap ++ rest) := by
  unfold Stateful.PBKDF2 PBKDF2
  dsimp only
  split_ifs with h1 h2 h3 h4 h5 h6
  · exact ⟨[], by simp⟩
  · exact ⟨[], by simp⟩
  · exact ⟨[], by simp⟩
  · exact ⟨[], by simp⟩
  · dsimp only [Heap.New]
    have hB := stateful_pbkdf2Blocks_sim hash P S c hash.Size heap
      (Int.tdiv dkLen hash.Size + 1 - 1).toNat 1 (makeBytes dkLen.toNat) 0 hash.New
    cases hp : pbkdf2Blocks hash P S c hash.Size (Int.tdiv dkLen hash.Size + 1 - 1).toNat 1
        (makeBytes dkLen.toNat) 0 hash.New with
    | ok v =>
      obtain ⟨DK, idx, ctx1⟩ := v
      rw [hp] at hB
      dsimp only at hB
      rw [hB]
      dsimp only
      have hF := stateful_F_sim hash P S c hash.Size heap (Int.tdiv dkLen hash.Size + 1) ctx1
      cases hq : PBKDF2.F hash P S c hash.Size ctx1 (Int.tdiv dkLen hash.Size + 1) with
      | ok w =>
        obtain ⟨f, ctx2⟩ := w
        rw [hq] at hF
        simp only [simulates] at hF
        rw [hF]
        dsimp only
        cases sliceTo f (Int.tmod dkLen hash.Size) <;> exact ⟨[ctx2], rfl⟩
      | error e =>
        rw [hq] at hF
        obtain ⟨ctx2, h⟩ := hF
        rw [h]
        exact ⟨[ctx2], rfl⟩
      | panic =>
        rw [hq] at hF
        obtain ⟨ctx2, h⟩ := hF
        rw [h]
        exact ⟨[ctx2], rfl⟩
    | error e =>
      rw [hp] at hB
      obtain ⟨ctx1, h⟩ := hB
      rw [h]
      exact ⟨[ctx1], rfl⟩
    | panic =>
      rw [hp] at hB
      obtain ⟨ctx1, h⟩ := hB
      rw [h]
      exact ⟨[ctx1], rfl⟩
  · dsimp only [Heap.New]
    have hB := stateful_pbkdf2Blocks_sim hash P S c hash.Size heap
      (Int.tdiv dkLen hash.Size - 1).toNat 1 (makeBytes dkLen.toNat) 0 hash.New
    cases hp : pbkdf2Blocks hash P S c hash.Size (Int.tdiv dkLen hash.Size - 1).toNat 1
        (makeBytes dkLen.toNat) 0 hash.New with
    | ok v =>
      obtain ⟨DK, idx, ctx1⟩ := v
      rw [hp] at hB
      dsimp only at hB
      rw [hB]
      dsimp only
      have hF := stateful_F_sim hash P S c hash.Size heap (Int.tdiv dkLen hash.Size) ctx1
      cases hq : PBKDF2.F hash P S c hash.Size ctx1 (Int.tdiv dkLen hash.Size) with
      | ok w =>
        obtain ⟨f, ctx2⟩ := w
        rw [hq] at hF
        simp only [simulates] at hF
        rw [hF]
        exact ⟨[ctx2], rfl⟩
      | error e =>
        rw [hq] at hF
        obtain ⟨ctx2, h⟩ := hF
        rw [h]
        exact ⟨[ctx2], rfl⟩
      | panic =>
        rw [hq] at hF
        obtain ⟨ctx2, h⟩ := hF
        rw [h]
        exact ⟨[ctx2], rfl⟩
    | error e =>
      rw [hp] at hB
      obtain ⟨ctx1, h⟩ := hB
      rw [h]
      exact ⟨[ctx1], rfl⟩
    | panic =>
      rw [hp] at hB
      obtain ⟨ctx1, h⟩ := hB
      rw [h]
      exact ⟨[ctx1], rfl⟩
  · exact absurd (not_not.mp h5) h6

/-! ## The claims -/

/-- C1. Encode-then-verify round trip: for each engine `E` of `PBKDF1` and `PBKDF2`,
every hash, password, random source, salt length, 64-bit iteration count and key
length, if `EncodePassword` returns a record `r` without error then `VerifyPassword`
with the same hash, password and engine returns `true` without error. -/
theorem encode_verify_round_trip (rand : RandomSource) (hash : Hash) (password : Bytes)
    (saltLength iterationCount keyLength : Int) (E : PBKDF) (r : Bytes)
    (hE : E = PBKDF1 ∨ E = PBKDF2) (hc : isInt64 iterationCount)
    (henc : EncodePassword rand hash password saltLength iterationCount keyLength E = .ok r) :
    VerifyPassword hash password r E = .ok true := by
  obtain ⟨salt, key, _, hk, hr⟩ :=
    encode_ok_inv rand hash password saltLength iterationCount keyLength E r henc
  have hlen : (key.length : Int) = keyLength := by
    rcases hE with hE | hE
    · rw [hE] at hk; exact PBKDF1_length hash password salt iterationCount keyLength key hk
    · rw [hE] at hk; exact PBKDF2_length hash password salt iterationCount keyLength key hk
  have hp := parse_generate salt iterationCount key hc
  rw [← hr] at hp
  rw [← hlen] at hk
  rw [verify_verdict E hash password r salt key key iterationCount hp hk]
  simp

/-- Witness of C1: PBKDF2 with the example hash, the password `hunter2`, five salt
bytes, three iterations and a key of five bytes. -/
theorem encode_verify_round_trip_witness :
    EncodePassword toyRand toyHash (ascii "hunter2") 5 3 5 PBKDF2
        = .ok (ascii "AQIDBAU=:3:ECIQIxA=") ∧
      VerifyPassword toyHash (ascii "hunter2") (ascii "AQIDBAU=:3:ECIQIxA=") PBKDF2
        = .ok true :=
  ⟨by decide,
    encode_verify_round_trip toyRand toyHash (ascii "hunter2") 5 3 5 PBKDF2
      (ascii "AQIDBAU=:3:ECIQIxA=") (Or.inr rfl) ⟨by decide, by decide⟩ (by decide)⟩

/-- C2. Record codec round trip: for every salt, every 64-bit signed iteration count
and every key, `GetPasswordParametersFromString` applied to
`GeneratePasswordString(salt, iterationCount, key)` succeeds and returns exactly
`(salt, iterationCount, key)`. -/
theorem record_codec_round_trip (salt : Bytes) (iterationCount : Int) (key : Bytes)
    (hc : isInt64 iterationCount) :
    GetPasswordParametersFromString (GeneratePasswordString salt iterationCount key)
      = .ok (salt, iterationCount, key) :=
  parse_generate salt iterationCount key hc

/-- Witness of C2: a salt of five bytes, the iteration count `-7`, a key of two
bytes. -/
theorem record_codec_round_trip_witness :
    isInt64 (-7) ∧
      GetPasswordParametersFromString (GeneratePasswordString [1, 2, 3, 4, 5] (-7) [9, 8])
        = .ok ([1, 2, 3, 4, 5], -7, [9, 8]) :=
  ⟨⟨by decide, by decide⟩,
    record_codec_round_trip [1, 2, 3, 4, 5] (-7) [9, 8] ⟨by decide, by decide⟩⟩

/-- C3, as the specification states it, fails: with the example hash, `P = 01 02 03`,
`S = 04 05`, `c = 1` and `dkLen = 2` the parameters are valid and `PBKDF1` returns
`05 4a`, the first two bytes of `T_0 = Hash(P ‖ S)`, not those of `T_1 = Hash(T_0)`,
which are `02 c5`. -/
theorem pbkdf1_chain_counterexample :
    (0 : Int) < 1 ∧ (0 : Int) ≤ 2 ∧ (2 : Int) ≤ toyHash.Size ∧
      PBKDF1 toyHash [1, 2, 3] [4, 5] 1 2 = .ok [5, 74] ∧
      (specT toyHash [1, 2, 3] [4, 5] 1).take 2 = [2, 197] ∧
      PBKDF1 toyHash [1, 2, 3] [4, 5] 1 2
        ≠ .ok ((specT toyHash [1, 2, 3] [4, 5] (Int.toNat 1)).take (Int.toNat 2)) := by
  decide

/-- C3, amended. For every hash, password `P`, salt `S`, `c > 0` and
`0 ≤ dkLen ≤ hLen`, `PBKDF1(H, P, S, c, dkLen)` returns the first `dkLen` bytes of
`T_(c-1)`, where `T_0 = Hash(P ‖ S)` and `T_i = Hash(T_(i-1))`: the hash is applied
`c` times in all, the first time to `P ‖ S`. -/
theorem pbkdf1_chain (hash : Hash) (P S : Bytes) (c dkLen : Int)
    (hc : 0 < c) (h0 : 0 ≤ dkLen) (h1 : dkLen ≤ hash.Size) :
    PBKDF1 hash P S c dkLen = .ok ((specT hash P S (c.toNat - 1)).take dkLen.toNat) := by
  rw [PBKDF1_eq hash P S c dkLen hc h0 h1, specT_eq_iterate]
  have : c.toNat - 1 + 1 = c.toNat := by omega
  rw [this]

/-- Witness of the amended C3: three iterations of the example hash, two key bytes. -/
theorem pbkdf1_chain_witness :
    PBKDF1 toyHash [1, 2, 3] [4, 5] 3 2
      = .ok ((specT toyHash [1, 2, 3] [4, 5] (Int.toNat 3 - 1)).take (Int.toNat 2)) :=
  pbkdf1_chain toyHash [1, 2, 3] [4, 5] 3 2 (by decide) (by decide) (by decide)

/-- C4. `PBKDF2` equals its reference definition: for every hash with `hLen > 0`,
password `P`, salt `S`, `c ≥ 1` and `1 ≤ dkLen ≤ (2^32 - 1) * hLen`, the call returns
`F(1) ‖ ... ‖ F(l-1)` followed by the first `r` bytes of `F(l)` (all of `F(l)` when
`r = 0`), with `l`, `r`, `F`, `U_j` and `enc4` as in section 4.2; and the shared hash
context carries nothing over: on a fresh context the closure `F` returns the block
`F(i)` and hands back a fresh context. -/
theorem pbkdf2_reference (hash : Hash) (P S : Bytes) (c dkLen : Int)
    (hh : 0 < hash.Size) (hc : 1 ≤ c) (h0 : 1 ≤ dkLen)
    (h1 : dkLen ≤ (2 ^ 32 - 1) * (hash.Size : Int)) :
    PBKDF2 hash P S c dkLen = .ok (specPBKDF2 hash P S c.toNat dkLen.toNat) ∧
      ∀ i : Int, PBKDF2.F hash P S c hash.Size hash.New i
        = .ok (specF hash P S c.toNat (toUint64 i), hash.New) := by
  constructor
  · rw [PBKDF2_value hash P S c dkLen hh (by omega) (by omega) h1]
    obtain ⟨_, hr2⟩ := lastBlock_room hash.Size dkLen.toNat hh
    have hd : dkLen.toNat ≠ 0 := by omega
    unfold specPBKDF2
    simp only
    rw [hr2]
    by_cases hz : dkLen.toNat % hash.Size = 0
    · rw [if_pos hz, if_pos hz, if_neg hd,
        List.take_of_length_le (by rw [specF_length])]
    · rw [if_neg hz, if_neg hz]
  · intro i
    exact F_eq hash P S c i (by omega)

/-- Witness of C4: the example hash, three iterations, a key of five bytes (two full
blocks and one byte of the third). -/
theorem pbkdf2_reference_witness :
    PBKDF2 toyHash [1, 2, 3] [4, 5] 3 5 = .ok [9, 175, 9, 176, 9] ∧
      specPBKDF2 toyHash [1, 2, 3] [4, 5] 3 5 = [9, 175, 9, 176, 9] :=
  ⟨by decide,
    Outcome.ok.inj (((pbkdf2_reference toyHash [1, 2, 3] [4, 5] 3 5 (by decide) (by decide)
      (by decide) (by decide)).1.symm).trans (by decide))⟩

/-- C5. Output length: whenever `PBKDF1` or `PBKDF2` returns without error, the
returned key has exactly `dkLen` bytes. -/
theorem derived_key_length (E : PBKDF) (hash : Hash) (P S : Bytes) (c dkLen : Int)
    (key : Bytes) (hE : E = PBKDF1 ∨ E = PBKDF2) (h : E hash P S c dkLen = .ok key) :
    (key.length : Int) = dkLen := by
  rcases hE with hE | hE
  · rw [hE] at h; exact PBKDF1_length hash P S c dkLen key h
  · rw [hE] at h; exact PBKDF2_length hash P S c dkLen key h

/-- Witness of C5: `PBKDF2` with a hash of twenty bytes returns forty bytes for
`dkLen = 40` (`r = 0`) and forty-five bytes for `dkLen = 45` (`r = 5`). -/
theorem derived_key_length_witness :
    (∃ key, PBKDF2 toyHash20 [1] [2] 1 40 = .ok key ∧ (key.length : Int) = 40) ∧
      (∃ key, PBKDF2 toyHash20 [1] [2] 1 45 = .ok key ∧ (key.length : Int) = 45) :=
  have h40 : PBKDF2 toyHash20 [1] [2] 1 40
      = .ok [72, 79, 86, 93, 100, 107, 114, 121, 128, 135, 142, 149, 156, 163, 170, 177,
        184, 191, 198, 205, 73, 80, 87, 94, 101, 108, 115, 122, 129, 136, 143, 150, 157,
        164, 171, 178, 185, 192, 199, 206] := by decide
  have h45 : PBKDF2 toyHash20 [1] [2] 1 45
      = .ok [72, 79, 86, 93, 100, 107, 114, 121, 128, 135, 142, 149, 156, 163, 170, 177,
        184, 191, 198, 205, 73, 80, 87, 94, 101, 108, 115, 122, 129, 136, 143, 150, 157,
        164, 171, 178, 185, 192, 199, 206, 74, 81, 88, 95, 102] := by decide
  ⟨⟨_, h40, derived_key_length PBKDF2 toyHash20 [1] [2] 1 40 _ (Or.inr rfl) h40⟩,
    ⟨_, h45, derived_key_length PBKDF2 toyHash20 [1] [2] 1 45 _ (Or.inr rfl) h45⟩⟩

/-- C6. `PBKDF1` fails exactly on bad parameters: it returns an error if and only if
`dkLen > hLen` or `dkLen < 0` or `c ≤ 0`, and returns a key otherwise; it fails with
the key-too-long error whenever `dkLen > hLen`, and succeeds when `dkLen = hLen` and
`c > 0`. -/
theorem pbkdf1_errors (hash : Hash) (P S : Bytes) (c dkLen : Int) :
    ((PBKDF1 hash P S c dkLen).isError = true ↔
        ((hash.Size : Int) < dkLen ∨ dkLen < 0 ∨ c ≤ 0)) ∧
      ((PBKDF1 hash P S c dkLen).isError = false → (PBKDF1 hash P S c dkLen).isOk = true) ∧
      ((hash.Size : Int) < dkLen → PBKDF1 hash P S c dkLen = .error .pbkdf1KeyTooLong) ∧
      (dkLen = hash.Size → 0 < c →
        ∃ key, PBKDF1 hash P S c dkLen = .ok key ∧ key.length = hash.Size) := by
  refine ⟨PBKDF1_isError_iff hash P S c dkLen, ?_, ?_, ?_⟩
  · rcases PBKDF1_cases hash P S c dkLen with
      ⟨_, h1⟩ | ⟨_, h1⟩ | ⟨_, _, _, h1⟩ | ⟨_, _, _, h1⟩ <;> rw [h1] <;>
      simp [Outcome.isError, Outcome.isOk]
  · intro h
    unfold PBKDF1
    rw [if_pos h]
  · intro hd hc
    have h := PBKDF1_eq hash P S c dkLen hc (by omega) (by omega)
    refine ⟨_, h, ?_⟩
    have := PBKDF1_length hash P S c dkLen _ h
    omega

/-- Witness of C6: with the example hash (two bytes) a key of three bytes is refused
as too long, a key of two bytes is derived. -/
theorem pbkdf1_errors_witness :
    PBKDF1 toyHash [1] [2] 1 3 = .error .pbkdf1KeyTooLong ∧
      ∃ key, PBKDF1 toyHash [1] [2] 1 2 = .ok key ∧ key.length = toyHash.Size :=
  ⟨(pbkdf1_errors toyHash [1] [2] 1 3).2.2.1 (by decide),
    (pbkdf1_errors toyHash [1] [2] 1 2).2.2.2 rfl (by decide)⟩

/-- C7. `PBKDF2` fails exactly on bad parameters: for a hash with `hLen > 0` it
returns an error if and only if `dkLen > (2^32 - 1) * hLen` or `dkLen < 0` or `c ≤ 0`,
and returns a key otherwise; it fails with the key-too-long error whenever
`dkLen > (2^32 - 1) * hLen`, and accepts `dkLen = (2^32 - 1) * hLen`. -/
theorem pbkdf2_errors (hash : Hash) (P S : Bytes) (c dkLen : Int) (hh : 0 < hash.Size) :
    ((PBKDF2 hash P S c dkLen).isError = true ↔
        ((2 ^ 32 - 1) * (hash.Size : Int) < dkLen ∨ dkLen < 0 ∨ c ≤ 0)) ∧
      ((PBKDF2 hash P S c dkLen).isError = false → (PBKDF2 hash P S c dkLen).isOk = true) ∧
      ((2 ^ 32 - 1) * (hash.Size : Int) < dkLen →
        PBKDF2 hash P S c dkLen = .error .pbkdf2KeyTooLong) ∧
      (dkLen = (2 ^ 32 - 1) * (hash.Size : Int) → 0 < c →
        ∃ key, PBKDF2 hash P S c dkLen = .ok key ∧ (key.length : Int) = dkLen) := by
  refine ⟨PBKDF2_isError_iff hash P S c dkLen, ?_, ?_, ?_⟩
  · rcases PBKDF2_cases hash P S c dkLen with
      ⟨_, h1⟩ | ⟨_, h1⟩ | ⟨_, _, _, h1⟩ | ⟨hz, _, _, _⟩ | ⟨_, _, _, _, h1⟩
    · rw [h1]; simp [Outcome.isError, Outcome.isOk]
    · rw [h1]; simp [Outcome.isError, Outcome.isOk]
    · rw [h1]; simp [Outcome.isError, Outcome.isOk]
    · omega
    · rw [h1]; simp [Outcome.isError, Outcome.isOk]
  · intro h
    rcases PBKDF2_cases hash P S c dkLen with
      ⟨_, h1⟩ | ⟨_, _⟩ | ⟨_, _, _, _⟩ | ⟨hz, _, _, _⟩ | ⟨_, _, _, _, _⟩
    · exact h1
    all_goals omega
  · intro hd hc
    have h := PBKDF2_value hash P S c dkLen hh hc (by omega) (by omega)
    exact ⟨_, h, PBKDF2_length hash P S c dkLen _ h⟩

/-- Witness of C7: the example hash has `hLen = 2 > 0`; a key of `(2^32 - 1) * 2 + 1`
bytes is refused as too long, and a key of `(2^32 - 1) * 2` bytes is accepted. -/
theorem pbkdf2_errors_witness :
    PBKDF2 toyHash [1] [2] 1 8589934591 = .error .pbkdf2KeyTooLong ∧
      ∃ key, PBKDF2 toyHash [1] [2] 1 8589934590 = .ok key ∧
        (key.length : Int) = 8589934590 :=
  ⟨(pbkdf2_errors toyHash [1] [2] 1 8589934591 (by decide)).2.2.1 (by decide),
    (pbkdf2_errors toyHash [1] [2] 1 8589934590 (by decide)).2.2.2 (by decide) (by decide)⟩

/-- C8. The verdict of `VerifyPassword`: for every record that parses to
`(salt, c, storedKey)` and for which the engine accepts `(salt, c, len(storedKey))`,
the call returns `(b, nil)` where `b` is true if and only if the key the engine
derives from the password is byte for byte the stored key. -/
theorem verify_verdict_iff (engine : PBKDF) (hash : Hash)
    (password record salt storedKey derived : Bytes) (c : Int)
    (hp : GetPasswordParametersFromString record = .ok (salt, c, storedKey))
    (hk : engine hash password salt c storedKey.length = .ok derived) :
    ∃ b, VerifyPassword hash password record engine = .ok b ∧
      (b = true ↔ derived = storedKey) :=
  ⟨decide (derived = storedKey),
    verify_verdict engine hash password record salt storedKey derived c hp hk, by simp⟩

/-- Witness of C8: the record of the password `hunter2` under `PBKDF2`; the password
`hunter3` derives another key and the verdict is `false`. -/
theorem verify_verdict_iff_witness :
    GetPasswordParametersFromString (ascii "AQIDBAU=:3:ECIQIxA=")
        = .ok ([1, 2, 3, 4, 5], 3, [16, 34, 16, 35, 16]) ∧
      PBKDF2 toyHash (ascii "hunter3") [1, 2, 3, 4, 5] 3 5 = .ok [16, 134, 16, 131, 16] ∧
      ∃ b, VerifyPassword toyHash (ascii "hunter3") (ascii "AQIDBAU=:3:ECIQIxA=") PBKDF2
          = .ok b ∧
        (b = true ↔ ([16, 134, 16, 131, 16] : Bytes) = [16, 34, 16, 35, 16]) :=
  ⟨by decide, by decide,
    verify_verdict_iff PBKDF2 toyHash (ascii "hunter3") (ascii "AQIDBAU=:3:ECIQIxA=")
      [1, 2, 3, 4, 5] [16, 34, 16, 35, 16] [16, 134, 16, 131, 16] 3 (by decide) (by decide)⟩

/-- C9, as the specification states it, fails in its last clause: with the example
hash of twenty bytes, `EncodePassword` produces for the password `Aa` with `PBKDF2`,
two iterations and a key of twenty bytes the record
`AQIDBA==:2:kXdxk5GPsbORl/HzkZ+Rs7GXkXM=`; `BB` is another password, and
`VerifyPassword` answers it `(true, nil)`, not `(false, nil)`. -/
theorem verify_wrong_password_counterexample :
    EncodePassword toyRand toyHash20 (ascii "Aa") 4 2 20 PBKDF2
        = .ok (ascii "AQIDBA==:2:kXdxk5GPsbORl/HzkZ+Rs7GXkXM=") ∧
      ascii "BB" ≠ ascii "Aa" ∧
      VerifyPassword toyHash20 (ascii "BB") (ascii "AQIDBA==:2:kXdxk5GPsbORl/HzkZ+Rs7GXkXM=")
          PBKDF2 = .ok true ∧
      VerifyPassword toyHash20 (ascii "BB") (ascii "AQIDBA==:2:kXdxk5GPsbORl/HzkZ+Rs7GXkXM=")
          PBKDF2 ≠ .ok false := by
  decide

/-- C9, amended in its last clause. `VerifyPassword` returns an error only for
structural failures: for each of the two engines it returns an error if and only if
the record fails to parse or the stored parameters are rejected (stored iteration
count not positive, or stored key longer than the engine's limit, `hLen` for `PBKDF1`
and `(2^32 - 1) * hLen` for `PBKDF2`); whether an error is returned is therefore the
same for every password; and when the record parses and the engine accepts the stored
parameters, every password, a wrong one included, is answered without an error: the
answer is `(false, nil)` if and only if the key derived from that password differs
from the stored key, and `(true, nil)` if and only if the two keys are equal. -/
theorem verify_errors_structural (hash : Hash) (password record : Bytes) :
    ((VerifyPassword hash password record PBKDF1).isError = true ↔
        (GetPasswordParametersFromString record).isError = true ∨
        ∃ salt c key, GetPasswordParametersFromString record = .ok (salt, c, key) ∧
          (c ≤ 0 ∨ (hash.Size : Int) < key.length)) ∧
      ((VerifyPassword hash password record PBKDF2).isError = true ↔
        (GetPasswordParametersFromString record).isError = true ∨
        ∃ salt c key, GetPasswordParametersFromString record = .ok (salt, c, key) ∧
          (c ≤ 0 ∨ (2 ^ 32 - 1) * (hash.Size : Int) < key.length)) ∧
      (∀ password2 : Bytes,
        (VerifyPassword hash password2 record PBKDF1).isError
            = (VerifyPassword hash password record PBKDF1).isError ∧
          (VerifyPassword hash password2 record PBKDF2).isError
            = (VerifyPassword hash password record PBKDF2).isError) ∧
      (∀ (E : PBKDF) (salt key derived : Bytes) (c : Int), E = PBKDF1 ∨ E = PBKDF2 →
        GetPasswordParametersFromString record = .ok (salt, c, key) →
        E hash password salt c key.length = .ok derived →
        ∀ password2 : Bytes, ∃ derived2 b,
          E hash password2 salt c key.length = .ok derived2 ∧
          VerifyPassword hash password2 record E = .ok b ∧
          (b = false ↔ derived2 ≠ key) ∧ (b = true ↔ derived2 = key)) := by
  have h1 : ∀ pw : Bytes, (VerifyPassword hash pw record PBKDF1).isError = true ↔
      (GetPasswordParametersFromString record).isError = true ∨
      ∃ salt c key, GetPasswordParametersFromString record = .ok (salt, c, key) ∧
        (c ≤ 0 ∨ (hash.Size : Int) < key.length) := by
    intro pw
    rw [verify_isError_iff]
    constructor
    · rintro (h | ⟨salt, c, key, hp, hk⟩)
      · exact Or.inl h
      · refine Or.inr ⟨salt, c, key, hp, ?_⟩
        have := (PBKDF1_isError_iff hash pw salt c key.length).mp hk
        omega
    · rintro (h | ⟨salt, c, key, hp, hk⟩)
      · exact Or.inl h
      · refine Or.inr ⟨salt, c, key, hp, ?_⟩
        apply (PBKDF1_isError_iff hash pw salt c key.length).mpr
        omega
  have h2 : ∀ pw : Bytes, (VerifyPassword hash pw record PBKDF2).isError = true ↔
      (GetPasswordParametersFromString record).isError = true ∨
      ∃ salt c key, GetPasswordParametersFromString record = .ok (salt, c, key) ∧
        (c ≤ 0 ∨ (2 ^ 32 - 1) * (hash.Size : Int) < key.length) := by
    intro pw
    rw [verify_isError_iff]
    constructor
    · rintro (h | ⟨salt, c, key, hp, hk⟩)
      · exact Or.inl h
      · refine Or.inr ⟨salt, c, key, hp, ?_⟩
        have := (PBKDF2_isError_iff hash pw salt c key.length).mp hk
        omega
    · rintro (h | ⟨salt, c, key, hp, hk⟩)
      · exact Or.inl h
      · refine Or.inr ⟨salt, c, key, hp, ?_⟩
        apply (PBKDF2_isError_iff hash pw salt c key.length).mpr
        omega
  refine ⟨h1 password, h2 password, ?_, ?_⟩
  · intro password2
    constructor
    · exact Bool.eq_iff_iff.mpr ((h1 password2).trans (h1 password).symm)
    · exact Bool.eq_iff_iff.mpr ((h2 password2).trans (h2 password).symm)
  · intro E salt key derived c hE hp hk password2
    obtain ⟨derived2, hk2⟩ :
        ∃ derived2, E hash password2 salt c key.length = .ok derived2 := by
      rcases hE with hE | hE
      · rw [hE] at hk ⊢
        exact PBKDF1_ok_of_ok hash password password2 salt c key.length derived hk
      · rw [hE] at hk ⊢
        exact PBKDF2_ok_of_ok hash password password2 salt c key.length derived hk
    refine ⟨derived2, decide (derived2 = key), hk2,
      verify_verdict E hash password2 record salt key derived2 c hp hk2, ?_, ?_⟩ <;> simp

/-- Witness of the amended C9: the record of `hunter2` under `PBKDF2` parses and the
engine accepts its parameters; the password `hunter3` derives the key `10 86 10 83 10`,
which differs from the stored key, and is answered `(false, nil)`. -/
theorem verify_errors_structural_witness :
    (PBKDF2 toyHash (ascii "hunter3") [1, 2, 3, 4, 5] 3 5 = .ok [16, 134, 16, 131, 16] ∧
        VerifyPassword toyHash (ascii "hunter3") (ascii "AQIDBAU=:3:ECIQIxA=") PBKDF2
          = .ok false) ∧
      ∃ derived2 b,
        PBKDF2 toyHash (ascii "hunter3") [1, 2, 3, 4, 5] 3
            ([16, 34, 16, 35, 16] : Bytes).length = .ok derived2 ∧
        VerifyPassword toyHash (ascii "hunter3") (ascii "AQIDBAU=:3:ECIQIxA=") PBKDF2
          = .ok b ∧
        (b = false ↔ derived2 ≠ [16, 34, 16, 35, 16]) ∧
        (b = true ↔ derived2 = [16, 34, 16, 35, 16]) :=
  ⟨by decide,
    (verify_errors_structural toyHash (ascii "hunter2") (ascii "AQIDBAU=:3:ECIQIxA=")).2.2.2
      PBKDF2 [1, 2, 3, 4, 5] [16, 34, 16, 35, 16] [16, 34, 16, 35, 16] 3 (Or.inr rfl)
      (by decide) (by decide) (ascii "hunter3")⟩

/-- What `GenerateRandomSequence` returns for a length that is not negative: the
random source's error, a short-read error, or the first `length` bytes delivered. -/
theorem GenerateRandomSequence_eq (rand : RandomSource) (length : Int) (h0 : 0 ≤ length) :
    GenerateRandomSequence rand length =
      if (rand length.toNat).err then .error .randomRead
      else if (rand length.toNat).data.length < length.toNat then .error .randomShortRead
      else .ok ((rand length.toNat).data.take length.toNat) := by
  unfold GenerateRandomSequence
  rw [if_neg (by omega)]
  have hc := copyAt_tail [] (rand length.toNat).data length.toNat 0 (by simp)
  simp only [List.nil_append] at hc
  simp only [hc]
  by_cases he : (rand length.toNat).err = true
  · simp [he]
  · simp only [he, Bool.false_eq_true, if_false]
    by_cases hl : (rand length.toNat).data.length < length.toNat
    · rw [if_pos hl, if_pos]
      omega
    · rw [if_neg hl, if_neg]
      · congr 1
        have : length.toNat - (rand length.toNat).data.length = 0 := by omega
        rw [this]
        simp [makeBytes]
      · omega

/-- C10. `EncodePassword` is the composition the specification describes: it returns
an error if the random source fails (a read error or too few bytes) and if the engine
fails on the salt delivered, its error wrapping the engine's own error from that one
call; otherwise it returns exactly
`GeneratePasswordString(salt, iterationCount, engine(hash, bytes(password), salt,
iterationCount, keyLength))`, where the salt is the first `saltLength` bytes the
random source delivers. -/
theorem encode_composition (rand : RandomSource) (hash : Hash) (password : Bytes)
    (saltLength iterationCount keyLength : Int) (engine : PBKDF) (h0 : 0 ≤ saltLength) :
    (((rand saltLength.toNat).err = true ∨
        (rand saltLength.toNat).data.length < saltLength.toNat) →
      (EncodePassword rand hash password saltLength iterationCount keyLength engine).isError
        = true) ∧
    ((rand saltLength.toNat).err = false →
      saltLength.toNat ≤ (rand saltLength.toNat).data.length →
      (∀ e, engine hash password ((rand saltLength.toNat).data.take saltLength.toNat)
            iterationCount keyLength = .error e →
        EncodePassword rand hash password saltLength iterationCount keyLength engine
          = .error (.encodeKdf e)) ∧
      (∀ key, engine hash password ((rand saltLength.toNat).data.take saltLength.toNat)
            iterationCount keyLength = .ok key →
        EncodePassword rand hash password saltLength iterationCount keyLength engine
          = .ok (GeneratePasswordString
              ((rand saltLength.toNat).data.take saltLength.toNat) iterationCount key))) := by
  have hg := GenerateRandomSequence_eq rand saltLength h0
  constructor
  · intro h
    unfold EncodePassword
    rw [hg]
    by_cases he : (rand saltLength.toNat).err = true
    · simp [he, Outcome.isError]
    · have hl : (rand saltLength.toNat).data.length < saltLength.toNat := by
        rcases h with h | h
        · exact absurd h he
        · exact h
      simp [he, hl, Outcome.isError]
  · intro he hl
    have hs : GenerateRandomSequence rand saltLength
        = .ok ((rand saltLength.toNat).data.take saltLength.toNat) := by
      rw [hg, he, if_neg (by simp), if_neg (by omega)]
    constructor
    · intro e hk
      unfold EncodePassword
      simp only [hs, hk]
    · intro key hk
      unfold EncodePassword
      simp only [hs, hk]

/-- Witness of C10: the example random source delivers `01 02 03 04 05`, and the
record is generated from this salt and the key `PBKDF2` derives with it. -/
theorem encode_composition_witness :
    EncodePassword toyRand toyHash (ascii "hunter2") 5 3 5 PBKDF2
      = .ok (GeneratePasswordString [1, 2, 3, 4, 5] 3 [16, 34, 16, 35, 16]) :=
  (encode_composition toyRand toyHash (ascii "hunter2") 5 3 5 PBKDF2 (by decide)).2
    (by decide) (by decide) |>.2 [16, 34, 16, 35, 16] (by decide)

/-- C11. Serialized record shape: `GeneratePasswordString(salt, iterationCount, key)`
is `base64(salt) + ":" + decimal(iterationCount) + ":" + base64(key)`, where both
base64 texts are valid padded standard base64 of `4 * ceil(n / 3)` characters and the
middle field is the decimal text of the iteration count; the record has exactly two
colons, its colon-separated fields are exactly these three (nothing follows the third
field: a trailing delimiter would add a fourth), and it contains no `\r` or `\n`. -/
theorem record_shape (salt : Bytes) (iterationCount : Int) (key : Bytes) :
    GeneratePasswordString salt iterationCount key
        = base64Encode salt ++ [colon] ++ formatInt iterationCount ++ [colon]
            ++ base64Encode key ∧
      validBase64 (base64Encode salt) = true ∧ validBase64 (base64Encode key) = true ∧
      (base64Encode salt).length = 4 * ((salt.length + 2) / 3) ∧
      (base64Encode key).length = 4 * ((key.length + 2) / 3) ∧
      isDecimalText (formatInt iterationCount) = true ∧
      decimalValue (formatInt iterationCount) = iterationCount ∧
      (GeneratePasswordString salt iterationCount key).count colon = 2 ∧
      Split (GeneratePasswordString salt iterationCount key) colon
        = [base64Encode salt, formatInt iterationCount, base64Encode key] ∧
      ∀ ch ∈ GeneratePasswordString salt iterationCount key, isNewline ch = false := by
  refine ⟨?_, validBase64_encode salt, validBase64_encode key, base64Encode_length salt,
    base64Encode_length key, (formatInt_decimal iterationCount).1,
    (formatInt_decimal iterationCount).2,
    count_colon_GeneratePasswordString salt iterationCount key,
    Split_GeneratePasswordString salt iterationCount key, ?_⟩
  · simp [GeneratePasswordString]
  · intro ch hch
    unfold GeneratePasswordString at hch
    simp only [List.mem_append, List.mem_cons] at hch
    rcases hch with (h | h | h) | h | h
    · exact base64Encode_no_newline salt ch h
    · rw [h]; rfl
    · exact formatInt_no_newline iterationCount ch h
    · rw [h]; rfl
    · exact base64Encode_no_newline key ch h

/-- Witness of C11: the record of the salt `01 02 03 04 05`, the iteration count `3`
and the key `10 22 10 23 10`. -/
theorem record_shape_witness :
    GeneratePasswordString [1, 2, 3, 4, 5] 3 [16, 34, 16, 35, 16]
        = ascii "AQIDBAU=:3:ECIQIxA=" ∧
      Split (GeneratePasswordString [1, 2, 3, 4, 5] 3 [16, 34, 16, 35, 16]) colon
        = [base64Encode [1, 2, 3, 4, 5], formatInt 3, base64Encode [16, 34, 16, 35, 16]] :=
  ⟨by decide, (record_shape [1, 2, 3, 4, 5] 3 [16, 34, 16, 35, 16]).2.2.2.2.2.2.2.2.1⟩

/-- C12. Field-count rejection: for every string whose number of colon-separated
fields is not exactly three, `GetPasswordParametersFromString` returns an error, and
`VerifyPassword` on that string returns an error, not `false`, whatever the hash, the
password and the engine. -/
theorem field_count_rejection (s : Bytes) (h : (Split s colon).length ≠ 3) :
    GetPasswordParametersFromString s = .error .formatFieldCount ∧
      ∀ (engine : PBKDF) (hash : Hash) (password : Bytes),
        VerifyPassword hash password s engine
          = .error (.verifyParameters .formatFieldCount) :=
  ⟨parse_field_count s h, fun engine hash password =>
    verify_of_parse_error engine hash password s _ (parse_field_count s h)⟩

/-- Witness of C12: a text of two fields, a text of four fields and the empty text
(one field) are refused. -/
theorem field_count_rejection_witness :
    GetPasswordParametersFromString (ascii "AQID:5") = .error .formatFieldCount ∧
      GetPasswordParametersFromString (ascii "AQID:5:AQID:x") = .error .formatFieldCount ∧
      GetPasswordParametersFromString (ascii "") = .error .formatFieldCount ∧
      VerifyPassword toyHash (ascii "hunter2") (ascii "") PBKDF2
        = .error (.verifyParameters .formatFieldCount) :=
  ⟨(field_count_rejection (ascii "AQID:5") (by decide)).1,
    (field_count_rejection (ascii "AQID:5:AQID:x") (by decide)).1,
    (field_count_rejection (ascii "") (by decide)).1,
    (field_count_rejection (ascii "") (by decide)).2 PBKDF2 toyHash (ascii "hunter2")⟩

/-- C13, as the specification states it, fails: the text `AQID\n:5:AQID` has three
fields, its first field `AQID\n` (five bytes, the last a line feed) is not valid padded
standard base64, and `GetPasswordParametersFromString` succeeds on it, because the
decoder of `base64.StdEncoding` ignores `\r` and `\n`. -/
theorem field_content_counterexample :
    Split (ascii "AQID\n:5:AQID") colon = [ascii "AQID\n", ascii "5", ascii "AQID"] ∧
      validBase64 (ascii "AQID\n") = false ∧
      GetPasswordParametersFromString (ascii "AQID\n:5:AQID")
        = .ok ([1, 2, 3], 5, [1, 2, 3]) := by
  decide

/-- C13, amended. For every three-field string, `GetPasswordParametersFromString`
succeeds if and only if field 1 and field 3, once their `\r` and `\n` bytes are left
out, are valid padded standard base64 and field 2 is a base-10 integer (an optional
sign and decimal digits) that fits in a signed 64-bit value; a salt field that is not
base64, an iteration field that is not numeric or is out of the 64-bit range, and a
key field that is not base64 each yield an error. -/
theorem field_content_acceptance (s f0 f1 f2 : Bytes) (h : Split s colon = [f0, f1, f2]) :
    ((GetPasswordParametersFromString s).isOk = true ↔
        validBase64 (stripNewlines f0) = true ∧ validBase64 (stripNewlines f2) = true ∧
          isDecimalText f1 = true ∧ isInt64 (decimalValue f1)) ∧
      (validBase64 (stripNewlines f0) = false →
        GetPasswordParametersFromString s = .error .formatSalt) ∧
      (validBase64 (stripNewlines f0) = true →
        ¬ (isDecimalText f1 = true ∧ isInt64 (decimalValue f1)) →
        GetPasswordParametersFromString s = .error .formatIterationCount) ∧
      (validBase64 (stripNewlines f0) = true →
        isDecimalText f1 = true ∧ isInt64 (decimalValue f1) →
        validBase64 (stripNewlines f2) = false →
        GetPasswordParametersFromString s = .error .formatKey) := by
  have h0 := base64Decode_isSome f0
  have h2 := base64Decode_isSome f2
  have h1 := ParseInt_eq f1
  unfold GetPasswordParametersFromString
  rw [h]
  simp only
  cases hd0 : base64Decode f0 with
  | none =>
    rw [hd0] at h0
    have hv0 : validBase64 (stripNewlines f0) = false := by rw [← h0]; rfl
    simp [hv0, Outcome.isOk]
  | some salt =>
    rw [hd0] at h0
    have hv0 : validBase64 (stripNewlines f0) = true := by rw [← h0]; rfl
    by_cases hdec : isDecimalText f1 = true ∧ isInt64 (decimalValue f1)
    · rw [if_pos hdec] at h1
      cases hd2 : base64Decode f2 with
      | none =>
        rw [hd2] at h2
        have hv2 : validBase64 (stripNewlines f2) = false := by rw [← h2]; rfl
        simp [hv0, hv2, h1, hdec, Outcome.isOk]
      | some key =>
        rw [hd2] at h2
        have hv2 : validBase64 (stripNewlines f2) = true := by rw [← h2]; rfl
        simp [hv0, hv2, h1, hdec, Outcome.isOk]
    · rw [if_neg hdec] at h1
      simp only [h1, hv0]
      refine ⟨?_, ?_, ?_, ?_⟩
      · constructor
        · intro hx; cases hx
        · rintro ⟨_, _, hx⟩; exact absurd hx hdec
      · intro hx; cases hx
      · intro _ _; trivial
      · intro _ hx; exact absurd hx hdec

/-- Witness of the amended C13: the text `AQID\n:+5:AR==`, with a line feed in the
first field, a signed iteration count and a padded third field, is accepted. -/
theorem field_content_acceptance_witness :
    Split (ascii "AQID\n:+5:AR==") colon = [ascii "AQID\n", ascii "+5", ascii "AR=="] ∧
      (GetPasswordParametersFromString (ascii "AQID\n:+5:AR==")).isOk = true :=
  ⟨by decide,
    (field_content_acceptance (ascii "AQID\n:+5:AR==") (ascii "AQID\n") (ascii "+5")
      (ascii "AR==") (by decide)).1.mpr (by decide)⟩

/-- C14, as the specification states it, fails: with the example hash, whose first
digest byte is the length of the message, the record that `EncodePassword` produces
for the password `hunter2` with `PBKDF1`, three iterations and a key of one byte is
`AQIDBAU=:3:Ag==`, and `VerifyPassword` answers `(true, nil)` for `hunter3`, which
differs from `hunter2` in a single character. -/
theorem wrong_password_counterexample :
    EncodePassword toyRand toyHash (ascii "hunter2") 5 3 1 PBKDF1
        = .ok (ascii "AQIDBAU=:3:Ag==") ∧
      VerifyPassword toyHash (ascii "hunter3") (ascii "AQIDBAU=:3:Ag==") PBKDF1
        = .ok true := by
  decide

/-- C14, amended. For each engine `E` of `PBKDF1` and `PBKDF2`, every record `r` that
`EncodePassword` produces for a password `p`, and every password `p2` (in particular
one obtained from `p` by changing a single character), `VerifyPassword(hash, p2, r, E)`
returns no error: the engine derives a key from `p2` with the salt, iteration count
and key length of the record, and the verdict is `false` if and only if that key
differs from the key derived from `p`. -/
theorem wrong_password_verdict (rand : RandomSource) (hash : Hash) (p p2 : Bytes)
    (saltLength iterationCount keyLength : Int) (E : PBKDF) (r : Bytes)
    (hE : E = PBKDF1 ∨ E = PBKDF2) (hc : isInt64 iterationCount)
    (henc : EncodePassword rand hash p saltLength iterationCount keyLength E = .ok r) :
    ∃ salt key key2 b, GenerateRandomSequence rand saltLength = .ok salt ∧
      E hash p salt iterationCount keyLength = .ok key ∧
      E hash p2 salt iterationCount keyLength = .ok key2 ∧
      VerifyPassword hash p2 r E = .ok b ∧ (b = false ↔ key2 ≠ key) := by
  obtain ⟨salt, key, hs, hk, hr⟩ :=
    encode_ok_inv rand hash p saltLength iterationCount keyLength E r henc
  have hlen : (key.length : Int) = keyLength := by
    rcases hE with hE | hE
    · rw [hE] at hk; exact PBKDF1_length hash p salt iterationCount keyLength key hk
    · rw [hE] at hk; exact PBKDF2_length hash p salt iterationCount keyLength key hk
  obtain ⟨key2, hk2⟩ : ∃ key2, E hash p2 salt iterationCount keyLength = .ok key2 := by
    rcases hE with hE | hE
    · rw [hE] at hk ⊢; exact PBKDF1_ok_of_ok hash p p2 salt iterationCount keyLength key hk
    · rw [hE] at hk ⊢; exact PBKDF2_ok_of_ok hash p p2 salt iterationCount keyLength key hk
  have hp := parse_generate salt iterationCount key hc
  rw [← hr] at hp
  have hk3 : E hash p2 salt iterationCount key.length = .ok key2 := by rw [hlen]; exact hk2
  refine ⟨salt, key, key2, decide (key2 = key), hs, hk, hk2,
    verify_verdict E hash p2 r salt key key2 iterationCount hp hk3, ?_⟩
  simp

/-- Witness of the amended C14: with `PBKDF2` and a key of five bytes the password
`hunter3` derives another key than `hunter2`, and the verdict is `false`. -/
theorem wrong_password_verdict_witness :
    ∃ salt key key2 b, GenerateRandomSequence toyRand 5 = .ok salt ∧
      PBKDF2 toyHash (ascii "hunter2") salt 3 5 = .ok key ∧
      PBKDF2 toyHash (ascii "hunter3") salt 3 5 = .ok key2 ∧
      VerifyPassword toyHash (ascii "hunter3") (ascii "AQIDBAU=:3:ECIQIxA=") PBKDF2 = .ok b ∧
      (b = false ↔ key2 ≠ key) :=
  wrong_password_verdict toyRand toyHash (ascii "hunter2") (ascii "hunter3") 5 3 5 PBKDF2
    (ascii "AQIDBAU=:3:ECIQIxA=") (Or.inr rfl) ⟨by decide, by decide⟩ (by decide)

/-- C15 at the block index `i = 1`: the four bytes `PBKDF2` appends to the salt are
`00 00 00 01`, most significant byte first, not the little-endian `01 00 00 00`; the
first round of `F(1)` hashes `P ‖ S ‖ 00 00 00 01`; and for every block index the four
bytes are the big-endian digits of the index. -/
theorem block_index_encoding :
    ConvertUnsignedIntegerToByteSlice (toUint64 1) 4 false = .ok [0, 0, 0, 1] ∧
      bigEndianValue [0, 0, 0, 1] = 1 ∧ littleEndianValue [0, 0, 0, 1] = 16777216 ∧
      PBKDF2.F toyHash [1, 2, 3] [4, 5] 1 toyHash.Size toyHash.New 1
        = .ok (toyHash.sum ([1, 2, 3] ++ [4, 5] ++ [0, 0, 0, 1]), toyHash.New) ∧
      toyHash.sum ([1, 2, 3] ++ [4, 5] ++ [0, 0, 0, 1])
        ≠ toyHash.sum ([1, 2, 3] ++ [4, 5] ++ [1, 0, 0, 0]) ∧
      ∀ i : Nat, bigEndianValue (enc4 i) = i % 2 ^ 32 :=
  ⟨by decide, by decide, by decide, by decide, by decide, enc4_bigEndian⟩

/-- C16 at the failing input `ConvertUnsignedIntegerToByteSlice(1, 1, true)`: the call
panics, and so does every call with the flag `true` and a positive length, because
the loop of that branch counts down (`i--`) and indexes `b[-1]`; with the flag
`false` the round trip of the claim holds for every length from zero to eight. -/
theorem codec_round_trip_failure :
    ConvertUnsignedIntegerToByteSlice 1 1 true = .panic ∧
      (∀ (x : Nat) (n : Int), 0 < n → ConvertUnsignedIntegerToByteSlice x n true = .panic) ∧
      (∀ (x : Nat) (n : Int) (fuel : Nat), 0 ≤ n →
        convertLoopTrue x n (fuel + 2) 0 0 (makeBytes n.toNat)
          = some (if n = 0 then .ok [] else .panic)) ∧
      (∀ (x : Nat) (n : Int), 0 ≤ n → n ≤ 8 →
        ∃ bs, ConvertUnsignedIntegerToByteSlice x n false = .ok bs ∧
          (bs.length : Int) = n ∧
          ConvertSliceToUnsignedInteger bs false = .ok (x % 2 ^ (8 * n.toNat))) :=
  ⟨by decide, convert_true_panic,
    fun x n fuel hn => convertLoopTrue_fuel x n hn fuel, codec_false_round_trip⟩

/-- C17 at the failing input `ConvertSliceToUnsignedInteger([01 00], true)`: the call
returns `1`, the little-endian value of the slice, where the claim says the big-endian
value `256`; with the flag `false` it returns `256`. For every slice of at most eight
bytes the flag `false` reads big-endian and the flag `true` reads little-endian. -/
theorem slice_flag_reading :
    ConvertSliceToUnsignedInteger [1, 0] true = .ok 1 ∧ bigEndianValue [1, 0] = 256 ∧
      ConvertSliceToUnsignedInteger [1, 0] false = .ok 256 ∧
      littleEndianValue [1, 0] = 1 ∧
      ∀ s : Bytes, s.length ≤ 8 →
        ConvertSliceToUnsignedInteger s false = .ok (bigEndianValue s) ∧
          ConvertSliceToUnsignedInteger s true = .ok (littleEndianValue s) :=
  ⟨by decide, by decide, by decide, by decide, convertSlice_short⟩

/-- C18. Parsing does no range validation: for every salt, key and 64-bit iteration
count `c`, zero and negative values included, the record
`base64(salt):decimal(c):base64(key)` is accepted by `GetPasswordParametersFromString`
and `c` is returned unchanged; a count `c ≤ 0` is refused only by the engine, so that
`VerifyPassword` on such a record returns the error of its derivation step, for both
engines and every hash and password. -/
theorem parse_no_range_validation (salt key : Bytes) (c : Int) (hc : isInt64 c) :
    GetPasswordParametersFromString (GeneratePasswordString salt c key)
        = .ok (salt, c, key) ∧
      (c ≤ 0 → ∀ (hash : Hash) (password : Bytes),
        (∃ e, PBKDF1 hash password salt c key.length = .error e ∧
          VerifyPassword hash password (GeneratePasswordString salt c key) PBKDF1
            = .error (.verifyKdf e)) ∧
        (∃ e, PBKDF2 hash password salt c key.length = .error e ∧
          VerifyPassword hash password (GeneratePasswordString salt c key) PBKDF2
            = .error (.verifyKdf e))) := by
  have hp := parse_generate salt c key hc
  refine ⟨hp, ?_⟩
  intro hle hash password
  constructor
  · obtain ⟨e, he⟩ := exists_error_of_isError _
      ((PBKDF1_isError_iff hash password salt c key.length).mpr (Or.inr (Or.inr hle)))
    exact ⟨e, he, verify_of_kdf_error PBKDF1 hash password _ salt key c e hp he⟩
  · obtain ⟨e, he⟩ := exists_error_of_isError _
      ((PBKDF2_isError_iff hash password salt c key.length).mpr (Or.inr (Or.inr hle)))
    exact ⟨e, he, verify_of_kdf_error PBKDF2 hash password _ salt key c e hp he⟩

/-- Witness of C18: the record `AQID:-7:CQ==` with the iteration count `-7` parses to
`(01 02 03, -7, 09)`. -/
theorem parse_no_range_validation_witness :
    GeneratePasswordString [1, 2, 3] (-7) [9] = ascii "AQID:-7:CQ==" ∧
      GetPasswordParametersFromString (GeneratePasswordString [1, 2, 3] (-7) [9])
        = .ok ([1, 2, 3], -7, [9]) :=
  ⟨by decide, (parse_no_range_validation [1, 2, 3] [9] (-7) ⟨by decide, by decide⟩).1⟩

/-- C19. Determinism, for the engines run in explicit state passing over the heap of
hash contexts: for each engine the result (the same error or the same key) is the same
from whatever heap the call starts, so it depends on nothing but `(hash, P, S, c, dkLen)`;
a derivation started in the heap that an earlier call of either engine, with any
arguments, has left returns what it returns without that call; a call changes no
context that existed before it; and the result is the one of the engine written as a
function of the five arguments. -/
theorem derivation_deterministic (hash : Hash) (P S : Bytes) (c dkLen : Int) :
    (∀ heap1 heap2 : Heap,
      (Stateful.PBKDF1 hash P S c dkLen heap1).1 = (Stateful.PBKDF1 hash P S c dkLen heap2).1 ∧
      (Stateful.PBKDF2 hash P S c dkLen heap1).1
        = (Stateful.PBKDF2 hash P S c dkLen heap2).1) ∧
      (∀ (E0 E : Stateful.PBKDF) (hash0 : Hash) (P0 S0 : Bytes) (c0 dkLen0 : Int)
          (heap : Heap),
        E0 = Stateful.PBKDF1 ∨ E0 = Stateful.PBKDF2 →
        E = Stateful.PBKDF1 ∨ E = Stateful.PBKDF2 →
        (E hash P S c dkLen (E0 hash0 P0 S0 c0 dkLen0 heap).2).1
          = (E hash P S c dkLen heap).1) ∧
      (∀ heap : Heap,
        (∃ rest, (Stateful.PBKDF1 hash P S c dkLen heap).2 = heap ++ rest) ∧
        ∃ rest, (Stateful.PBKDF2 hash P S c dkLen heap).2 = heap ++ rest) ∧
      (∀ heap : Heap,
        (Stateful.PBKDF1 hash P S c dkLen heap).1 = PBKDF1 hash P S c dkLen ∧
        (Stateful.PBKDF2 hash P S c dkLen heap).1 = PBKDF2 hash P S c dkLen) := by
  have r1 : ∀ heap : Heap, (Stateful.PBKDF1 hash P S c dkLen heap).1 = PBKDF1 hash P S c dkLen := by
    intro heap
    obtain ⟨rest, h⟩ := stateful_PBKDF1_eq hash P S c dkLen heap
    rw [h]
  have r2 : ∀ heap : Heap, (Stateful.PBKDF2 hash P S c dkLen heap).1 = PBKDF2 hash P S c dkLen := by
    intro heap
    obtain ⟨rest, h⟩ := stateful_PBKDF2_eq hash P S c dkLen heap
    rw [h]
  refine ⟨fun heap1 heap2 => ⟨?_, ?_⟩, ?_, fun heap => ⟨?_, ?_⟩, fun heap => ⟨r1 heap, r2 heap⟩⟩
  · rw [r1 heap1, r1 heap2]
  · rw [r2 heap1, r2 heap2]
  · intro E0 E hash0 P0 S0 c0 dkLen0 heap _ hE
    rcases hE with hE | hE
    · rw [hE, r1, r1]
    · rw [hE, r2, r2]
  · obtain ⟨rest, h⟩ := stateful_PBKDF1_eq hash P S c dkLen heap
    exact ⟨rest, by rw [h]⟩
  · obtain ⟨rest, h⟩ := stateful_PBKDF2_eq hash P S c dkLen heap
    exact ⟨rest, by rw [h]⟩

/-- Witness of C19: the heap holds a context in which the bytes `01 02 03` were written
and never reset; `PBKDF1` is called, then `PBKDF2`; `PBKDF2` returns the key
`10 22 10 23 10`, which it also returns from the empty heap, and the old context is
still as it was. -/
theorem derivation_deterministic_witness :
    (Stateful.PBKDF2 toyHash (ascii "hunter2") [1, 2, 3, 4, 5] 3 5
        (Stateful.PBKDF1 toyHash (ascii "secret") [9] 2 1 [[1, 2, 3]]).2).1
        = (Stateful.PBKDF2 toyHash (ascii "hunter2") [1, 2, 3, 4, 5] 3 5 [[1, 2, 3]]).1 ∧
      Stateful.PBKDF2 toyHash (ascii "hunter2") [1, 2, 3, 4, 5] 3 5
          (Stateful.PBKDF1 toyHash (ascii "secret") [9] 2 1 [[1, 2, 3]]).2
        = (.ok [16, 34, 16, 35, 16], [[1, 2, 3], [], []]) ∧
      Stateful.PBKDF2 toyHash (ascii "hunter2") [1, 2, 3, 4, 5] 3 5 []
        = (.ok [16, 34, 16, 35, 16], [[]]) :=
  ⟨(derivation_deterministic toyHash (ascii "hunter2") [1, 2, 3, 4, 5] 3 5).2.1
      Stateful.PBKDF1 Stateful.PBKDF2 toyHash (ascii "secret") [9] 2 1 [[1, 2, 3]]
      (Or.inl rfl) (Or.inr rfl),
    by decide, by decide⟩

/-- C20 at the failing input `GenerateRandomByte(0, 255)`: `max - min + 1` is `0` in
`byte` arithmetic and the remainder panics, whatever byte the random source delivers;
for every other range `min ≤ max` the call returns a byte `v` with
`min ≤ v ≤ max`. -/
theorem random_byte_range :
    GenerateRandomByte toyRand 0 255 = .panic ∧
      (∀ (rand : RandomSource) (seed : Byte) (rest : Bytes),
        GenerateRandomSequence rand 1 = .ok (seed :: rest) →
        GenerateRandomByte rand 0 255 = .panic) ∧
      (∀ (rand : RandomSource) (min max seed : Byte) (rest : Bytes),
        GenerateRandomSequence rand 1 = .ok (seed :: rest) → min ≤ max →
        ¬ (min = 0 ∧ max = 255) →
        ∃ v, GenerateRandomByte rand min max = .ok v ∧ min ≤ v ∧ v ≤ max) := by
  refine ⟨by decide, ?_, ?_⟩
  · intro rand seed rest h
    rw [GenerateRandomByte_eq rand 0 255 seed rest h, if_pos (by decide)]
  · intro rand min max seed rest h hle hne
    obtain ⟨h0, h1, h2⟩ := randomByte_in_range min max seed hle hne
    exact ⟨_, by rw [GenerateRandomByte_eq rand min max seed rest h, if_neg h0], h1, h2⟩

/-- C21 at the failing input `GenerateRandomInt64(-2^63, 2^63 - 1)`: `max-min+1` wraps
to `0` and the remainder panics, whatever eight bytes the random source delivers; for
every other pair of 64-bit integers `min ≤ max`, ranges wider than `2^63` included, the
call returns a value `v` with `min ≤ v ≤ max`. -/
theorem random_int64_range :
    GenerateRandomInt64 toyRand (-9223372036854775808) 9223372036854775807 = .panic ∧
      (∀ (rand : RandomSource) (seed : Bytes),
        GenerateRandomSequence rand 8 = .ok seed →
        GenerateRandomInt64 rand (-2 ^ 63) (2 ^ 63 - 1) = .panic) ∧
      (∀ (rand : RandomSource) (min max : Int) (seed : Bytes),
        GenerateRandomSequence rand 8 = .ok seed → isInt64 min → isInt64 max → min ≤ max →
        ¬ (min = -2 ^ 63 ∧ max = 2 ^ 63 - 1) →
        ∃ v, GenerateRandomInt64 rand min max = .ok v ∧ min ≤ v ∧ v ≤ max) ∧
      GenerateRandomInt64 toyRand (-9223372036854775807) 9223372036854775807
        = .ok (-9150748177064392951) :=
  ⟨by decide, randomInt64_full_range,
    fun rand min max seed hs hmin hmax h hne =>
      randomInt64_in_range rand min max seed hs hmin hmax h hne,
    by decide⟩

/-- C22. Derived keys are prefix-consistent: for each engine `E` of `PBKDF1` and
`PBKDF2` and key lengths `0 ≤ n ≤ m`, if `E(hash, P, S, c, m)` returns a key then
`E(hash, P, S, c, n)` returns its first `n` bytes; consequently the record of the salt
`S`, the count `c` and the key truncated to its first `n` bytes still verifies for the
password `P`. -/
theorem derived_key_prefix (E : PBKDF) (hash : Hash) (P S : Bytes) (c n m : Int)
    (km : Bytes) (hE : E = PBKDF1 ∨ E = PBKDF2) (hc : isInt64 c) (h0 : 0 ≤ n) (hnm : n ≤ m)
    (hm : E hash P S c m = .ok km) :
    E hash P S c n = .ok (km.take n.toNat) ∧
      VerifyPassword hash P (GeneratePasswordString S c (km.take n.toNat)) E = .ok true := by
  have hn : E hash P S c n = .ok (km.take n.toNat) := by
    rcases hE with hE | hE
    · rw [hE] at hm ⊢; exact PBKDF1_prefix hash P S c n m km h0 hnm hm
    · rw [hE] at hm ⊢; exact PBKDF2_prefix hash P S c n m km h0 hnm hm
  have hlen : ((km.take n.toNat).length : Int) = n := by
    rcases hE with hE | hE
    · rw [hE] at hn; exact PBKDF1_length hash P S c n _ hn
    · rw [hE] at hn; exact PBKDF2_length hash P S c n _ hn
  refine ⟨hn, ?_⟩
  have hp := parse_generate S c (km.take n.toNat) hc
  have hk : E hash P S c ((km.take n.toNat).length : Int) = .ok (km.take n.toNat) := by
    rw [hlen]; exact hn
  rw [verify_verdict E hash P _ S (km.take n.toNat) (km.take n.toNat) c hp hk]
  simp

/-- Witness of C22: the key of five bytes that `PBKDF2` derives with the example hash
is `10 22 10 23 10`, the key of three bytes is its prefix `10 22 10`, and the record
with the truncated key verifies. -/
theorem derived_key_prefix_witness :
    PBKDF2 toyHash (ascii "hunter2") [1, 2, 3, 4, 5] 3 5 = .ok [16, 34, 16, 35, 16] ∧
      PBKDF2 toyHash (ascii "hunter2") [1, 2, 3, 4, 5] 3 3 = .ok [16, 34, 16] ∧
      VerifyPassword toyHash (ascii "hunter2")
        (GeneratePasswordString [1, 2, 3, 4, 5] 3 [16, 34, 16]) PBKDF2 = .ok true :=
  ⟨by decide,
    derived_key_prefix PBKDF2 toyHash (ascii "hunter2") [1, 2, 3, 4, 5] 3 3 5
      [16, 34, 16, 35, 16] (Or.inr rfl) ⟨by decide, by decide⟩ (by decide) (by decide)
      (by decide)⟩

/-- C23. An empty stored key accepts every password: for every hash, salt, 64-bit
iteration count `c > 0` and password, the record `base64(salt):c:` with an empty third
field is what `EncodePassword` produces for `keyLength = 0`, and `VerifyPassword` on it
returns `(true, nil)` with `PBKDF1`, and with `PBKDF2` for a hash of positive size. -/
theorem empty_key_accepts (hash : Hash) (salt password : Bytes) (c : Int)
    (hc : isInt64 c) (hpos : 0 < c) :
    GeneratePasswordString salt c [] = base64Encode salt ++ [colon] ++ formatInt c ++ [colon] ∧
      VerifyPassword hash password (GeneratePasswordString salt c []) PBKDF1 = .ok true ∧
      (0 < hash.Size →
        VerifyPassword hash password (GeneratePasswordString salt c []) PBKDF2 = .ok true) ∧
      (∀ (rand : RandomSource) (saltLength : Int) (p : Bytes),
        GenerateRandomSequence rand saltLength = .ok salt →
        EncodePassword rand hash p saltLength c 0 PBKDF1
            = .ok (GeneratePasswordString salt c []) ∧
          (0 < hash.Size →
            EncodePassword rand hash p saltLength c 0 PBKDF2
              = .ok (GeneratePasswordString salt c []))) := by
  have hp := parse_generate salt c [] hc
  have h1 : ∀ p : Bytes, PBKDF1 hash p salt c 0 = .ok [] :=
    fun p => PBKDF1_zero hash p salt c hpos
  have h2 : 0 < hash.Size → ∀ p : Bytes, PBKDF2 hash p salt c 0 = .ok [] :=
    fun hh p => PBKDF2_zero hash p salt c hh hpos
  refine ⟨by simp [GeneratePasswordString, base64Encode], ?_, ?_, ?_⟩
  · rw [verify_verdict PBKDF1 hash password _ salt [] [] c hp (h1 password)]
    simp
  · intro hh
    rw [verify_verdict PBKDF2 hash password _ salt [] [] c hp (h2 hh password)]
    simp
  · intro rand saltLength p hs
    exact ⟨encode_of_ok PBKDF1 rand hash p saltLength c 0 salt [] hs (h1 p),
      fun hh => encode_of_ok PBKDF2 rand hash p saltLength c 0 salt [] hs (h2 hh p)⟩

/-- Witness of C23: the record `AQID:3:` accepts the password `anything` with both
engines. -/
theorem empty_key_accepts_witness :
    GeneratePasswordString [1, 2, 3] 3 [] = ascii "AQID:3:" ∧
      VerifyPassword toyHash (ascii "anything") (GeneratePasswordString [1, 2, 3] 3 []) PBKDF1
        = .ok true ∧
      VerifyPassword toyHash (ascii "anything") (GeneratePasswordString [1, 2, 3] 3 []) PBKDF2
        = .ok true :=
  ⟨by decide,
    (empty_key_accepts toyHash [1, 2, 3] (ascii "anything") 3 ⟨by decide, by decide⟩
      (by decide)).2.1,
    (empty_key_accepts toyHash [1, 2, 3] (ascii "anything") 3 ⟨by decide, by decide⟩
      (by decide)).2.2.1 (by decide)⟩

/-- C24. The length-mismatch branch and the key indexing of `VerifyPassword` are safe
for the two shipped engines: whenever the record parses and `PBKDF1` or `PBKDF2`
returns a key, that key has the length of the stored key, so the branch at the length
comparison is not taken, the comparison loop does not index out of bounds, and the
verdict is the result of the loop. -/
theorem verify_length_branch (E : PBKDF) (hash : Hash)
    (password record salt storedKey derived : Bytes) (c : Int)
    (hE : E = PBKDF1 ∨ E = PBKDF2)
    (hp : GetPasswordParametersFromString record = .ok (salt, c, storedKey))
    (hk : E hash password salt c storedKey.length = .ok derived) :
    storedKey.length = derived.length ∧
      compareLoop storedKey derived = .ok (decide (storedKey = derived)) ∧
      VerifyPassword hash password record E = compareLoop storedKey derived := by
  have hlen : storedKey.length = derived.length := by
    have h : (derived.length : Int) = storedKey.length := by
      rcases hE with hE | hE
      · rw [hE] at hk; exact PBKDF1_length hash password salt c _ derived hk
      · rw [hE] at hk; exact PBKDF2_length hash password salt c _ derived hk
    omega
  refine ⟨hlen, compareLoop_eq storedKey derived hlen, ?_⟩
  unfold VerifyPassword
  simp only [hp, hk]
  rw [if_neg (not_not.mpr hlen)]

/-- Witness of C24: verifying `hunter3` against the record of `hunter2` under `PBKDF2`
derives five bytes for the five stored bytes, and the verdict comes from the
comparison loop. -/
theorem verify_length_branch_witness :
    ([16, 34, 16, 35, 16] : Bytes).length = ([16, 134, 16, 131, 16] : Bytes).length ∧
      compareLoop [16, 34, 16, 35, 16] [16, 134, 16, 131, 16]
        = .ok (decide (([16, 34, 16, 35, 16] : Bytes) = [16, 134, 16, 131, 16])) ∧
      VerifyPassword toyHash (ascii "hunter3") (ascii "AQIDBAU=:3:ECIQIxA=") PBKDF2
        = compareLoop [16, 34, 16, 35, 16] [16, 134, 16, 131, 16] :=
  verify_length_branch PBKDF2 toyHash (ascii "hunter3") (ascii "AQIDBAU=:3:ECIQIxA=")
    [1, 2, 3, 4, 5] [16, 34, 16, 35, 16] [16, 134, 16, 131, 16] 3 (Or.inr rfl)
    (by decide) (by decide)

/-- C25. The text representation is not canonical on the parse side: the three
different texts `AQID:5:CQ==`, `AQID:+5:CQ==` and `AQID:05:CQ==` are accepted by
`GetPasswordParametersFromString` and give the same triple `(01 02 03, 5, 09)`, and
`GeneratePasswordString` applied to that triple gives the first text, not the second
or the third. -/
theorem parse_not_canonical :
    GetPasswordParametersFromString (ascii "AQID:5:CQ==") = .ok ([1, 2, 3], 5, [9]) ∧
      GetPasswordParametersFromString (ascii "AQID:+5:CQ==") = .ok ([1, 2, 3], 5, [9]) ∧
      GetPasswordParametersFromString (ascii "AQID:05:CQ==") = .ok ([1, 2, 3], 5, [9]) ∧
      ascii "AQID:5:CQ==" ≠ ascii "AQID:+5:CQ==" ∧
      ascii "AQID:5:CQ==" ≠ ascii "AQID:05:CQ==" ∧
      ascii "AQID:+5:CQ==" ≠ ascii "AQID:05:CQ==" ∧
      GeneratePasswordString [1, 2, 3] 5 [9] = ascii "AQID:5:CQ==" ∧
      (∃ t1 t2 : Bytes, t1 ≠ t2 ∧
        GetPasswordParametersFromString t1 = GetPasswordParametersFromString t2 ∧
        (GetPasswordParametersFromString t1).isOk = true) ∧
      (∃ (t salt key : Bytes) (c : Int),
        GetPasswordParametersFromString t = .ok (salt, c, key) ∧
        GeneratePasswordString salt c key ≠ t) :=
  ⟨by decide, by decide, by decide, by decide, by decide, by decide, by decide,
    ⟨ascii "AQID:5:CQ==", ascii "AQID:+5:CQ==", by decide, by decide, by decide⟩,
    ⟨ascii "AQID:+5:CQ==", [1, 2, 3], [9], 5, by decide, by decide⟩⟩

end Pbkdf
